import Mathlib

/-!
Verification development for the `suffixarr` Go package: a SA-IS suffix-array
construction engine (`sais` and its induction passes), the binary-search query
layer (`lookup`, `lookupTextOrder`, `LookupSuffix`, `LookupPrefix`) and the
generalized-suffix-array (GSA) layer.

The Go code is shallowly embedded: texts are `List Int` (Go `[]int32` code
points; all values handled stay far from the `int32` overflow boundary on the
inputs considered, so unbounded `Int` is a faithful model), the mutable
`sa`/`freq`/`bucket` buffers are `Array Int`, and the `for` loops become folds
over index ranges.  Reads and writes through an index are guarded exactly like
Go bounds checks: an out-of-range read yields 0 and an out-of-range write is
dropped (the concrete runs studied stay in bounds, which was checked by
tracing the evaluations).
-/

namespace Suffixarr

/-- Read `t[i]` as Go does on a slice, with `0` for an out-of-range index. -/
def tget (t : List Int) (i : Int) : Int :=
  if h : 0 ≤ i ∧ i.toNat < t.length then t.get ⟨i.toNat, h.2⟩ else 0

/-- Read `a[i]` on a buffer, with `0` for an out-of-range index. -/
def aget (a : Array Int) (i : Int) : Int :=
  if h : 0 ≤ i ∧ i.toNat < a.size then a.get ⟨i.toNat, h.2⟩ else 0

/-- Write `a[i] = v` on a buffer; an out-of-range write is dropped. -/
def aset (a : Array Int) (i v : Int) : Array Int :=
  if h : 0 ≤ i ∧ i.toNat < a.size then a.set ⟨i.toNat, h.2⟩ v else a

/-- Run `f` on `0, 1, …, n-1` from a start state: Go `for i := 0; i < n; i++`. -/
def upLoop {σ : Type} (n : Nat) (f : Nat → σ → σ) (st : σ) : σ :=
  (List.range n).foldl (fun s i => f i s) st

/-- Run `f` on `n-1, n-2, …, 0` from a start state: Go `for i := n-1; i >= 0; i--`. -/
def downLoop {σ : Type} (n : Nat) (f : Nat → σ → σ) (st : σ) : σ :=
  (List.range n).reverse.foldl (fun s i => f i s) st

/-! ## The classifier scan of `_sais`

`_sais` opens with a single right-to-left scan computing the minimum and
maximum code point and the LMS count.  The registers are `l` (current
character), `r` (previous `l`, i.e. the character one to the right, starting
from the zero value of `var l int32`), and the `S` flag. -/

/-- State of the backward classifier scan inside `_sais`: `minC`/`maxC` are the
running extrema, `num` the LMS count, `S` the S-type flag, `r` the previously
scanned character (the one to the right; initially the `int32` zero value). -/
structure CState where
  minC : Int
  maxC : Int
  num : Nat
  S : Bool
  r : Int
deriving Repr, DecidableEq

/-- One step of the classifier scan of `_sais`, at a position holding `l`. -/
def cstep (l : Int) (c : CState) : CState :=
  { minC := if l < c.minC then l else c.minC
    maxC := if l > c.maxC then l else c.maxC
    num := if l > c.r ∧ c.S then c.num + 1 else c.num
    S := if l < c.r then true else if l > c.r ∧ c.S then false else c.S
    r := l }

/-- The classifier scan over a suffix of the text: the list is scanned from its
last element to its first, exactly as the `for i := len(text)-1; i >= 0; i--`
loop of `_sais` scans positions right to left. -/
def cgo : List Int → CState → CState
  | [], c => c
  | a :: rest, c => cstep a (cgo rest c)

/-- The classifier of `_sais`: extrema start at `text[0]`, the flag at `false`,
the right-neighbour register at the `int32` zero value. -/
def classify (t : List Int) : CState :=
  cgo t ⟨t.headD 0, t.headD 0, 0, false, 0⟩

/-! ## Reference two-pass classifier (from the spec)

Modelled from the spec: a position is S-type if `T[i] < T[i+1]`, or
`T[i] = T[i+1]` and position `i+1` is S-type; position `n-1` is L-type by
convention; a position is LMS if it is S-type and its predecessor is L-type
(so position 0 is never LMS). -/

/-- S-type flags of every position of the text, last position L by convention. -/
def sTypes : List Int → List Bool
  | [] => []
  | [_] => [false]
  | a :: b :: rest =>
    let s := sTypes (b :: rest)
    (decide (a < b) || (decide (a = b) && s.headD false)) :: s

/-- S-type of position `i` of `t` per the reference classifier. -/
def isS (t : List Int) (i : Nat) : Bool :=
  (sTypes t).getD i false

/-- LMS test of position `i` of `t`: S-type with an L-type predecessor. -/
def isLMS (t : List Int) (i : Nat) : Bool :=
  0 < i && isS t i && !(isS t (i - 1))

/-- Number of LMS positions of `t` per the reference classifier. -/
def refNumLMS (t : List Int) : Nat :=
  ((List.range t.length).filter (fun i => isLMS t i)).length

/-- LMS positions of `t` in increasing (text) order. -/
def lmsPositions (t : List Int) : List Nat :=
  (List.range t.length).filter (fun i => isLMS t i)

/-- Count of adjacent L,S pairs in a flag list: one per LMS position, since a
position is LMS exactly when its flag is S and its predecessor's flag is L. -/
def pairCountLS : List Bool → Nat
  | [] => 0
  | [_] => 0
  | a :: b :: rest => (if !a && b then 1 else 0) + pairCountLS (b :: rest)

/-! ## Small-alphabet bucket layer -/

/-- Go `frequency(text, freq, minChar)`: clear `freq`, then count each
character at slot `character - minChar`.  The cleared buffer is modelled as a
fresh zero array of the same size. -/
def frequency (text : List Int) (size : Nat) (minChar : Int) : Array Int :=
  text.foldl (fun f v => aset f (v - minChar) (aget f (v - minChar) + 1))
    (Array.mkArray size 0)

/-- Go `bucketStart(freq, bucket)`: cumulative left edges, skipping
zero-frequency characters (their bucket slot is left untouched). -/
def bucketStart (freq bucket : Array Int) : Array Int :=
  (upLoop freq.size (fun i (st : Array Int × Int) =>
    let n := aget freq i
    if n > 0 then (aset st.1 i st.2, st.2 + n) else st) (bucket, 0)).1

/-- Go `bucketEnd(freq, bucket)`: cumulative right edges (inclusive), skipping
zero-frequency characters. -/
def bucketEnd (freq bucket : Array Int) : Array Int :=
  (upLoop freq.size (fun i (st : Array Int × Int) =>
    let n := aget freq i
    if n > 0 then (aset st.1 i (st.2 + n - 1), st.2 + n) else st) (bucket, 0)).1

/-! ## Induction passes, small-alphabet variants -/

/-- State of the backward scan of `insertLMS`: the classifier registers plus
the `sa`/`bucket` buffers, the slot of the most recent write and the count. -/
structure LMSIns where
  r : Int
  S : Bool
  sa : Array Int
  bucket : Array Int
  lastLMS : Int
  num : Nat

/-- One step (position `i`) of the backward scan of `insertLMS`. -/
def insertLMSStep (text : List Int) (minChar : Int) (i : Nat) (st : LMSIns) : LMSIns :=
  let l := tget text i
  if l < st.r then { st with r := l, S := true }
  else if l > st.r ∧ st.S then
    let j := st.r - minChar
    let b := aget st.bucket j
    { r := l, S := false, bucket := aset st.bucket j (b - 1),
      sa := aset st.sa b ((i : Int) + 1), lastLMS := b, num := st.num + 1 }
  else { st with r := l }

/-- Go `insertLMS`: place each LMS position at the end cursor of its bucket,
then clear the slot of the last write when more than one LMS exists. -/
def insertLMS (text : List Int) (sa freq bucket : Array Int) (minChar : Int) :
    Array Int × Array Int :=
  let bucket := bucketEnd freq bucket
  let st := downLoop text.length (insertLMSStep text minChar)
    ⟨0, false, sa, bucket, 0, 0⟩
  let sa := if st.num > 1 then aset st.sa st.lastLMS 0 else st.sa
  (sa, st.bucket)

/-- The `sa`/`bucket` pair threaded through an induction pass. -/
structure IndState where
  sa : Array Int
  bucket : Array Int

/-- One step (index `i`) of the forward scan of `induceSubL`: skip 0, restore a
negative entry, otherwise consume the entry and induce its predecessor. -/
def induceSubLStep (text : List Int) (minChar : Int) (i : Nat) (st : IndState) : IndState :=
  let j := aget st.sa i
  if j = 0 then st
  else if j < 0 then { st with sa := aset st.sa i (-j) }
  else
    let sa := aset st.sa i 0
    let k := j - 1
    let l := tget text (k - 1)
    let r := tget text k
    let k := if l < r then -k else k
    let b := aget st.bucket (r - minChar)
    { sa := aset sa b k, bucket := aset st.bucket (r - minChar) (b + 1) }

/-- Go `induceSubL`: seed the bucket of the last character with `±(n-1)`, then
scan `sa` forward inducing predecessors at bucket starts. -/
def induceSubL (text : List Int) (sa freq bucket : Array Int) (minChar : Int) :
    Array Int × Array Int :=
  let bucket := bucketStart freq bucket
  let n := text.length
  let k : Int := (n : Int) - 1
  let l := tget text (k - 1)
  let r := tget text k
  let lastChar := tget text ((n : Int) - 1)
  let b := aget bucket (lastChar - minChar)
  let k := if l < r then -k else k
  let bucket := aset bucket (lastChar - minChar) (b + 1)
  let sa := aset sa b k
  let st := upLoop sa.size (induceSubLStep text minChar) ⟨sa, bucket⟩
  (st.sa, st.bucket)

/-- State of `induceSubS`: the buffers plus the running `top` cursor. -/
structure SubSState where
  sa : Array Int
  bucket : Array Int
  top : Int

/-- One step (index `i`) of the backward scan of `induceSubS`: skip 0, clear
the slot, move a negative entry's absolute value to the top region, otherwise
induce the predecessor at its bucket end. -/
def induceSubSStep (text : List Int) (minChar : Int) (i : Nat) (st : SubSState) : SubSState :=
  let j := aget st.sa i
  if j = 0 then st
  else
    let sa := aset st.sa i 0
    if j < 0 then
      let top := st.top - 1
      { st with sa := aset sa top (-j), top := top }
    else
      let k := j - 1
      let l := tget text (k - 1)
      let r := tget text k
      let k := if l > r then -k else k
      let b := aget st.bucket (r - minChar)
      { st with sa := aset sa b k, bucket := aset st.bucket (r - minChar) (b - 1) }

/-- Go `induceSubS`: scan `sa` backward inducing S-type predecessors at bucket
ends, collecting finished (negative) entries at the top of `sa`. -/
def induceSubS (text : List Int) (sa freq bucket : Array Int) (minChar : Int) :
    Array Int × Array Int :=
  let bucket := bucketEnd freq bucket
  let st := downLoop sa.size (induceSubSStep text minChar) ⟨sa, bucket, (sa.size : Int)⟩
  (st.sa, st.bucket)

/-- One step (index `i`) of the forward scan of the final `induceL`: entries
that are not positive are skipped (and kept); a positive entry induces its
predecessor, guarded by `k > 0` before reading `text[k-1]`. -/
def induceLStep (text : List Int) (minChar : Int) (i : Nat) (st : IndState) : IndState :=
  let j := aget st.sa i
  if j ≤ 0 then st
  else
    let k := j - 1
    let r := tget text k
    let k := if k > 0 ∧ tget text (k - 1) < r then -k else k
    let b := aget st.bucket (r - minChar)
    { sa := aset st.sa b k, bucket := aset st.bucket (r - minChar) (b + 1) }

/-- Go `induceL`: same seed as `induceSubL`, then the forward scan that keeps
entries in place. -/
def induceL (text : List Int) (sa freq bucket : Array Int) (minChar : Int) :
    Array Int × Array Int :=
  let bucket := bucketStart freq bucket
  let n := text.length
  let k : Int := (n : Int) - 1
  let l := tget text (k - 1)
  let r := tget text k
  let lastChar := tget text ((n : Int) - 1)
  let b := aget bucket (lastChar - minChar)
  let k := if l < r then -k else k
  let bucket := aset bucket (lastChar - minChar) (b + 1)
  let sa := aset sa b k
  let st := upLoop sa.size (induceLStep text minChar) ⟨sa, bucket⟩
  (st.sa, st.bucket)

/-- One step (index `i`) of the backward scan of the final `induceS`:
non-negative entries are skipped; a negative entry is restored in place and its
predecessor induced, guarded by `k > 0` and with the `≤` tie rule. -/
def induceSStep (text : List Int) (minChar : Int) (i : Nat) (st : IndState) : IndState :=
  let j := aget st.sa i
  if j ≥ 0 then st
  else
    let j := -j
    let sa := aset st.sa i j
    let k := j - 1
    let r := tget text k
    let k := if k > 0 ∧ tget text (k - 1) ≤ r then -k else k
    let b := aget st.bucket (r - minChar)
    { sa := aset sa b k, bucket := aset st.bucket (r - minChar) (b - 1) }

/-- Go `induceS`: backward scan restoring negated entries and inducing S-type
predecessors at bucket ends. -/
def induceS (text : List Int) (sa freq bucket : Array Int) (minChar : Int) :
    Array Int × Array Int :=
  let bucket := bucketEnd freq bucket
  let st := downLoop sa.size (induceSStep text minChar) ⟨sa, bucket⟩
  (st.sa, st.bucket)

/-! ## Summarisation -/

/-- State of `lengthLMS`: classifier registers plus `prev` and the buffer. -/
structure LenState where
  r : Int
  S : Bool
  prev : Int
  sa : Array Int

/-- One step (position `i`) of the backward scan of `lengthLMS`. -/
def lengthLMSStep (text : List Int) (i : Nat) (st : LenState) : LenState :=
  let l := tget text i
  if l < st.r then { st with r := l, S := true }
  else if l > st.r ∧ st.S then
    { r := l, S := false, prev := (i : Int),
      sa := aset st.sa (((i : Int) + 1) / 2) (st.prev - (i : Int)) }
  else { st with r := l }

/-- Go `lengthLMS`: store, for each LMS position `p`, the distance to the next
LMS position (to the final position for the last one) at the half slot `p/2`. -/
def lengthLMS (text : List Int) (sa : Array Int) : Array Int :=
  (downLoop text.length (lengthLMSStep text)
    ⟨0, false, (text.length : Int) - 1, sa⟩).sa

/-- Character-by-character comparison loop of `equalLMS`. -/
def eqChars (text : List Int) : Int → Int → Nat → Bool
  | _, _, 0 => true
  | l, r, m + 1 =>
    decide (tget text l = tget text r) && eqChars text (l + 1) (r + 1) m

/-- Go `equalLMS`: substrings of unequal stored length are unequal; otherwise
compare `lLen` characters. -/
def equalLMS (text : List Int) (l r lLen rLen : Int) : Bool :=
  decide (lLen = rLen) && eqChars text l r lLen.toNat

/-- State of the naming loop of `summarise`. -/
structure NameState where
  sa : Array Int
  name : Int
  maxName : Int
  prevLen : Int

/-- One step (loop index `i = i2 + 1`) of the naming loop of `summarise`:
compare the LMS substrings at `posLMS[i-1]` and `posLMS[i]`, bump the name on
a mismatch, store the name at the half slot of `posLMS[i]`. -/
def summariseNameStep (text : List Int) (base : Int) (i2 : Nat) (st : NameState) :
    NameState :=
  let i : Nat := i2 + 1
  let prev := aget st.sa (base + ((i : Int) - 1))
  let curr := aget st.sa (base + (i : Int))
  let currLen := aget st.sa (Int.tdiv curr 2)
  if equalLMS text prev curr st.prevLen currLen then
    { sa := aset st.sa (Int.tdiv curr 2) st.name, name := st.name,
      maxName := st.maxName, prevLen := currLen }
  else
    { sa := aset st.sa (Int.tdiv curr 2) (st.name + 1), name := st.name + 1,
      maxName := st.maxName + 1, prevLen := currLen }

/-- One step (slot `i`) of the compaction loop of `summarise`: collect a
positive half-slot value into the next free summary cell, clearing the slot. -/
def summariseCompactStep (base : Int) (i : Nat) (st : Array Int × Nat) :
    Array Int × Nat :=
  let curr := aget st.1 i
  if curr ≤ 0 then st
  else (aset (aset st.1 i 0) (base + (st.2 : Int)) curr, st.2 + 1)

/-- Go `summarise(text, sa, summary, numLMS)`, with `summary` the tail region
`sa[n-numLMS:]` of the single underlying buffer (it aliases `sa` in Go).
Computes LMS lengths into the half slots, walks `posLMS = summary` naming
consecutive entries via `equalLMS`, and, unless `maxName ≥ numLMS`, compacts
the names from the half slots into the summary region in slot order, clearing
them.  Returns the updated buffer and `maxName`. -/
def summarise (text : List Int) (sa : Array Int) (numLMS : Nat) : Array Int × Int :=
  let sa := lengthLMS text sa
  let n := sa.size
  let base : Int := (n : Int) - (numLMS : Int)
  let p0 := aget sa base
  let prevLen := aget sa (Int.tdiv p0 2)
  let sa := aset sa (Int.tdiv p0 2) 1
  let st := upLoop (numLMS - 1) (summariseNameStep text base) ⟨sa, 1, 1, prevLen⟩
  if st.maxName ≥ (numLMS : Int) then (st.sa, st.maxName)
  else
    ((upLoop (n / 2) (summariseCompactStep base) (st.sa, 0)).1, st.maxName)

/-- The state of `summarise` after its naming loop, before any compaction:
`lengthLMS` has filled the half slots, the first LMS substring got name 1, and
the naming loop has processed `posLMS[1..numLMS)`. -/
def nameStage (text : List Int) (sa : Array Int) (numLMS : Nat) : NameState :=
  let sa := lengthLMS text sa
  let n := sa.size
  let base : Int := (n : Int) - (numLMS : Int)
  let p0 := aget sa base
  let prevLen := aget sa (Int.tdiv p0 2)
  let sa := aset sa (Int.tdiv p0 2) 1
  upLoop (numLMS - 1) (summariseNameStep text base) ⟨sa, 1, 1, prevLen⟩

/-- The buffer of `summarise` after the naming loop: the half slot `p/2` of
each LMS position `p` holds the name assigned to the LMS substring starting
at `p`. -/
def namedBuffer (text : List Int) (sa : Array Int) (numLMS : Nat) : Array Int :=
  (nameStage text sa numLMS).sa

/-- State of the backward scan of `unmap`: classifier registers, the running
write index `j` into the `LMS` region, and the buffer. -/
structure UnmapState where
  r : Int
  S : Bool
  j : Int
  sa : Array Int

/-- One step (position `i`) of the backward scan of `unmap`. -/
def unmapStep (text : List Int) (base : Int) (i : Nat) (st : UnmapState) : UnmapState :=
  let l := tget text i
  if l < st.r then { st with r := l, S := true }
  else if l > st.r ∧ st.S then
    let j := st.j - 1
    { r := l, S := false, j := j, sa := aset st.sa (base + j) ((i : Int) + 1) }
  else { st with r := l }

/-- Go `unmap(text, sa, summarySA, LMS)`, with `summarySA = sa[:numLMS]` and
`LMS = sa[n-numLMS:]` regions of the single buffer: regenerate the LMS
positions into the tail region, then rewrite `sa[i] = LMS[summarySA[i]]`,
zeroing the scratch. -/
def unmap (text : List Int) (sa : Array Int) (numLMS : Nat) : Array Int :=
  let base : Int := (sa.size : Int) - (numLMS : Int)
  let st := downLoop text.length (unmapStep text base)
    ⟨0, false, (numLMS : Int), sa⟩
  upLoop numLMS (fun i (sa : Array Int) =>
    let jj := aget sa i
    let v := aget sa (base + jj)
    let sa := aset sa i v
    aset sa (base + jj) 0) st.sa

/-- Go `expand(text, sa, summarySA, freq, bucket, minChar)`: re-seed the bucket
end cursors and move each LMS index from `summarySA = sa[:numLMS]` (in reverse
order) to the end cursor of its first character's bucket.  Go recomputes
`freq` because the recursion may have clobbered the shared `data` scratch; the
embedding's `freq` value is immutable, so it is reused directly. -/
def expand (text : List Int) (sa freq bucket : Array Int) (minChar : Int)
    (numLMS : Nat) : Array Int × Array Int :=
  let bucket := bucketEnd freq bucket
  let st := downLoop numLMS (fun i (st : Array Int × Array Int) =>
    let lmsIdx := aget st.1 i
    let sa := aset st.1 i 0
    let j := tget text lmsIdx - minChar
    let b := aget st.2 j
    (aset sa b lmsIdx, aset st.2 j (b - 1))) (sa, bucket)
  st

/-! ## Arbitrary-alphabet bucket layer

Go uses `map[int32]bucket`; the embedding uses a total function `Int → Buck`
where an absent key reads as the zero record, exactly the zero value a Go map
read returns for a missing key.  Every key in the real map has `size ≥ 1`, so
the per-key range loops (`bucketStart_arb`, `bucketEnd_arb`) are modelled as
pointwise transforms guarded by `size = 0`.  `linearCount` only sizes the
initial map capacity and has no semantic effect, so it is not modelled. -/

/-- Go `bucket` record of the arbitrary-alphabet layer (`stop` is Go `end`). -/
structure Buck where
  start : Int
  stop : Int
  size : Int
deriving Repr, DecidableEq

/-- Update of a single key of the bucket map. -/
def bupd (m : Int → Buck) (c : Int) (b : Buck) : Int → Buck :=
  fun x => if x = c then b else m x

/-- Go `bucketStart_arb`: reset each bucket's start cursor to its canonical
left edge (keys only: absent keys keep the zero record). -/
def bucketStartArb (m : Int → Buck) : Int → Buck :=
  fun c =>
    let b := m c
    if b.size = 0 then b else { b with start := b.stop - b.size + 1 }

/-- Go `bucketEnd_arb`: reset each bucket's end cursor to its canonical right
edge (keys only: absent keys keep the zero record). -/
def bucketEndArb (m : Int → Buck) : Int → Buck :=
  fun c =>
    let b := m c
    if b.size = 0 then b else { b with stop := b.start + b.size - 1 }

/-- Go `makeBucketsMap(sa, text)`: count character frequencies, sort the
distinct characters, assign `start`/`end` by prefix sums.  The `sa` scratch
slots `[0, alphaSize)` used to collect the alphabet are written and then
cleared again, so their net effect is a zero write. -/
def makeBucketsMap (sa : Array Int) (text : List Int) :
    (Int → Buck) × Nat × Array Int :=
  let alphabet := text.dedup.mergeSort (fun a b => decide (a ≤ b))
  let alphaSize := alphabet.length
  let m := (alphabet.foldl (fun (st : (Int → Buck) × Int) c =>
      let size : Int := text.count c
      (bupd st.1 c ⟨st.2, st.2 + size - 1, size⟩, st.2 + size))
    (fun _ => ⟨0, 0, 0⟩, 0)).1
  let sa := upLoop alphaSize (fun i sa => aset sa i 0) sa
  (m, alphaSize, sa)

/-- State of the backward scan of `insertLMS_arb`. -/
structure LMSInsArb where
  r : Int
  S : Bool
  sa : Array Int
  m : Int → Buck
  lastLMS : Int
  num : Nat

/-- One step (position `i`) of the backward scan of `insertLMS_arb`. -/
def insertLMSArbStep (text : List Int) (i : Nat) (st : LMSInsArb) : LMSInsArb :=
  let l := tget text i
  if l < st.r then { st with r := l, S := true }
  else if l > st.r ∧ st.S then
    let b := st.m st.r
    { r := l, S := false, sa := aset st.sa b.stop ((i : Int) + 1),
      lastLMS := b.stop, num := st.num + 1,
      m := bupd st.m st.r { b with stop := b.stop - 1 } }
  else { st with r := l }

/-- Go `insertLMS_arb`: like `insertLMS` on the bucket map, then clear the last
write when more than one LMS exists and restore the end cursors. -/
def insertLMSArb (text : List Int) (sa : Array Int) (m : Int → Buck) :
    Array Int × (Int → Buck) :=
  let st := downLoop text.length (insertLMSArbStep text) ⟨0, false, sa, m, 0, 0⟩
  let sa := if st.num > 1 then aset st.sa st.lastLMS 0 else st.sa
  (sa, bucketEndArb st.m)

/-- The `sa`/map pair threaded through an arbitrary-alphabet induction pass. -/
structure IndStateArb where
  sa : Array Int
  m : Int → Buck

/-- One step of the forward scan of `induceSubL_arb`. -/
def induceSubLArbStep (text : List Int) (i : Nat) (st : IndStateArb) : IndStateArb :=
  let j := aget st.sa i
  if j = 0 then st
  else if j < 0 then { st with sa := aset st.sa i (-j) }
  else
    let sa := aset st.sa i 0
    let k := j - 1
    let l := tget text (k - 1)
    let r := tget text k
    let k := if l < r then -k else k
    let b := st.m r
    { sa := aset sa b.start k, m := bupd st.m r { b with start := b.start + 1 } }

/-- Go `induceSubL_arb`: seed the last character's bucket (advancing its start
cursor only when the bucket holds more than one entry), scan forward, then
reset the start cursors. -/
def induceSubLArb (text : List Int) (sa : Array Int) (m : Int → Buck) :
    Array Int × (Int → Buck) :=
  let n := text.length
  let k : Int := (n : Int) - 1
  let l := tget text (k - 1)
  let r := tget text k
  let lastChar := tget text ((n : Int) - 1)
  let b := m lastChar
  let k := if l < r then -k else k
  let sa := aset sa b.start k
  let m := if b.size > 1 then bupd m lastChar { b with start := b.start + 1 } else m
  let st := upLoop sa.size (induceSubLArbStep text) ⟨sa, m⟩
  (st.sa, bucketStartArb st.m)

/-- State of `induceSubS_arb`: the buffers plus the running `top` cursor. -/
structure SubSStateArb where
  sa : Array Int
  m : Int → Buck
  top : Int

/-- One step of the backward scan of `induceSubS_arb`. -/
def induceSubSArbStep (text : List Int) (i : Nat) (st : SubSStateArb) : SubSStateArb :=
  let j := aget st.sa i
  if j = 0 then st
  else
    let sa := aset st.sa i 0
    if j < 0 then
      let top := st.top - 1
      { st with sa := aset sa top (-j), top := top }
    else
      let k := j - 1
      let l := tget text (k - 1)
      let r := tget text k
      let k := if l > r then -k else k
      let b := st.m r
      { st with sa := aset sa b.stop k
                m := bupd st.m r { b with stop := b.stop - 1 } }

/-- Go `induceSubS_arb`: scan backward, collect finished entries at the top,
then reset the end cursors. -/
def induceSubSArb (text : List Int) (sa : Array Int) (m : Int → Buck) :
    Array Int × (Int → Buck) :=
  let st := downLoop sa.size (induceSubSArbStep text) ⟨sa, m, (sa.size : Int)⟩
  (st.sa, bucketEndArb st.m)

/-- Go `expand_arb`: move each LMS index from `summarySA = sa[:numLMS]` to the
end cursor of its first character's bucket, then reset the end cursors. -/
def expandArb (text : List Int) (sa : Array Int) (m : Int → Buck) (numLMS : Nat) :
    Array Int × (Int → Buck) :=
  let st := downLoop numLMS (fun i (st : Array Int × (Int → Buck)) =>
    let lmsIdx := aget st.1 i
    let sa := aset st.1 i 0
    let j := tget text lmsIdx
    let b := st.2 j
    (aset sa b.stop lmsIdx, bupd st.2 j { b with stop := b.stop - 1 })) (sa, m)
  (st.1, bucketEndArb st.2)

/-- One step of the forward scan of `induceL_arb`. -/
def induceLArbStep (text : List Int) (i : Nat) (st : IndStateArb) : IndStateArb :=
  let j := aget st.sa i
  if j ≤ 0 then st
  else
    let k := j - 1
    let r := tget text k
    let k := if k > 0 ∧ tget text (k - 1) < r then -k else k
    let b := st.m r
    { sa := aset st.sa b.start k, m := bupd st.m r { b with start := b.start + 1 } }

/-- Go `induceL_arb`: seed the last character's bucket (cursor advanced
unconditionally here), scan forward, then reset the start cursors. -/
def induceLArb (text : List Int) (sa : Array Int) (m : Int → Buck) :
    Array Int × (Int → Buck) :=
  let n := text.length
  let k : Int := (n : Int) - 1
  let l := tget text (k - 1)
  let r := tget text k
  let lastChar := tget text ((n : Int) - 1)
  let b := m lastChar
  let k := if l < r then -k else k
  let sa := aset sa b.start k
  let m := bupd m lastChar { b with start := b.start + 1 }
  let st := upLoop sa.size (induceLArbStep text) ⟨sa, m⟩
  (st.sa, bucketStartArb st.m)

/-- One step of the backward scan of `induceS_arb`. -/
def induceSArbStep (text : List Int) (i : Nat) (st : IndStateArb) : IndStateArb :=
  let j := aget st.sa i
  if j ≥ 0 then st
  else
    let j := -j
    let sa := aset st.sa i j
    let k := j - 1
    let r := tget text k
    let k := if k > 0 ∧ tget text (k - 1) ≤ r then -k else k
    let b := st.m r
    { sa := aset sa b.stop k, m := bupd st.m r { b with stop := b.stop - 1 } }

/-- Go `induceS_arb`: backward scan (the cursors are already canonical on
entry), then reset the end cursors. -/
def induceSArb (text : List Int) (sa : Array Int) (m : Int → Buck) :
    Array Int × (Int → Buck) :=
  let st := downLoop sa.size (induceSArbStep text) ⟨sa, m⟩
  (st.sa, bucketEndArb st.m)

/-! ## Recursion drivers

Go's `induceSort`/`induceSort_arb` mutate the `summarySA = sa[:numLMS]` region
in place through the recursive `_sais` call; the embedding passes a copy of
that region to the recursion and writes the result back.  The recursion itself
is lambda-lifted (`recur`): `_sais` ties the knot below with structural fuel,
which never runs out on the runs considered (recursion depth is bounded by the
text length). -/

/-- Overwrite `sa[0..k)` with `src[0..k)`: the write-back of the in-place
mutation of `summarySA` by the recursive call. -/
def overwriteHead (sa src : Array Int) (k : Nat) : Array Int :=
  upLoop k (fun i s => aset s i (aget src i)) sa

/-- Go `copy(summarySA, summary)` followed by `clear(sa[numLMS:])`: copy the
tail region onto the head (Go `copy` reads the source as a snapshot), then
zero everything from `numLMS` on. -/
def copySummaryClear (sa : Array Int) (numLMS : Nat) : Array Int :=
  let base : Int := (sa.size : Int) - (numLMS : Int)
  let snapshot := (List.range numLMS).map (fun i => aget sa (base + (i : Int)))
  let sa := upLoop numLMS (fun i s => aset s i (snapshot.getD i 0)) sa
  upLoop sa.size (fun i s => if i < numLMS then s else aset s i 0) sa

/-- Go `induceSort` (small-alphabet driver), with the recursive `_sais` call
abstracted as `recur summary summarySA srcAlphaSize`.  The `data` scratch is
modelled by fresh `freq`/`bucket` arrays: Go reuses a shared allocation, but
every pass re-seeds the cursors of all characters that occur, and absent
characters' slots are never read. -/
def induceSort (recur : List Int → Array Int → Int → Array Int)
    (text : List Int) (sa : Array Int) (minChar : Int) (numLMS : Nat)
    (srcAlphaSize currAlphaSize : Int) : Array Int :=
  let freq := frequency text currAlphaSize.toNat minChar
  let bucket := Array.mkArray currAlphaSize.toNat 0
  let (sa, bucket) := insertLMS text sa freq bucket minChar
  let (sa, bucket) :=
    if numLMS > 1 then
      let (sa, bucket) := induceSubL text sa freq bucket minChar
      let (sa, bucket) := induceSubS text sa freq bucket minChar
      let (sa, maxName) := summarise text sa numLMS
      let n := sa.size
      let sa :=
        if maxName < (numLMS : Int) then
          let summary := sa.toList.drop (n - numLMS)
          let summarySA := Array.mk (sa.toList.take numLMS)
          let sub := recur summary summarySA srcAlphaSize
          let sa := overwriteHead sa sub numLMS
          unmap text sa numLMS
        else copySummaryClear sa numLMS
      expand text sa freq bucket minChar numLMS
    else (sa, bucket)
  let (sa, bucket) := induceL text sa freq bucket minChar
  (induceS text sa freq bucket minChar).1

/-- Go `induceSort_arb` (arbitrary-alphabet driver), with the recursive
`_sais` call abstracted as `recur summary summarySA alphaSize`. -/
def induceSortArb (recur : List Int → Array Int → Int → Array Int)
    (text : List Int) (sa : Array Int) (numLMS : Nat) : Array Int :=
  let (m, alphaSize, sa) := makeBucketsMap sa text
  let (sa, m) := insertLMSArb text sa m
  let (sa, m) :=
    if numLMS > 1 then
      let (sa, m) := induceSubLArb text sa m
      let (sa, m) := induceSubSArb text sa m
      let (sa, maxName) := summarise text sa numLMS
      let n := sa.size
      let sa :=
        if maxName < (numLMS : Int) then
          let summary := sa.toList.drop (n - numLMS)
          let summarySA := Array.mk (sa.toList.take numLMS)
          let sub := recur summary summarySA (alphaSize : Int)
          let sa := overwriteHead sa sub numLMS
          unmap text sa numLMS
        else copySummaryClear sa numLMS
      expandArb text sa m numLMS
    else (sa, m)
  let (sa, m) := induceLArb text sa m
  (induceSArb text sa m).1

/-- Go `_sais(text, sa, data, srcAlphaSize)`: classify, compute the current
alphabet size, allocate `sa` when nil, and dispatch to a specialisation.
`fuel` bounds the recursion depth structurally; exhaustion (which never occurs
on genuine runs, the depth being at most the text length) returns the buffer
unchanged. -/
def saisCore (fuel : Nat) (text : List Int) (sa? : Option (Array Int))
    (srcAlphaSize : Int) : Array Int :=
  match fuel with
  | 0 => sa?.getD (Array.mkArray text.length 0)
  | fuel + 1 =>
    let c := classify text
    let currAlphaSize := c.maxC - c.minC + 1
    let (sa, srcAlphaSize) :=
      match sa? with
      | none => (Array.mkArray text.length 0, currAlphaSize)
      | some a => (a, srcAlphaSize)
    let recur := fun t s a => saisCore fuel t (some s) a
    if currAlphaSize > 256 ∨ currAlphaSize > srcAlphaSize then
      induceSortArb recur text sa c.num
    else
      induceSort recur text sa c.minC c.num srcAlphaSize currAlphaSize

/-- Go `sais(text)`: the top-level entry. -/
def sais (text : List Int) : Array Int :=
  if text.length = 0 then #[]
  else if text.length = 1 then #[0]
  else saisCore text.length text none 0

/-! ## Naive reference (from the spec)

Modelled from the spec: the naive sort of all start positions by suffix
comparison, in strict lexicographic order with the shorter-is-less-when-prefix
tie-break. -/

/-- Three-way lexicographic comparison of code-point sequences, a shorter
sequence that is a prefix of the other comparing less. -/
def cmpList : List Int → List Int → Int
  | [], [] => 0
  | [], _ :: _ => -1
  | _ :: _, [] => 1
  | a :: as, b :: bs => if a < b then -1 else if a > b then 1 else cmpList as bs

/-- The naive suffix array: positions sorted (stably) by suffix comparison. -/
def naiveSA (t : List Int) : Array Int :=
  Array.mk ((List.insertionSort
    (fun i j => cmpList (t.drop i) (t.drop j) ≤ 0) (List.range t.length)).map Int.ofNat)

/-! ## Query layer -/

/-- Go `comparePrefix(suf, prefix)`: compare element-wise over the shorter
length; a suffix shorter than the pattern compares less, a suffix at least as
long with no mismatch compares equal. -/
def cmpPrefix : List Int → List Int → Int
  | [], [] => 0
  | [], _ :: _ => -1
  | _ :: _, [] => 0
  | s :: ss, p :: ps =>
    if s < p then -1 else if s > p then 1 else cmpPrefix ss ps

/-- The loop of Go `sort.Search`: binary search maintaining `i ≤ j`, narrowing
on `f((i+j)/2)`. -/
def goSearchLoop (f : Nat → Bool) (i j : Nat) : Nat :=
  if h : i < j then
    let mid := (i + j) / 2
    if f mid then goSearchLoop f i mid else goSearchLoop f (mid + 1) j
  else i
termination_by j - i
decreasing_by
  all_goals simp only [mid] at *
  · omega
  · omega

/-- Go `sort.Search(n, f)`. -/
def goSearch (n : Nat) (f : Nat → Bool) : Nat :=
  goSearchLoop f 0 n

/-- The suffix `text[v:]` read through a stored suffix-array entry `v` (the
entries considered are non-negative, matching Go's in-range slicing). -/
def suffixAt (text : List Int) (v : Int) : List Int :=
  text.drop v.toNat

/-- The first closure of Go `lookup`: does the suffix at `sa[i]` compare at
least equal to the pattern. -/
def lookupGE (text sa pat : List Int) : Nat → Bool :=
  fun i => cmpPrefix (suffixAt text (sa.getD i 0)) pat ≥ 0

/-- The second closure of Go `lookup`: does the suffix at `sa[l+i]` compare
strictly greater than the pattern. -/
def lookupGT (text sa pat : List Int) (l : Nat) : Nat → Bool :=
  fun i => cmpPrefix (suffixAt text (sa.getD (l + i) 0)) pat > 0

/-- Go `lookup(text, sa, prefix)`: empty pattern returns the whole `sa`, empty
`sa` returns nothing; otherwise two binary searches bracket the block of
suffixes comparing equal to the pattern, and the sub-slice `sa[l:r]` is
returned. -/
def lookup (text sa pat : List Int) : List Int :=
  if pat.length = 0 then sa
  else if sa.length = 0 then []
  else
    let l := goSearch sa.length (lookupGE text sa pat)
    let r := l + goSearch (sa.length - l) (lookupGT text sa pat l)
    (sa.drop l).take (r - l)

/-- Go `lookupTextOrder(text, sa, prefix)`: sort a copy of the `lookup` result
by position.  Go's `sort.Slice` on the copied index slice is modelled by a
stable comparison sort; on the duplicate-free slices a permutation suffix
array yields, every correct sort produces this unique ascending order. -/
def lookupTextOrder (text sa pat : List Int) : List Int :=
  List.insertionSort (· ≤ ·) (lookup text sa pat)

/-- Go `SuffixArray`: a text and its suffix array. -/
structure SuffixArray where
  text : List Int
  sa : List Int

/-- Go `New(text)`: build the suffix array with `sais`. -/
def SuffixArray.New (text : List Int) : SuffixArray :=
  ⟨text, (sais text).toList⟩

/-- Go `(*SuffixArray).Lookup`. -/
def SuffixArray.Lookup (s : SuffixArray) (pat : List Int) : List Int :=
  lookup s.text s.sa pat

/-- Go `(*SuffixArray).LookupTextOrder`. -/
def SuffixArray.LookupTextOrder (s : SuffixArray) (pat : List Int) : List Int :=
  lookupTextOrder s.text s.sa pat

/-- Go `(*SuffixArray).LookupSuffix`: `slices.Compare` is the three-way
lexicographic comparison `cmpList`. -/
def SuffixArray.LookupSuffix (s : SuffixArray) (suffix : List Int) : Int :=
  if suffix.length = 0 then (s.sa.length : Int)
  else if s.sa.length = 0 ∨ suffix.length > s.text.length then -1
  else
    let l := s.text.length - suffix.length
    if cmpList (s.text.drop l) suffix = 0 then (l : Int) else -1

/-- Go `(*SuffixArray).LookupPrefix`. -/
def SuffixArray.LookupPrefix (s : SuffixArray) (pat : List Int) : Int :=
  if pat.length = 0 then -1
  else if s.sa.length = 0 ∨ pat.length > s.text.length then -2
  else if cmpList (s.text.take pat.length) pat = 0 then 0 else -2

/-! ## Stateful view of the query methods

Each Go query method reads the receiver's `text`/`sa` fields and writes
neither; the faithful state-threaded translation returns the result together
with the receiver state as the method body leaves it, every field write of the
body (there are none on `text`/`sa`) being mirrored on the state. -/

/-- State-threaded `Lookup`. -/
def SuffixArray.LookupSt (s : SuffixArray) (pat : List Int) :
    List Int × SuffixArray :=
  (lookup s.text s.sa pat, s)

/-- State-threaded `LookupTextOrder`: the sort acts on a copy `cp` of the
matched indices, never on the stored `sa`. -/
def SuffixArray.LookupTextOrderSt (s : SuffixArray) (pat : List Int) :
    List Int × SuffixArray :=
  let indices := lookup s.text s.sa pat
  let cp := List.insertionSort (· ≤ ·) indices
  (cp, s)

/-- State-threaded `LookupSuffix`. -/
def SuffixArray.LookupSuffixSt (s : SuffixArray) (suffix : List Int) :
    Int × SuffixArray :=
  (s.LookupSuffix suffix, s)

/-- State-threaded `LookupPrefix`. -/
def SuffixArray.LookupPrefixSt (s : SuffixArray) (pat : List Int) :
    Int × SuffixArray :=
  (s.LookupPrefix pat, s)

/-! ## Spec-side contracts of the scalar queries -/

/-- Modelled from the spec: the contract of `LookupSuffix`: `|T|` for an empty
query, `-1` when the text is empty or the query longer, `|T| - |S|` when `T`
ends with `S`, `-1` otherwise. -/
def specLookupSuffix (t s : List Int) : Int :=
  if s.length = 0 then (t.length : Int)
  else if t.length = 0 ∨ s.length > t.length then -1
  else if t.drop (t.length - s.length) = s then (t.length : Int) - (s.length : Int)
  else -1

/-! ## GSA layer -/

/-- Go `sep`: the separator code point `U+E000`. -/
def sep : Int := 0xE000

/-- The concatenation body of `newGSA_32`: each source string followed by a
separator. -/
def concatSep : List (List Int) → List Int
  | [] => []
  | s :: rest => s ++ sep :: concatSep rest

/-- The concatenated text of `newGSA_32`: a leading separator (`text[0]`),
then each string followed by its separator. -/
def gsaText (src : List (List Int)) : List Int :=
  sep :: concatSep src

/-- The `strIdx` buffer from position 1 on: positions of string `i`'s
characters and of its trailing separator hold `i`. -/
def strIdxTail : Nat → List (List Int) → List Int
  | _, [] => []
  | i, s :: rest => List.replicate (s.length + 1) (i : Int) ++ strIdxTail (i + 1) rest

/-- Go `strIdx`: position 0 keeps the zero value, the rest tags every
position with its string id. -/
def gsaStrIdx (src : List (List Int)) : List Int :=
  0 :: strIdxTail 0 src

/-- Start position of the `k`-th remaining string when the first remaining
string starts at `start` (Go's running `ll`). -/
def blockStart : Nat → List (List Int) → Nat → Nat
  | start, _, 0 => start
  | start, [], _ + 1 => start
  | start, s :: rest, k + 1 => blockStart (start + s.length + 1) rest k

/-- Go `index` record (field `i` is the write counter, `sa` the per-string
scratch window of `idxBuf`, length `len(src[i])`). -/
structure GoIdx where
  l : Nat
  i : Nat
  sa : Array Int

/-- The `gsa.idx` records of a freshly built GSA: `l` is the string's start
position in the text, counter 0, zeroed scratch of the string's length. -/
def freshIdx : Nat → List (List Int) → List GoIdx
  | _, [] => []
  | start, s :: rest =>
    ⟨start, 0, Array.mkArray s.length 0⟩ :: freshIdx (start + s.length + 1) rest

/-- Go `GSA` (the `index` field is the reusable result buffer, zero records
when fresh). -/
structure GSA where
  src : List (List Int)
  text : List Int
  sa : List Int
  strIdx : List Int
  idx : List GoIdx
  index : List (Int × List Int)

/-- `newGSA_32` with the suffix array supplied (the buffers exactly as the Go
constructor lays them out). -/
def GSA.mk32 (src : List (List Int)) (sa : List Int) : GSA :=
  ⟨src, gsaText src, sa, gsaStrIdx src, freshIdx 1 src,
    List.replicate src.length (0, [])⟩

/-- Go `newGSA_32`: the suffix array of the concatenated text is built by
`sais`. -/
def GSA.new32 (src : List (List Int)) : GSA :=
  GSA.mk32 src (sais (gsaText src)).toList

/-- One iteration body of Go `fillIdx` (after the break test): forward a
separator position, skip a duplicate, otherwise append the local offset to
the position's string record. -/
def fillStep (text strIdx : List Int) (st : List GoIdx × Int × Nat) (j0 : Int) :
    List GoIdx × Int × Nat :=
  let j := if tget text j0 = sep then j0 + 1 else j0
  if j = st.2.1 then st
  else
    let str := tget strIdx j
    let curr := st.1.getD str.toNat ⟨0, 0, #[]⟩
    let sz := if curr.i = 0 then st.2.2 + 1 else st.2.2
    (st.1.set str.toNat
        ⟨curr.l, curr.i + 1, aset curr.sa ((curr.i : Nat) : Int) (j - (curr.l : Int))⟩,
      j, sz)

/-- Go `fillIdx` over the result positions: state is `(idx, prev, sz)`; a
trailing-separator position breaks out of the loop. -/
def fillIdxGo (text strIdx : List Int) (st : List GoIdx × Int × Nat) :
    List Int → List GoIdx × Int × Nat
  | [] => st
  | j0 :: rest =>
    if tget text j0 = sep ∧ j0 = (text.length : Int) - 1 then st
    else fillIdxGo text strIdx (fillStep text strIdx st j0) rest

/-- Go `makeIndex` over the result positions: collects, at the first
still-pending position of each string, the written prefix of its scratch as
an `Index` record, resetting the counter (the `prev` register is never
updated in this loop). -/
def makeIndexGo (text strIdx : List Int) :
    List GoIdx → Int → List Int → List GoIdx × List (Int × List Int)
  | idx, _, [] => (idx, [])
  | idx, prev, j0 :: rest =>
    if tget text j0 = sep ∧ j0 = (text.length : Int) - 1 then (idx, [])
    else
      let j := if tget text j0 = sep then j0 + 1 else j0
      if j = prev then makeIndexGo text strIdx idx prev rest
      else
        let str := tget strIdx j
        let curr := idx.getD str.toNat ⟨0, 0, #[]⟩
        if curr.i = 0 then makeIndexGo text strIdx idx prev rest
        else
          let res := makeIndexGo text strIdx
            (idx.set str.toNat ⟨curr.l, 0, curr.sa⟩) prev rest
          (res.1, (str, curr.sa.toList.take curr.i) :: res.2)

/-- Go `GSA.LookupTextOrder`: text-ordered matches of the concatenation, then
the two grouping passes; the returned slice is `gsa.index[:sz]`, the entries
written this call followed by stale buffer entries if fewer were written. -/
def GSA.LookupTextOrder (g : GSA) (pat : List Int) : List (Int × List Int) :=
  let res := lookupTextOrder g.text g.sa pat
  let st := fillIdxGo g.text g.strIdx (g.idx, 0, 0) res
  let mk := makeIndexGo g.text g.strIdx st.1 0 res
  (mk.2 ++ g.index.drop mk.2.length).take st.2.2

/-- The empty-argument loops of `GSA.LookupSuffix` / `GSA.LookupPrefix`: for
each source string write a single value into slot 0 of its scratch window and
surface it; the write `gsa.idx[i].sa[0] = …` is bounds-checked in Go, so an
empty source string makes the call panic, modelled by `none`. -/
def gsaEmptyLoop (f : List Int → Int) : Nat → List (List Int) →
    Option (List (Int × List Int))
  | _, [] => some []
  | i, s :: rest =>
    if 0 < s.length then
      match gsaEmptyLoop f (i + 1) rest with
      | none => none
      | some tl => some ((((i : Nat) : Int), [f s]) :: tl)
    else none

/-- Go `GSA.LookupSuffix`: empty argument returns per-string `[len(T_i)]`
records (panicking on an empty string); otherwise appends the separator and
groups the text-ordered matches. -/
def GSA.LookupSuffix (g : GSA) (suf : List Int) : Option (List (Int × List Int)) :=
  if suf.length = 0 then gsaEmptyLoop (fun s => (s.length : Int)) 0 g.src
  else
    some (GSA.LookupTextOrder g (suf ++ [sep]))

/-- Go `GSA.LookupPrefix`: empty argument returns per-string `[-1]` records
(panicking on an empty string); otherwise prepends the separator and groups
the text-ordered matches. -/
def GSA.LookupPrefix (g : GSA) (pat : List Int) : Option (List (Int × List Int)) :=
  if pat.length = 0 then gsaEmptyLoop (fun _ => (-1 : Int)) 0 g.src
  else
    some (GSA.LookupTextOrder g (sep :: pat))

/-- Local match offsets of a pattern in one string, in text order. -/
def localMatches (pat s : List Int) : List Nat :=
  (List.range s.length).filter (fun o => decide (pat <+: s.drop o))

/-- Match positions of a pattern in a text, in text order. -/
def matchPositions (pat u : List Int) : List Nat :=
  (List.range u.length).filter (fun j => decide (pat <+: u.drop j))

/-- Global match positions block by block: the local matches of each string
shifted by the string's start. -/
def blockPositions (pat : List Int) : Nat → List (List Int) → List Nat
  | _, [] => []
  | start, s :: rest =>
    (localMatches pat s).map (fun o => start + o)
      ++ blockPositions pat (start + s.length + 1) rest

/-- The `idx` records after `fillIdx` on the block positions: each counter
holds the string's match count and the scratch starts with the local offsets
in text order. -/
def filledIdx (pat : List Int) : Nat → List (List Int) → List GoIdx
  | _, [] => []
  | start, s :: rest =>
    ⟨start, (localMatches pat s).length,
        Array.mk ((localMatches pat s).map Int.ofNat
          ++ List.replicate (s.length - (localMatches pat s).length) 0)⟩
      :: filledIdx pat (start + s.length + 1) rest

/-- Modelled from the spec: the per-string grouping of the matches of `P`,
`{stringId, [local offsets in text order]}`, strings without occurrences
omitted, in order of string id. -/
def gsaSpecFrom (pat : List Int) : Nat → List (List Int) → List (Int × List Int)
  | _, [] => []
  | i, s :: rest =>
    if localMatches pat s = [] then gsaSpecFrom pat (i + 1) rest
    else (((i : Nat) : Int), (localMatches pat s).map Int.ofNat)
      :: gsaSpecFrom pat (i + 1) rest

/-- Number of source strings with at least one match. -/
def matchedCount (pat : List Int) : List (List Int) → Nat
  | [] => 0
  | s :: rest =>
    (if localMatches pat s = [] then 0 else 1) + matchedCount pat rest

/-! ## Lemmas on the classifier (claim C6) -/

theorem cgo_minC_le (u : List Int) (c : CState) :
    (∀ x ∈ u, (cgo u c).minC ≤ x) ∧ (cgo u c).minC ≤ c.minC ∧
      ((cgo u c).minC ∈ u ∨ (cgo u c).minC = c.minC) := by
  induction u with
  | nil => simp [cgo]
  | cons a u ih =>
    simp only [cgo, cstep]
    rcases ih with ⟨h1, h2, h3⟩
    by_cases h : a < (cgo u c).minC <;> simp only [h, if_pos, if_neg, if_true, if_false] <;>
      constructor
    · intro x hx
      rcases List.mem_cons.1 hx with rfl | hx
      · exact le_refl x
      · exact le_of_lt (lt_of_lt_of_le h (h1 x hx))
    · exact ⟨le_of_lt (lt_of_lt_of_le h h2), Or.inl (List.mem_cons_self a u)⟩
    · intro x hx
      rcases List.mem_cons.1 hx with rfl | hx
      · exact le_of_not_lt h
      · exact h1 x hx
    · exact ⟨h2, by rcases h3 with h3 | h3
                    · exact Or.inl (List.mem_cons_of_mem a h3)
                    · exact Or.inr h3⟩

theorem cgo_maxC_ge (u : List Int) (c : CState) :
    (∀ x ∈ u, x ≤ (cgo u c).maxC) ∧ c.maxC ≤ (cgo u c).maxC ∧
      ((cgo u c).maxC ∈ u ∨ (cgo u c).maxC = c.maxC) := by
  induction u with
  | nil => simp [cgo]
  | cons a u ih =>
    simp only [cgo, cstep]
    rcases ih with ⟨h1, h2, h3⟩
    by_cases h : a > (cgo u c).maxC <;> simp only [h, if_pos, if_neg, if_true, if_false] <;>
      constructor
    · intro x hx
      rcases List.mem_cons.1 hx with rfl | hx
      · exact le_refl x
      · exact le_of_lt (lt_of_le_of_lt (h1 x hx) h)
    · exact ⟨le_of_lt (lt_of_le_of_lt h2 h), Or.inl (List.mem_cons_self a u)⟩
    · intro x hx
      rcases List.mem_cons.1 hx with rfl | hx
      · exact le_of_not_lt h
      · exact h1 x hx
    · exact ⟨h2, by rcases h3 with h3 | h3
                    · exact Or.inl (List.mem_cons_of_mem a h3)
                    · exact Or.inr h3⟩

/-- The classifier's extrema are the true minimum and maximum of the text, for
every nonempty text. -/
theorem classify_extrema (t : List Int) (ht : t ≠ []) :
    ((classify t).minC ∈ t ∧ ∀ x ∈ t, (classify t).minC ≤ x) ∧
      ((classify t).maxC ∈ t ∧ ∀ x ∈ t, x ≤ (classify t).maxC) := by
  obtain ⟨a, u, rfl⟩ := List.exists_cons_of_ne_nil ht
  have hmin := cgo_minC_le (a :: u) ⟨(a :: u).headD 0, (a :: u).headD 0, 0, false, 0⟩
  have hmax := cgo_maxC_ge (a :: u) ⟨(a :: u).headD 0, (a :: u).headD 0, 0, false, 0⟩
  simp only [List.headD_cons] at hmin hmax
  simp only [classify, List.headD_cons]
  refine ⟨⟨?_, hmin.1⟩, ⟨?_, hmax.1⟩⟩
  · rcases hmin.2.2 with h | h
    · exact h
    · rw [h]; exact List.mem_cons_self a u
  · rcases hmax.2.2 with h | h
    · exact h
    · rw [h]; exact List.mem_cons_self a u

/-- Peeling one flag off the adjacent-pair count. -/
theorem pairCountLS_cons (x : Bool) (l : List Bool) :
    pairCountLS (x :: l) =
      (if (!x && l.headD false) then 1 else 0) + pairCountLS l := by
  cases l with
  | nil => simp [pairCountLS]
  | cons y rest => cases x <;> cases y <;> simp [pairCountLS]

/-- Peeling one character off the S-type flags. -/
theorem sTypes_cons (a : Int) (l : List Int) (hl : l ≠ []) :
    sTypes (a :: l) =
      (decide (a < l.headD 0) || (decide (a = l.headD 0) && (sTypes l).headD false))
        :: sTypes l := by
  obtain ⟨b, v, rfl⟩ := List.exists_cons_of_ne_nil hl
  simp [sTypes]

/-- Relation of the single scan to the reference flags: provided the initial
right-neighbour register is `0` and the text's last code point is
non-negative, the scanned state's `S` flag is the head S-type flag, its `r`
register the head character, and its LMS count counts the L,S transitions of
the reference flags. -/
theorem cgo_S_num (u : List Int) (c : CState) (hS : c.S = false) (hr : c.r = 0)
    (hu : u ≠ []) (hlast : 0 ≤ u.getLastD 0) :
    (cgo u c).S = (sTypes u).headD false ∧ (cgo u c).r = u.headD 0 ∧
      (cgo u c).num = c.num + pairCountLS (sTypes u) := by
  induction u with
  | nil => exact absurd rfl hu
  | cons a u ih =>
    cases u with
    | nil =>
      simp only [List.getLastD_cons, List.getLastD_nil] at hlast
      have h1 : ¬ a < c.r := by rw [hr]; exact not_lt.2 hlast
      show (cstep a (cgo [] c)).S = _ ∧ _
      simp only [cgo]
      simp [cstep, sTypes, pairCountLS, h1, hS]
    | cons b v =>
      have hlast' : 0 ≤ (b :: v).getLastD 0 := by
        rw [List.getLastD_cons, List.getLastD_cons] at hlast
        rwa [List.getLastD_cons]
      obtain ⟨ihS, ihr, ihn⟩ := ih (by simp) hlast'
      have hgo : cgo (a :: b :: v) c = cstep a (cgo (b :: v) c) := rfl
      rw [hgo]
      rw [sTypes_cons a (b :: v) (by simp), List.headD_cons, List.headD_cons,
        pairCountLS_cons]
      simp only [List.headD_cons] at ihr
      simp only [cstep, ihS, ihr, ihn, List.headD_cons]
      rcases lt_trichotomy a b with hab | hab | hab
      · have h1 : ¬ a > b := not_lt.2 (le_of_lt hab)
        cases hsb : (sTypes (b :: v)).headD false <;>
          simp [hab, h1, hsb]
      · subst hab
        have h1 : ¬ a < a := lt_irrefl a
        cases hsb : (sTypes (a :: v)).headD false <;>
          simp [h1, hsb, Nat.add_assoc, hS]
      · have h1 : ¬ a < b := not_lt.2 (le_of_lt hab)
        cases hsb : (sTypes (b :: v)).headD false <;>
          simp [hab, h1, hsb, hab.ne'] <;> omega

/-- Splitting a filtered count over `range (n+1)` at index 0. -/
theorem filter_range_shift (P : Nat → Bool) (n : Nat) :
    ((List.range (n + 1)).filter P).length =
      (if P 0 then 1 else 0) + ((List.range n).filter (fun i => P (i + 1))).length := by
  induction n with
  | zero => cases h : P 0 <;> simp [List.range_succ, h]
  | succ n ih =>
    rw [List.range_succ, List.filter_append, List.length_append, ih,
      List.range_succ, List.filter_append, List.length_append]
    cases h : P (n + 1) <;> simp [h, Nat.add_assoc]

theorem countLS (flags : List Bool) :
    ((List.range flags.length).filter
      (fun i => 0 < i && flags.getD i false && !flags.getD (i - 1) false)).length =
      pairCountLS flags := by
  induction flags with
  | nil => simp [pairCountLS]
  | cons a rest ih =>
    cases rest with
    | nil => simp [pairCountLS, List.range_succ]
    | cons b v =>
      rw [List.length_cons, filter_range_shift, List.length_cons, filter_range_shift]
      have hA : (fun i => (decide (0 < i + 1 + 1) &&
            (a :: b :: v).getD (i + 1 + 1) false &&
            !(a :: b :: v).getD (i + 1 + 1 - 1) false)) =
          (fun i => (decide (0 < i + 1) && (b :: v).getD (i + 1) false &&
            !(b :: v).getD (i + 1 - 1) false)) := by
        funext i
        simp
      rw [hA]
      have ih2 := ih
      rw [List.length_cons, filter_range_shift] at ih2
      simp only [pairCountLS]
      simp only [decide_False, decide_True, Bool.false_and, Bool.and_false,
        Bool.true_and, if_false, Nat.zero_add, List.getD_cons_zero, Bool.false_eq_true,
        if_neg, List.getD_cons_succ] at ih2 ⊢
      rw [← ih2]
      cases a <;> cases b <;> simp

theorem sTypes_length (t : List Int) : (sTypes t).length = t.length := by
  induction t with
  | nil => rfl
  | cons a u ih =>
    cases u with
    | nil => rfl
    | cons b v => simpa [sTypes] using ih

/-- The reference LMS count equals the adjacent-pair count of the flags. -/
theorem refNumLMS_eq_pairCount (t : List Int) :
    refNumLMS t = pairCountLS (sTypes t) := by
  have h := countLS (sTypes t)
  rw [sTypes_length] at h
  rw [← h, refNumLMS]
  rfl

/-- Claim C6, counterexample: on the text `[5, -1]` the single-scan classifier
of `_sais` reports one LMS position while the reference two-pass classifier
(position `n-1` L-type by convention) reports none: the code initialises the
right-neighbour register to 0, not to the last character as the spec's
sentinel rule prescribes, so a negative last code point is misread as S-type. -/
theorem C6_counterexample :
    (classify [(5 : Int), -1]).num = 1 ∧ refNumLMS [(5 : Int), -1] = 0 := by
  constructor
  · rfl
  · rfl

/-- Claim C6, amended: for every text of length at least 2 the single scan in
`_sais` computes `minChar` and `maxChar` equal to the true extrema of the
text, and — provided the last code point is non-negative, in particular for
every text of non-negative code points — its `numLMS` equals the LMS count of
the reference two-pass classifier. -/
theorem C6_classifier (t : List Int) (h2 : 2 ≤ t.length) :
    (((classify t).minC ∈ t ∧ ∀ x ∈ t, (classify t).minC ≤ x) ∧
      ((classify t).maxC ∈ t ∧ ∀ x ∈ t, x ≤ (classify t).maxC)) ∧
    (0 ≤ t.getLastD 0 → (classify t).num = refNumLMS t) := by
  have hne : t ≠ [] := by
    intro h
    rw [h] at h2
    exact absurd h2 (by decide)
  refine ⟨?_, ?_⟩
  · obtain ⟨h1, h2'⟩ := classify_extrema t hne
    exact ⟨⟨h1.1, h1.2⟩, ⟨h2'.1, h2'.2⟩⟩
  · intro hlast
    have h := cgo_S_num t ⟨t.headD 0, t.headD 0, 0, false, 0⟩ rfl rfl hne hlast
    rw [classify, h.2.2, refNumLMS_eq_pairCount]
    simp

/-! ## Size preservation through the pipeline -/

@[simp]
theorem aset_size (a : Array Int) (i v : Int) : (aset a i v).size = a.size := by
  rw [aset]
  split
  · simp
  · rfl

theorem foldl_invariant {σ α : Type} (P : σ → Prop) (f : σ → α → σ) (l : List α)
    (st : σ) (h0 : P st) (h : ∀ s a, P s → P (f s a)) : P (l.foldl f st) := by
  induction l generalizing st with
  | nil => exact h0
  | cons x xs ih => exact ih (f st x) (h st x h0)

theorem upLoop_invariant {σ : Type} (P : σ → Prop) (n : Nat) (f : Nat → σ → σ)
    (st : σ) (h0 : P st) (h : ∀ i s, P s → P (f i s)) : P (upLoop n f st) :=
  foldl_invariant P _ _ st h0 (fun s a hs => h a s hs)

theorem downLoop_invariant {σ : Type} (P : σ → Prop) (n : Nat) (f : Nat → σ → σ)
    (st : σ) (h0 : P st) (h : ∀ i s, P s → P (f i s)) : P (downLoop n f st) :=
  foldl_invariant P _ _ st h0 (fun s a hs => h a s hs)

theorem insertLMS_sa_size (text : List Int) (sa freq bucket : Array Int)
    (minChar : Int) : (insertLMS text sa freq bucket minChar).1.size = sa.size := by
  rw [insertLMS]
  have h := downLoop_invariant (fun st : LMSIns => st.sa.size = sa.size)
    text.length (insertLMSStep text minChar) ⟨0, false, sa, bucketEnd freq bucket, 0, 0⟩
    rfl (by
      intro i s hs
      rw [insertLMSStep]
      split
      · exact hs
      · split <;> simp [hs])
  split <;> simp [h]

theorem induceSubL_sa_size (text : List Int) (sa freq bucket : Array Int)
    (minChar : Int) : (induceSubL text sa freq bucket minChar).1.size = sa.size := by
  rw [induceSubL]
  exact upLoop_invariant (fun st : IndState => st.sa.size = sa.size) _ _ _
    (by simp) (by
      intro i s hs
      rw [induceSubLStep]
      split
      · exact hs
      · split <;> simp [hs])

theorem induceSubS_sa_size (text : List Int) (sa freq bucket : Array Int)
    (minChar : Int) : (induceSubS text sa freq bucket minChar).1.size = sa.size := by
  rw [induceSubS]
  exact downLoop_invariant (fun st : SubSState => st.sa.size = sa.size) _ _ _
    rfl (by
      intro i s hs
      rw [induceSubSStep]
      split
      · exact hs
      · split <;> simp [hs])

theorem induceL_sa_size (text : List Int) (sa freq bucket : Array Int)
    (minChar : Int) : (induceL text sa freq bucket minChar).1.size = sa.size := by
  rw [induceL]
  exact upLoop_invariant (fun st : IndState => st.sa.size = sa.size) _ _ _
    (by simp) (by
      intro i s hs
      rw [induceLStep]
      split
      · exact hs
      · simp [hs])

theorem induceS_sa_size (text : List Int) (sa freq bucket : Array Int)
    (minChar : Int) : (induceS text sa freq bucket minChar).1.size = sa.size := by
  rw [induceS]
  exact downLoop_invariant (fun st : IndState => st.sa.size = sa.size) _ _ _
    rfl (by
      intro i s hs
      rw [induceSStep]
      split
      · exact hs
      · simp [hs])

theorem lengthLMS_size (text : List Int) (sa : Array Int) :
    (lengthLMS text sa).size = sa.size := by
  rw [lengthLMS]
  exact downLoop_invariant (fun st : LenState => st.sa.size = sa.size) _ _ _
    rfl (by
      intro i s hs
      rw [lengthLMSStep]
      split
      · exact hs
      · split <;> simp [hs])

theorem summariseNameStep_size (text : List Int) (base : Int) (i : Nat)
    (st : NameState) : (summariseNameStep text base i st).sa.size = st.sa.size := by
  rw [summariseNameStep]
  split <;> simp

theorem summariseCompactStep_size (base : Int) (i : Nat) (st : Array Int × Nat) :
    (summariseCompactStep base i st).1.size = st.1.size := by
  rw [summariseCompactStep]
  split
  · rfl
  · simp

theorem summarise_sa_size (text : List Int) (sa : Array Int) (numLMS : Nat) :
    (summarise text sa numLMS).1.size = sa.size := by
  rw [summarise]
  have hsz : (lengthLMS text sa).size = sa.size := lengthLMS_size text sa
  set sa1 := lengthLMS text sa with hsa1
  set base : Int := ((sa1.size : Int) - (numLMS : Int)) with hbase
  set init : NameState :=
    ⟨aset sa1 (Int.tdiv (aget sa1 base) 2) 1, 1, 1,
      aget sa1 (Int.tdiv (aget sa1 base) 2)⟩ with hinit
  set st := upLoop (numLMS - 1) (summariseNameStep text base) init with hst
  have h1 : st.sa.size = sa.size := by
    rw [hst]
    exact upLoop_invariant (fun s : NameState => s.sa.size = sa.size) _ _ _
      (by simp [hinit, hsz]) (fun i s hs => (summariseNameStep_size text base i s).trans hs)
  split
  · exact h1
  · exact upLoop_invariant (fun s : Array Int × Nat => s.1.size = sa.size) _ _ _
      h1 (fun i s hs => (summariseCompactStep_size base i s).trans hs)

theorem unmapStep_size (text : List Int) (base : Int) (i : Nat) (st : UnmapState) :
    (unmapStep text base i st).sa.size = st.sa.size := by
  rw [unmapStep]
  split
  · rfl
  · split <;> simp

theorem unmap_size (text : List Int) (sa : Array Int) (numLMS : Nat) :
    (unmap text sa numLMS).size = sa.size := by
  rw [unmap]
  have h := downLoop_invariant (fun st : UnmapState => st.sa.size = sa.size)
    text.length (unmapStep text ((sa.size : Int) - (numLMS : Int)))
    ⟨0, false, (numLMS : Int), sa⟩ rfl
    (fun i s hs => (unmapStep_size text _ i s).trans hs)
  exact upLoop_invariant (fun a : Array Int => a.size = sa.size) _ _ _ h
    (fun i s hs => by simp only [aset_size]; exact hs)

theorem expand_sa_size (text : List Int) (sa freq bucket : Array Int)
    (minChar : Int) (numLMS : Nat) :
    (expand text sa freq bucket minChar numLMS).1.size = sa.size := by
  rw [expand]
  exact downLoop_invariant (fun st : Array Int × Array Int => st.1.size = sa.size)
    _ _ _ rfl (by intro i s hs; simp [hs])

theorem copySummaryClear_size (sa : Array Int) (numLMS : Nat) :
    (copySummaryClear sa numLMS).size = sa.size := by
  rw [copySummaryClear]
  have h1 := upLoop_invariant (fun a : Array Int => a.size = sa.size) numLMS
    (fun i s => aset s i (((List.range numLMS).map
      (fun i => aget sa ((sa.size : Int) - (numLMS : Int) + (i : Int)))).getD i 0))
    sa rfl (by intro i s hs; simp [hs])
  exact upLoop_invariant (fun a : Array Int => a.size = sa.size) _ _ _ h1
    (by intro i s hs; split <;> simp [hs])

theorem overwriteHead_size (sa src : Array Int) (k : Nat) :
    (overwriteHead sa src k).size = sa.size := by
  rw [overwriteHead]
  exact upLoop_invariant (fun a : Array Int => a.size = sa.size) _ _ _ rfl
    (by intro i s hs; simp [hs])

theorem makeBucketsMap_sa_size (sa : Array Int) (text : List Int) :
    (makeBucketsMap sa text).2.2.size = sa.size := by
  rw [makeBucketsMap]
  exact upLoop_invariant (fun a : Array Int => a.size = sa.size) _ _ _ rfl
    (by intro i s hs; simp [hs])

theorem insertLMSArb_sa_size (text : List Int) (sa : Array Int) (m : Int → Buck) :
    (insertLMSArb text sa m).1.size = sa.size := by
  rw [insertLMSArb]
  have h := downLoop_invariant (fun st : LMSInsArb => st.sa.size = sa.size)
    text.length (insertLMSArbStep text) ⟨0, false, sa, m, 0, 0⟩ rfl (by
      intro i s hs
      rw [insertLMSArbStep]
      split
      · exact hs
      · split <;> simp [hs])
  split <;> simp [h]

theorem induceSubLArb_sa_size (text : List Int) (sa : Array Int) (m : Int → Buck) :
    (induceSubLArb text sa m).1.size = sa.size := by
  rw [induceSubLArb]
  exact upLoop_invariant (fun st : IndStateArb => st.sa.size = sa.size) _ _ _
    (by simp) (by
      intro i s hs
      rw [induceSubLArbStep]
      split
      · exact hs
      · split <;> simp [hs])

theorem induceSubSArb_sa_size (text : List Int) (sa : Array Int) (m : Int → Buck) :
    (induceSubSArb text sa m).1.size = sa.size := by
  rw [induceSubSArb]
  exact downLoop_invariant (fun st : SubSStateArb => st.sa.size = sa.size) _ _ _
    rfl (by
      intro i s hs
      rw [induceSubSArbStep]
      split
      · exact hs
      · split <;> simp [hs])

theorem expandArb_sa_size (text : List Int) (sa : Array Int) (m : Int → Buck)
    (numLMS : Nat) : (expandArb text sa m numLMS).1.size = sa.size := by
  rw [expandArb]
  exact downLoop_invariant
    (fun st : Array Int × (Int → Buck) => st.1.size = sa.size) _ _ _ rfl
    (by intro i s hs; simp [hs])

theorem induceLArb_sa_size (text : List Int) (sa : Array Int) (m : Int → Buck) :
    (induceLArb text sa m).1.size = sa.size := by
  rw [induceLArb]
  exact upLoop_invariant (fun st : IndStateArb => st.sa.size = sa.size) _ _ _
    (by simp) (by
      intro i s hs
      rw [induceLArbStep]
      split
      · exact hs
      · simp [hs])

theorem induceSArb_sa_size (text : List Int) (sa : Array Int) (m : Int → Buck) :
    (induceSArb text sa m).1.size = sa.size := by
  rw [induceSArb]
  exact downLoop_invariant (fun st : IndStateArb => st.sa.size = sa.size) _ _ _
    rfl (by
      intro i s hs
      rw [induceSArbStep]
      split
      · exact hs
      · simp [hs])

theorem induceSort_size (recur : List Int → Array Int → Int → Array Int)
    (text : List Int) (sa : Array Int) (minChar : Int) (numLMS : Nat)
    (srcAlphaSize currAlphaSize : Int) :
    (induceSort recur text sa minChar numLMS srcAlphaSize currAlphaSize).size =
      sa.size := by
  rw [induceSort]
  rcases hIns : insertLMS text sa (frequency text currAlphaSize.toNat minChar)
    (Array.mkArray currAlphaSize.toNat 0) minChar with ⟨sa1, b1⟩
  have hs1 : sa1.size = sa.size := by
    have := insertLMS_sa_size text sa (frequency text currAlphaSize.toNat minChar)
      (Array.mkArray currAlphaSize.toNat 0) minChar
    rw [hIns] at this
    exact this
  dsimp only
  split
  · rcases hL : induceSubL text sa1 (frequency text currAlphaSize.toNat minChar)
      b1 minChar with ⟨sa2, b2⟩
    have hs2 : sa2.size = sa1.size := by
      have := induceSubL_sa_size text sa1
        (frequency text currAlphaSize.toNat minChar) b1 minChar
      rw [hL] at this
      exact this
    rcases hS : induceSubS text sa2 (frequency text currAlphaSize.toNat minChar)
      b2 minChar with ⟨sa3, b3⟩
    have hs3 : sa3.size = sa2.size := by
      have := induceSubS_sa_size text sa2
        (frequency text currAlphaSize.toNat minChar) b2 minChar
      rw [hS] at this
      exact this
    rcases hSum : summarise text sa3 numLMS with ⟨sa4, maxName⟩
    have hs4 : sa4.size = sa3.size := by
      have := summarise_sa_size text sa3 numLMS
      rw [hSum] at this
      exact this
    simp only []
    rw [induceS_sa_size, induceL_sa_size, expand_sa_size]
    split
    · rw [unmap_size, overwriteHead_size, hs4, hs3, hs2, hs1]
    · rw [copySummaryClear_size, hs4, hs3, hs2, hs1]
  · rw [induceS_sa_size, induceL_sa_size, hs1]

theorem induceSortArb_size (recur : List Int → Array Int → Int → Array Int)
    (text : List Int) (sa : Array Int) (numLMS : Nat) :
    (induceSortArb recur text sa numLMS).size = sa.size := by
  rw [induceSortArb]
  rcases hMk : makeBucketsMap sa text with ⟨m0, alphaSize, sa0⟩
  have hs0 : sa0.size = sa.size := by
    have := makeBucketsMap_sa_size sa text
    rw [hMk] at this
    exact this
  dsimp only
  rcases hIns : insertLMSArb text sa0 m0 with ⟨sa1, m1⟩
  have hs1 : sa1.size = sa0.size := by
    have := insertLMSArb_sa_size text sa0 m0
    rw [hIns] at this
    exact this
  dsimp only
  split
  · rcases hL : induceSubLArb text sa1 m1 with ⟨sa2, m2⟩
    have hs2 : sa2.size = sa1.size := by
      have := induceSubLArb_sa_size text sa1 m1
      rw [hL] at this
      exact this
    rcases hS : induceSubSArb text sa2 m2 with ⟨sa3, m3⟩
    have hs3 : sa3.size = sa2.size := by
      have := induceSubSArb_sa_size text sa2 m2
      rw [hS] at this
      exact this
    rcases hSum : summarise text sa3 numLMS with ⟨sa4, maxName⟩
    have hs4 : sa4.size = sa3.size := by
      have := summarise_sa_size text sa3 numLMS
      rw [hSum] at this
      exact this
    simp only []
    rw [induceSArb_sa_size, induceLArb_sa_size, expandArb_sa_size]
    split
    · rw [unmap_size, overwriteHead_size, hs4, hs3, hs2, hs1, hs0]
    · rw [copySummaryClear_size, hs4, hs3, hs2, hs1, hs0]
  · rw [induceSArb_sa_size, induceLArb_sa_size, hs1, hs0]

theorem saisCore_size (fuel : Nat) (text : List Int) (sa? : Option (Array Int))
    (srcAlphaSize : Int) :
    (saisCore fuel text sa? srcAlphaSize).size =
      (match sa? with
       | none => text.length
       | some a => a.size) := by
  induction fuel generalizing text sa? srcAlphaSize with
  | zero =>
    cases sa? with
    | none => simp [saisCore]
    | some a => simp [saisCore]
  | succ fuel ih =>
    cases sa? with
    | none =>
      rw [saisCore]
      split
      · rw [induceSortArb_size]
        simp
      · rw [induceSort_size]
        simp
    | some a =>
      rw [saisCore]
      split
      · rw [induceSortArb_size]
      · rw [induceSort_size]

/-- The constructed suffix array always has the length of the text. -/
theorem sais_size (text : List Int) : (sais text).size = text.length := by
  rw [sais]
  split
  · simp
    omega
  · split
    · simp
      omega
    · rw [saisCore_size]

/-! ## Stage views of the small-alphabet pipeline

These replay `induceSort` exactly as `sais` runs it on a small-alphabet
top-level text, but stop at an intermediate stage, exposing the `sa` buffer
between passes. -/

/-- The `(sa, maxName)` pair right after `summarise` returns inside the
top-level `induceSort` run of `sais text` (small-alphabet path, `numLMS > 1`). -/
def summariseStage (text : List Int) : Array Int × Int :=
  let c := classify text
  let currAlphaSize := c.maxC - c.minC + 1
  let sa0 : Array Int := Array.mkArray text.length 0
  let freq := frequency text currAlphaSize.toNat c.minC
  let bucket : Array Int := Array.mkArray currAlphaSize.toNat 0
  let p1 := insertLMS text sa0 freq bucket c.minC
  let q1 := induceSubL text p1.1 freq p1.2 c.minC
  let q2 := induceSubS text q1.1 freq q1.2 c.minC
  summarise text q2.1 c.num

/-- The `sa` buffer right after the final `induceL` pass inside the top-level
`induceSort` run of `sais text` (small-alphabet path). -/
def saAfterInduceL (text : List Int) : Array Int :=
  let c := classify text
  let currAlphaSize := c.maxC - c.minC + 1
  let sa0 : Array Int := Array.mkArray text.length 0
  let freq := frequency text currAlphaSize.toNat c.minC
  let bucket : Array Int := Array.mkArray currAlphaSize.toNat 0
  let p1 := insertLMS text sa0 freq bucket c.minC
  let p2 :=
    if c.num > 1 then
      let q1 := induceSubL text p1.1 freq p1.2 c.minC
      let q2 := induceSubS text q1.1 freq q1.2 c.minC
      let q3 := summarise text q2.1 c.num
      let n := q3.1.size
      let sa :=
        if q3.2 < (c.num : Int) then
          let summary := q3.1.toList.drop (n - c.num)
          let summarySA := Array.mk (q3.1.toList.take c.num)
          let sub := saisCore (text.length - 1) summary (some summarySA) currAlphaSize
          unmap text (overwriteHead q3.1 sub c.num) c.num
        else copySummaryClear q3.1 c.num
      expand text sa freq q2.2 c.minC c.num
    else p1
  (induceL text p2.1 freq p2.2 c.minC).1

/-- Witness for the amended claim C6 at the text of `"banana"`. -/
theorem C6_classifier_witness :
    2 ≤ ([98, 97, 110, 97, 110, 97] : List Int).length ∧
    ((((classify [98, 97, 110, 97, 110, 97]).minC ∈
          ([98, 97, 110, 97, 110, 97] : List Int) ∧
        ∀ x ∈ ([98, 97, 110, 97, 110, 97] : List Int),
          (classify [98, 97, 110, 97, 110, 97]).minC ≤ x) ∧
      ((classify [98, 97, 110, 97, 110, 97]).maxC ∈
          ([98, 97, 110, 97, 110, 97] : List Int) ∧
        ∀ x ∈ ([98, 97, 110, 97, 110, 97] : List Int),
          x ≤ (classify [98, 97, 110, 97, 110, 97]).maxC)) ∧
    (0 ≤ ([98, 97, 110, 97, 110, 97] : List Int).getLastD 0 →
      (classify [98, 97, 110, 97, 110, 97]).num =
        refNumLMS [98, 97, 110, 97, 110, 97])) :=
  ⟨by decide, C6_classifier [98, 97, 110, 97, 110, 97] (by decide)⟩

set_option maxRecDepth 100000 in
/-- Claim C1: on the text `[0,-1,0,-1,0,-1]`, whose code points fit signed
31 bits, `sais` returns `[5,3,1,4,0,2]` while the naive suffix sort is
`[5,3,1,4,2,0]`: the suffix at position 0 strictly exceeds the suffix at
position 2 (`cmpList` is 1) yet `sais` orders 0 before 2, so the returned
array is not sorted by suffix order.  The slip is the classifier's
right-neighbour register starting at 0 instead of following the spec's
sentinel rule, which miscounts LMS positions when the last code point is
negative and corrupts the induction. -/
theorem C1_sais_failing_input :
    sais [0, -1, 0, -1, 0, -1] = #[5, 3, 1, 4, 0, 2] ∧
    naiveSA [0, -1, 0, -1, 0, -1] = #[5, 3, 1, 4, 2, 0] ∧
    cmpList (List.drop 0 [0, -1, 0, -1, 0, -1])
      (List.drop 2 [0, -1, 0, -1, 0, -1]) = 1 := by
  exact ⟨by rfl, by rfl, by rfl⟩

/-- A three-way comparison of 0 means equality of the sequences. -/
theorem cmpList_eq_zero_iff (a b : List Int) : cmpList a b = 0 ↔ a = b := by
  induction a generalizing b with
  | nil => cases b <;> simp [cmpList]
  | cons x xs ih =>
    cases b with
    | nil => simp [cmpList]
    | cons y ys =>
      rw [cmpList]
      rcases lt_trichotomy x y with h | h | h
      · simp [h, h.ne]
      · subst h
        simp [lt_irrefl, ih]
      · have h1 : ¬ x < y := not_lt.2 (le_of_lt h)
        simp [h, h1, h.ne']

/-- Claim C8: `LookupSuffix` on a `SuffixArray` built by `New` follows the
spec's four-case contract exactly, a sentinel return in every case. -/
theorem C8_lookupSuffix_contract (t s : List Int) :
    (SuffixArray.New t).LookupSuffix s = specLookupSuffix t s := by
  have hlen : (sais t).toList.length = t.length := by
    rw [Array.length_toList, sais_size]
  rw [SuffixArray.New, SuffixArray.LookupSuffix, specLookupSuffix]
  simp only [hlen]
  split
  · rfl
  · split
    · rfl
    · rename_i h1 h2
      have hle : s.length ≤ t.length := by
        rcases not_or.1 h2 with ⟨_, h⟩
        omega
      simp only [cmpList_eq_zero_iff]
      split
      · omega
      · rfl

/-- Claim C10: the query methods leave the receiver's `text` and `sa` fields
unchanged — each state-threaded method returns the state it received —
`LookupTextOrder` returns a sorted copy of the `Lookup` result rather than
reordering the stored array, and a query run after `LookupTextOrder` sees the
original suffix array. -/
theorem C10_queries_pure (s : SuffixArray) (p q su pre : List Int) :
    (s.LookupTextOrderSt p).2 = s ∧
    (s.LookupSt p).2 = s ∧
    (s.LookupSuffixSt su).2 = s ∧
    (s.LookupPrefixSt pre).2 = s ∧
    (s.LookupTextOrderSt p).1 = List.insertionSort (· ≤ ·) ((s.LookupSt p).1) ∧
    ((s.LookupTextOrderSt p).2).Lookup q = s.Lookup q :=
  ⟨rfl, rfl, rfl, rfl, rfl, rfl⟩

set_option maxRecDepth 100000 in
/-- Claim C5, counterexample: in the run of `sais` on the text of `"banana"`,
the SA buffer immediately after the final `induceL` pass is
`[5, 3, 1, 0, -4, -2]`: the negated-index sentinels written by `induceL` are
still present when the pass completes (they are consumed only by the
subsequent `induceS`), so it is not the case that after every pass SA is free
of negative values. -/
theorem C5_counterexample :
    saAfterInduceL [98, 97, 110, 97, 110, 97] = #[5, 3, 1, 0, -4, -2] ∧
    ((saAfterInduceL [98, 97, 110, 97, 110, 97]).toList.any
      (fun v => decide (v < 0))) = true := by
  exact ⟨by rfl, by rfl⟩

/-! ## Lemmas for the lookup layer (claim C2) -/

theorem cmpList_self (a : List Int) : cmpList a a = 0 := by
  induction a with
  | nil => rfl
  | cons x xs ih => simp [cmpList, lt_irrefl, ih]

/-- The comparison outcome 0 of `comparePrefix` means the pattern is a prefix
of the suffix. -/
theorem cmpPrefix_eq_zero_iff (s p : List Int) : cmpPrefix s p = 0 ↔ p <+: s := by
  induction s generalizing p with
  | nil =>
    cases p with
    | nil => simp [cmpPrefix]
    | cons q ps => simp [cmpPrefix]
  | cons a as ih =>
    cases p with
    | nil => simp [cmpPrefix]
    | cons q ps =>
      rw [cmpPrefix]
      rcases lt_trichotomy a q with h | h | h
      · simp only [h, if_pos]
        constructor
        · intro hc
          exact absurd hc (by decide)
        · intro hc
          rcases List.cons_prefix_cons.1 hc with ⟨he, _⟩
          exact absurd (he ▸ h) (lt_irrefl _)
      · subst h
        have h1 : ¬ a < a := lt_irrefl a
        simp only [h1, if_neg, if_false]
        rw [ih]
        constructor
        · intro hc
          exact List.cons_prefix_cons.2 ⟨rfl, hc⟩
        · intro hc
          exact (List.cons_prefix_cons.1 hc).2
      · have h1 : ¬ a < q := not_lt.2 (le_of_lt h)
        simp only [h1, if_neg, h, if_pos]
        constructor
        · intro hc
          exact absurd hc (by decide)
        · intro hc
          rcases List.cons_prefix_cons.1 hc with ⟨he, _⟩
          exact absurd (he ▸ h) (lt_irrefl _)

theorem cmpPrefix_cases (s p : List Int) :
    cmpPrefix s p = -1 ∨ cmpPrefix s p = 0 ∨ cmpPrefix s p = 1 := by
  induction s generalizing p with
  | nil => cases p <;> simp [cmpPrefix]
  | cons a as ih =>
    cases p with
    | nil => simp [cmpPrefix]
    | cons q ps =>
      rw [cmpPrefix]
      split
      · exact Or.inl rfl
      · split
        · exact Or.inr (Or.inr rfl)
        · exact ih ps

/-- Transport of `comparePrefix ≥ 0` along the suffix order: a suffix at least
as large as one comparing `≥ 0` against the pattern also compares `≥ 0`. -/
theorem cmpPrefix_ge_mono (s1 s2 p : List Int) (h12 : cmpList s1 s2 ≤ 0)
    (h1 : 0 ≤ cmpPrefix s1 p) : 0 ≤ cmpPrefix s2 p := by
  induction p generalizing s1 s2 with
  | nil => cases s2 <;> simp [cmpPrefix]
  | cons q ps ih =>
    cases s1 with
    | nil => exact absurd h1 (by simp [cmpPrefix])
    | cons a as =>
      cases s2 with
      | nil => exact absurd h12 (by simp [cmpList])
      | cons b bs =>
        rw [cmpList] at h12
        rw [cmpPrefix] at h1 ⊢
        rcases lt_trichotomy a b with hab | hab | hab
        · -- a < b: cmpList is -1, fine; b relates to q through a
          rcases lt_trichotomy a q with haq | haq | haq
          · exact absurd h1 (by simp [haq])
          · subst haq
            have hbq : a < b := hab
            have h2 : ¬ b < a := not_lt.2 (le_of_lt hab)
            simp only [h2, if_neg, hab, if_pos]
            norm_num
          · have hbq : q < b := lt_trans haq hab
            have h2 : ¬ b < q := not_lt.2 (le_of_lt hbq)
            simp only [h2, if_neg, hbq, if_pos]
            norm_num
        · subst hab
          simp only [lt_irrefl, if_neg, if_false, not_false_iff] at h12
          rcases lt_trichotomy a q with haq | haq | haq
          · exact absurd h1 (by simp [haq])
          · subst haq
            simp only [lt_irrefl, if_neg, if_false] at h1 ⊢
            exact ih as bs h12 h1
          · have h2 : ¬ a < q := not_lt.2 (le_of_lt haq)
            simp only [h2, if_neg, haq, if_pos]
            norm_num
        · -- a > b contradicts cmpList ≤ 0
          have h2 : ¬ a < b := not_lt.2 (le_of_lt hab)
          simp [h2, hab] at h12

/-- Transport of `comparePrefix > 0` along the suffix order. -/
theorem cmpPrefix_gt_mono (s1 s2 p : List Int) (h12 : cmpList s1 s2 ≤ 0)
    (h1 : 0 < cmpPrefix s1 p) : 0 < cmpPrefix s2 p := by
  induction p generalizing s1 s2 with
  | nil =>
    cases s1 <;> exact absurd h1 (by simp [cmpPrefix])
  | cons q ps ih =>
    cases s1 with
    | nil => exact absurd h1 (by simp [cmpPrefix])
    | cons a as =>
      cases s2 with
      | nil => exact absurd h12 (by simp [cmpList])
      | cons b bs =>
        rw [cmpList] at h12
        rw [cmpPrefix] at h1 ⊢
        rcases lt_trichotomy a b with hab | hab | hab
        · rcases lt_trichotomy a q with haq | haq | haq
          · exact absurd h1 (by simp [haq])
          · subst haq
            have h2 : ¬ b < a := not_lt.2 (le_of_lt hab)
            simp only [h2, if_neg, hab, if_pos]
            norm_num
          · have hbq : q < b := lt_trans haq hab
            have h2 : ¬ b < q := not_lt.2 (le_of_lt hbq)
            simp only [h2, if_neg, hbq, if_pos]
            norm_num
        · subst hab
          simp only [lt_irrefl, if_neg, if_false, not_false_iff] at h12
          rcases lt_trichotomy a q with haq | haq | haq
          · exact absurd h1 (by simp [haq])
          · subst haq
            simp only [lt_irrefl, if_neg, if_false] at h1 ⊢
            exact ih as bs h12 h1
          · have h2 : ¬ a < q := not_lt.2 (le_of_lt haq)
            simp only [h2, if_neg, haq, if_pos]
            norm_num
        · have h2 : ¬ a < b := not_lt.2 (le_of_lt hab)
          simp [h2, hab] at h12

/-- Contract of Go `sort.Search`'s loop on a predicate monotone on `[i, j)`:
it returns the boundary index. -/
theorem goSearchLoop_spec (f : Nat → Bool) : ∀ (d i j : Nat), j - i ≤ d → i ≤ j →
    (∀ k l, i ≤ k → k ≤ l → l < j → f k = true → f l = true) →
    i ≤ goSearchLoop f i j ∧ goSearchLoop f i j ≤ j ∧
    (∀ k, i ≤ k → k < goSearchLoop f i j → f k = false) ∧
    (∀ k, goSearchLoop f i j ≤ k → k < j → f k = true) := by
  intro d
  induction d with
  | zero =>
    intro i j hd hij _
    rw [goSearchLoop, dif_neg (by omega : ¬ i < j)]
    refine ⟨le_refl i, by omega, ?_, ?_⟩ <;> (intro k h1 h2; omega)
  | succ d ih =>
    intro i j hd hij hmono
    rw [goSearchLoop]
    by_cases hlt : i < j
    · rw [dif_pos hlt]
      have hmid1 : i ≤ (i + j) / 2 := by omega
      have hmid2 : (i + j) / 2 < j := by omega
      cases hf : f ((i + j) / 2) with
      | true =>
        rw [if_pos hf]
        obtain ⟨g1, g2, g3, g4⟩ := ih i ((i + j) / 2) (by omega) hmid1
          (fun k l hk hkl hl hfk => hmono k l hk hkl (lt_trans hl hmid2) hfk)
        refine ⟨g1, le_trans g2 (le_of_lt hmid2), g3, ?_⟩
        intro k h1 h2
        by_cases hk : k < (i + j) / 2
        · exact g4 k h1 hk
        · exact hmono ((i + j) / 2) k hmid1 (by omega) h2 hf
      | false =>
        rw [if_neg (by simp [hf])]
        obtain ⟨g1, g2, g3, g4⟩ := ih ((i + j) / 2 + 1) j (by omega) (by omega)
          (fun k l hk hkl hl hfk => hmono k l (by omega) hkl hl hfk)
        refine ⟨by omega, g2, ?_, g4⟩
        intro k h1 h2
        by_cases hk : k ≤ (i + j) / 2
        · cases hfk : f k with
          | true => exact absurd (hmono k ((i + j) / 2) h1 hk hmid2 hfk) (by simp [hf])
          | false => rfl
        · exact g3 k (by omega) h2
    · rw [dif_neg hlt]
      refine ⟨le_refl i, by omega, ?_, ?_⟩ <;> (intro k h1 h2; omega)

theorem goSearch_spec (n : Nat) (f : Nat → Bool)
    (hmono : ∀ k l, k ≤ l → l < n → f k = true → f l = true) :
    goSearch n f ≤ n ∧
    (∀ k, k < goSearch n f → f k = false) ∧
    (∀ k, goSearch n f ≤ k → k < n → f k = true) := by
  obtain ⟨g1, g2, g3, g4⟩ := goSearchLoop_spec f n 0 n (by omega) (Nat.zero_le n)
    (fun k l hk hkl hl hfk => hmono k l hkl hl hfk)
  exact ⟨g2, fun k h => g3 k (Nat.zero_le k) h, g4⟩

/-- A filter whose predicate holds exactly on an index window is the window's
slice. -/
theorem filter_eq_slice {α : Type} (xs : List α) (p : α → Bool) (l r : Nat)
    (hlr : l ≤ r) (hrn : r ≤ xs.length)
    (h : ∀ k (hk : k < xs.length), p (xs.get ⟨k, hk⟩) = decide (l ≤ k ∧ k < r)) :
    xs.filter p = (xs.drop l).take (r - l) := by
  induction xs generalizing l r with
  | nil => simp
  | cons x rest ih =>
    cases l with
    | zero =>
      cases r with
      | zero =>
        have hx : p x = false := by
          have := h 0 (by simp)
          simpa using this
        rw [List.filter_cons_of_neg (by simp [hx])]
        have := ih 0 0 (le_refl 0) (by omega) (fun k hk => by
          have := h (k + 1) (by simpa using Nat.succ_lt_succ hk)
          simpa using this)
        simpa using this
      | succ r2 =>
        have hx : p x = true := by
          have := h 0 (by simp)
          simpa using this
        rw [List.filter_cons_of_pos hx]
        have := ih 0 r2 (by omega) (by simpa using hrn) (fun k hk => by
          have := h (k + 1) (by simpa using Nat.succ_lt_succ hk)
          simp only [List.get_cons_succ] at this
          rw [this]
          simp only [decide_eq_decide]
          omega)
        simp only [List.drop_zero] at this ⊢
        rw [this]
        simp
    | succ l2 =>
      cases r with
      | zero => omega
      | succ r2 =>
        have hx : p x = false := by
          have := h 0 (by simp)
          simpa using this
        rw [List.filter_cons_of_neg (by simp [hx])]
        have := ih l2 r2 (by omega) (by simpa using hrn) (fun k hk => by
          have := h (k + 1) (by simpa using Nat.succ_lt_succ hk)
          simp only [List.get_cons_succ] at this
          rw [this]
          simp only [decide_eq_decide]
          omega)
        rw [this]
        simp [Nat.succ_sub_succ]

set_option maxRecDepth 100000 in
/-- Claim C4, counterexample: on the text `[2,0,2,1,2]` (two LMS positions,
so `numLMS = 2 > 1`), the state inside the top-level run of `sais` right
after `summarise` returns is `sa = [1, 2, 0, 1, 3]` with `maxName = 2`: this
is the early-return case (`maxName ≥ numLMS`), the scratch half slots
`sa[0] = 1` and `sa[1] = 2` still hold the names — `sa` is not zero
throughout — and the summary region `sa[3..5) = [1, 3]` holds the LMS
positions sorted by substring, not the reduced text `[1, 2]`. -/
theorem C4_counterexample :
    summariseStage [2, 0, 2, 1, 2] = (#[1, 2, 0, 1, 3], 2) ∧
    (classify [2, 0, 2, 1, 2]).num = 2 ∧
    aget (summariseStage [2, 0, 2, 1, 2]).1 0 ≠ 0 := by
  exact ⟨by rfl, by rfl, by decide⟩

theorem getD_eq_get (sa : List Int) (k : Nat) (hk : k < sa.length) :
    sa.getD k 0 = sa.get ⟨k, hk⟩ := by
  rw [List.getD_eq_getElem?_getD, List.getElem?_eq_getElem hk]
  rfl

/-- With `sa` a permutation of the positions sorted strictly by suffix order,
`lookup` filters `sa` to the suffixes starting with the pattern and
`lookupTextOrder` returns the matching positions in ascending order. -/
theorem lookup_sound_main (t sa pat : List Int)
    (hperm : sa.Perm ((List.range t.length).map Int.ofNat))
    (hsort : sa.Pairwise (fun a b => cmpList (t.drop a.toNat) (t.drop b.toNat) = -1)) :
    lookup t sa pat = sa.filter (fun v => decide (pat <+: t.drop v.toNat)) ∧
    lookupTextOrder t sa pat =
      ((List.range t.length).filter (fun i => decide (pat <+: t.drop i))).map
        Int.ofNat := by
  have hcmp : ∀ k l (hk : k < sa.length) (hl : l < sa.length), k ≤ l →
      cmpList (t.drop (sa.get ⟨k, hk⟩).toNat) (t.drop (sa.get ⟨l, hl⟩).toNat) ≤ 0 := by
    intro k l hk hl hkl
    rcases Nat.eq_or_lt_of_le hkl with rfl | hlt
    · rw [cmpList_self]
    · simp only [List.get_eq_getElem]
      rw [(List.pairwise_iff_getElem.1 hsort) k l hk hl hlt]
      decide
  have hgd : ∀ k (hk : k < sa.length), sa.getD k 0 = sa.get ⟨k, hk⟩ :=
    getD_eq_get sa
  have hb : lookup t sa pat =
      sa.filter (fun v => decide (pat <+: t.drop v.toNat)) := by
    by_cases hpat : pat.length = 0
    · rw [List.length_eq_zero] at hpat
      subst hpat
      rw [lookup, if_pos (by simp : ([] : List Int).length = 0)]
      symm
      rw [List.filter_eq_self]
      intro a _
      simp
    · by_cases hsa : sa.length = 0
      · rw [List.length_eq_zero] at hsa
        subst hsa
        rw [lookup, if_neg hpat]
        simp
      · rw [lookup, if_neg hpat, if_neg hsa]
        have hge_mono : ∀ k l, k ≤ l → l < sa.length →
            lookupGE t sa pat k = true → lookupGE t sa pat l = true := by
          intro k l hkl hl hk
          have hkn : k < sa.length := Nat.lt_of_le_of_lt hkl hl
          simp only [lookupGE, suffixAt, ge_iff_le, decide_eq_true_eq] at hk ⊢
          rw [hgd k hkn] at hk
          rw [hgd l hl]
          exact cmpPrefix_ge_mono _ _ pat (hcmp k l hkn hl hkl) hk
        obtain ⟨hL1, hL2, hL3⟩ := goSearch_spec sa.length (lookupGE t sa pat) hge_mono
        set L := goSearch sa.length (lookupGE t sa pat) with hLdef
        have hgt_mono : ∀ k l, k ≤ l → l < sa.length - L →
            lookupGT t sa pat L k = true → lookupGT t sa pat L l = true := by
          intro k l hkl hl hk
          have hkn : L + k < sa.length := by omega
          have hln : L + l < sa.length := by omega
          simp only [lookupGT, suffixAt, decide_eq_true_eq] at hk ⊢
          rw [hgd (L + k) hkn] at hk
          rw [hgd (L + l) hln]
          exact cmpPrefix_gt_mono _ _ pat (hcmp (L + k) (L + l) hkn hln (by omega)) hk
        obtain ⟨hR1, hR2, hR3⟩ :=
          goSearch_spec (sa.length - L) (lookupGT t sa pat L) hgt_mono
        set R := goSearch (sa.length - L) (lookupGT t sa pat L) with hRdef
        symm
        apply filter_eq_slice sa _ L (L + R) (by omega) (by omega)
        intro k hk
        show decide (pat <+: t.drop (sa.get ⟨k, hk⟩).toNat) =
          decide (L ≤ k ∧ k < L + R)
        rw [decide_eq_decide, ← cmpPrefix_eq_zero_iff]
        constructor
        · intro h0
          constructor
          · by_contra hkL
            push_neg at hkL
            have hfalse := hL2 k hkL
            simp only [lookupGE, suffixAt, ge_iff_le, decide_eq_false_iff_not] at hfalse
            rw [hgd k hk, h0] at hfalse
            exact hfalse (le_refl 0)
          · by_contra hkR
            push_neg at hkR
            have htrue := hR3 (k - L) (by omega) (by omega)
            simp only [lookupGT, suffixAt, decide_eq_true_eq] at htrue
            have hplus : L + (k - L) = k := by omega
            rw [hplus, hgd k hk, h0] at htrue
            exact absurd htrue (by decide)
        · rintro ⟨h1, h2⟩
          have hge := hL3 k h1 hk
          simp only [lookupGE, suffixAt, ge_iff_le, decide_eq_true_eq] at hge
          rw [hgd k hk] at hge
          have hgt := hR2 (k - L) (by omega)
          simp only [lookupGT, suffixAt, decide_eq_false_iff_not, not_lt] at hgt
          have hplus : L + (k - L) = k := by omega
          rw [hplus, hgd k hk] at hgt
          omega
  refine ⟨hb, ?_⟩
  rw [lookupTextOrder, hb]
  have hpmap : ((List.range t.length).map Int.ofNat).filter
        (fun v => decide (pat <+: t.drop v.toNat)) =
      ((List.range t.length).filter (fun i => decide (pat <+: t.drop i))).map
        Int.ofNat := by
    rw [List.filter_map]
    exact congrArg (List.map Int.ofNat)
      (List.filter_congr (fun i _ => by simp [Function.comp]))
  apply List.eq_of_perm_of_sorted (r := (· ≤ · : Int → Int → Prop))
  · have h2 := hperm.filter (fun v => decide (pat <+: t.drop v.toNat))
    rw [hpmap] at h2
    exact (List.perm_insertionSort _ _).trans h2
  · exact List.sorted_insertionSort _ _
  · rw [List.Sorted, List.pairwise_map]
    refine List.Pairwise.imp ?_ ((List.pairwise_lt_range t.length).filter _)
    intro a b hab
    exact Int.ofNat_le.2 (le_of_lt hab)

/-- Claim C2: with `sa` a permutation of the positions sorted strictly by
suffix order (`cmpList` outcome -1 between any earlier and later entry),
`lookup` returns exactly the entries of `sa` whose suffix starts with the
pattern, in `sa` order (by construction a contiguous sub-slice `sa[l:r]`), and
`lookupTextOrder` returns exactly the matching positions in ascending order.
The empty-pattern and empty-`sa` cases fall out: an empty pattern is a prefix
of every suffix, so the filter keeps all of `sa` and the text order is
`0,…,n-1`; an empty `sa` yields the empty result. -/
theorem C2_lookup_sound (t sa pat : List Int)
    (hperm : sa.Perm ((List.range t.length).map Int.ofNat))
    (hsort : sa.Pairwise (fun a b => cmpList (t.drop a.toNat) (t.drop b.toNat) = -1)) :
    lookup t sa pat = sa.filter (fun v => decide (pat <+: t.drop v.toNat)) ∧
    lookupTextOrder t sa pat =
      ((List.range t.length).filter (fun i => decide (pat <+: t.drop i))).map
        Int.ofNat :=
  lookup_sound_main t sa pat hperm hsort

/-- Witness for claim C2 on the `"banana"` scenario with pattern `"a"`. -/
theorem C2_lookup_sound_witness :
    (([5, 3, 1, 0, 4, 2] : List Int).Perm
      ((List.range ([98, 97, 110, 97, 110, 97] : List Int).length).map Int.ofNat)) ∧
    (([5, 3, 1, 0, 4, 2] : List Int).Pairwise (fun a b =>
      cmpList (([98, 97, 110, 97, 110, 97] : List Int).drop a.toNat)
        (([98, 97, 110, 97, 110, 97] : List Int).drop b.toNat) = -1)) ∧
    (lookup [98, 97, 110, 97, 110, 97] [5, 3, 1, 0, 4, 2] [97] =
      ([5, 3, 1, 0, 4, 2] : List Int).filter
        (fun v => decide (([97] : List Int) <+:
          ([98, 97, 110, 97, 110, 97] : List Int).drop v.toNat)) ∧
    lookupTextOrder [98, 97, 110, 97, 110, 97] [5, 3, 1, 0, 4, 2] [97] =
      ((List.range ([98, 97, 110, 97, 110, 97] : List Int).length).filter
        (fun i => decide (([97] : List Int) <+:
          ([98, 97, 110, 97, 110, 97] : List Int).drop i))).map Int.ofNat) :=
  ⟨by decide, by decide,
    C2_lookup_sound [98, 97, 110, 97, 110, 97] [5, 3, 1, 0, 4, 2] [97]
      (by decide) (by decide)⟩

/-! ## Indexed loop induction -/

theorem upLoop_succ {σ : Type} (n : Nat) (f : Nat → σ → σ) (st : σ) :
    upLoop (n + 1) f st = f n (upLoop n f st) := by
  unfold upLoop
  rw [List.range_succ, List.foldl_append]
  rfl

theorem upLoop_ind {σ : Type} (P : Nat → σ → Prop) (n : Nat) (f : Nat → σ → σ)
    (st : σ) (h0 : P 0 st) (h : ∀ i s, i < n → P i s → P (i + 1) (f i s)) :
    P n (upLoop n f st) := by
  induction n with
  | zero => exact h0
  | succ k ih =>
    rw [upLoop_succ]
    exact h k _ (Nat.lt_succ_self k)
      (ih (fun i s hi => h i s (Nat.lt_succ_of_lt hi)))

theorem downLoop_succ {σ : Type} (n : Nat) (f : Nat → σ → σ) (st : σ) :
    downLoop (n + 1) f st = downLoop n f (f n st) := by
  unfold downLoop
  rw [List.range_succ, List.reverse_append]
  rfl

theorem downLoop_ind {σ : Type} (P : Nat → σ → Prop) (n : Nat) (f : Nat → σ → σ)
    (st : σ) (h0 : P n st) (h : ∀ i s, i < n → P (i + 1) s → P i (f i s)) :
    P 0 (downLoop n f st) := by
  induction n generalizing st with
  | zero => exact h0
  | succ k ih =>
    rw [downLoop_succ]
    exact ih (f k st) (h k st (Nat.lt_succ_self k) h0)
      (fun i s hi hp => h i s (Nat.lt_succ_of_lt hi) hp)

/-! ## Guarded read/write at natural indices -/

theorem aget_aset_eq (a : Array Int) (i : Nat) (v : Int) (hi : i < a.size) :
    aget (aset a (i : Int) v) (i : Int) = v := by
  rw [aset, dif_pos ⟨Int.ofNat_nonneg i, by simpa using hi⟩]
  rw [aget, dif_pos ⟨Int.ofNat_nonneg i, by simpa using hi⟩]
  simp

theorem aget_aset_ne (a : Array Int) (i : Nat) (v : Int) (j : Int)
    (hne : j ≠ (i : Int)) : aget (aset a (i : Int) v) j = aget a j := by
  rw [aset]
  split
  · next h =>
    rw [aget, aget]
    by_cases hj : 0 ≤ j ∧ j.toNat < a.size
    · rw [dif_pos ⟨hj.1, by simpa using hj.2⟩, dif_pos hj]
      have hne2 : j.toNat ≠ i := by omega
      simp [Array.getElem_set, hne2, hne2.symm]
    · rw [dif_neg (by simpa using hj), dif_neg hj]
  · rfl

theorem tdiv_two (m : Nat) : Int.tdiv (m : Int) 2 = ((m / 2 : Nat) : Int) := rfl

/-! ## Structure of the LMS positions -/

theorem tget_zero (a : Int) (l : List Int) : tget (a :: l) 0 = a := by
  simp [tget]

theorem tget_cons_succ (a : Int) (l : List Int) (k : Nat) :
    tget (a :: l) ((k + 1 : Nat) : Int) = tget l (k : Int) := by
  rw [tget, tget]
  by_cases h : k < l.length
  · rw [dif_pos ⟨by positivity, by simpa using Nat.succ_lt_succ h⟩,
      dif_pos ⟨Int.ofNat_nonneg k, by simpa using h⟩]
    simp
  · rw [dif_neg (by simp; omega), dif_neg (by simp; omega)]

/-! ## Cleanliness of the induction passes (claim C5)

The passes other than the final `induceL` clean up every negated sentinel
they write before returning.  The proofs run a scan invariant over each
pass: a negated write of `induceSubL` always lands strictly beyond the
scan cursor, and a negated write of `induceSubS` or `induceS` strictly
before it, so the scan itself restores or collects it; the bucket
counting needed for this is supplied by the pass contracts below. -/

/-- Number of positions of `text` holding a code point smaller than `c`. -/
def cntLt (text : List Int) (c : Int) : Int :=
  ((text.filter (fun x => decide (x < c))).length : Int)

/-- Number of positions of `text` holding a code point at most `c`. -/
def cntLe (text : List Int) (c : Int) : Int :=
  ((text.filter (fun x => decide (x ≤ c))).length : Int)

/-- Number of positions of `text` holding exactly the code point `c`. -/
def cntEq (text : List Int) (c : Int) : Int :=
  ((text.filter (fun x => decide (x = c))).length : Int)

/-- Where the L-cascade from a queue entry `j` stops: the largest `k ≤ j-1`
with `k = 0` or `text[k-1] < text[k]`.  The forward scan of `induceSubL`
started at `j` writes exactly the indexes `stopL, …, j-1`. -/
def stopL (text : List Int) : Nat → Nat
  | 0 => 0
  | j + 1 =>
    if j = 0 ∨ tget text ((j : Int) - 1) < tget text (j : Int) then j
    else stopL text j

/-- Where the S-cascade from a queue entry `j` stops: the largest `k ≤ j-1`
with `k = 0` or `text[k-1] > text[k]` (shared by `induceSubS` and the final
`induceS`, whose cascades continue exactly while `text[k-1] ≤ text[k]`). -/
def stopS (text : List Int) : Nat → Nat
  | 0 => 0
  | j + 1 =>
    if j = 0 ∨ tget text ((j : Int) - 1) > tget text (j : Int) then j
    else stopS text j

/-- How many of the indexes written by the L-cascade from `j` carry the code
point `c` (that is, land in the bucket of `c`). -/
def futL (text : List Int) (c : Int) (j : Nat) : Int :=
  (((List.range' (stopL text j) (j - stopL text j)).filter
    (fun k : Nat => decide (tget text (k : Int) = c))).length : Int)

/-- How many of the indexes written by the S-cascade from `j` carry the code
point `c`. -/
def futS (text : List Int) (c : Int) (j : Nat) : Int :=
  (((List.range' (stopS text j) (j - stopS text j)).filter
    (fun k : Nat => decide (tget text (k : Int) = c))).length : Int)

/-- Future writes into the bucket of `c` caused by the positive queue entries
at buffer positions `≥ m` (the region the forward scan has not reached). -/
def pendL (text : List Int) (sa : Array Int) (m : Nat) (c : Int) : Int :=
  ((List.range' m (sa.size - m)).map (fun p : Nat =>
    if 0 < aget sa (p : Int) then futL text c (aget sa (p : Int)).toNat else 0)).sum

/-- Future writes into the bucket of `c` caused by the positive queue entries
at buffer positions `< m` (the region a backward scan has not reached). -/
def pendS (text : List Int) (sa : Array Int) (m : Nat) (c : Int) : Int :=
  ((List.range m).map (fun p : Nat =>
    if 0 < aget sa (p : Int) then futS text c (aget sa (p : Int)).toNat else 0)).sum

/-- Future writes into the bucket of `c` caused by the negated queue entries
at buffer positions `< m` (the work queue of the final `induceS`). -/
def pendF (text : List Int) (sa : Array Int) (m : Nat) (c : Int) : Int :=
  ((List.range m).map (fun p : Nat =>
    if aget sa (p : Int) < 0 then futS text c (-aget sa (p : Int)).toNat else 0)).sum

/- ===== basic lemmas ===== -/

theorem aget_aset_self (a : Array Int) (i v : Int) (h0 : 0 ≤ i)
    (h1 : i < (a.size : Int)) : aget (aset a i v) i = v := by
  have : i = ((i.toNat : Nat) : Int) := by omega
  rw [this]
  exact aget_aset_eq a i.toNat v (by omega)

theorem aget_aset_other (a : Array Int) (i v j : Int) (hne : j ≠ i) :
    aget (aset a i v) j = aget a j := by
  by_cases h : 0 ≤ i ∧ i.toNat < a.size
  · have : i = ((i.toNat : Nat) : Int) := by omega
    rw [this] at hne ⊢
    exact aget_aset_ne a i.toNat v j hne
  · rw [aset, dif_neg h]

theorem tget_mem (t : List Int) (i : Int) (h0 : 0 ≤ i) (h1 : i < (t.length : Int)) :
    tget t i ∈ t := by
  rw [tget, dif_pos ⟨h0, by omega⟩]
  exact t.get_mem i.toNat _

theorem cntLt_nonneg (t : List Int) (c : Int) : 0 ≤ cntLt t c := by
  rw [cntLt]
  exact_mod_cast Nat.zero_le _

theorem cntLe_le_length (t : List Int) (c : Int) : cntLe t c ≤ (t.length : Int) := by
  rw [cntLe]
  exact_mod_cast List.length_filter_le _ t

theorem cntLt_le_cntLe (t : List Int) (c : Int) : cntLt t c ≤ cntLe t c := by
  rw [cntLt, cntLe]
  have h := List.Sublist.length_le
    (List.monotone_filter_right t (p := fun x => decide (x < c))
      (q := fun x => decide (x ≤ c)) (by intro a ha; simp at ha ⊢; omega))
  exact_mod_cast h

theorem cntLe_le_cntLt (t : List Int) (c c' : Int) (h : c < c') :
    cntLe t c ≤ cntLt t c' := by
  rw [cntLt, cntLe]
  have h2 := List.Sublist.length_le
    (List.monotone_filter_right t (p := fun x => decide (x ≤ c))
      (q := fun x => decide (x < c')) (by intro a ha; simp at ha ⊢; omega))
  exact_mod_cast h2

theorem cntLt_add_cntEq (t : List Int) (c : Int) :
    cntLt t c + cntEq t c = cntLe t c := by
  induction t with
  | nil => simp [cntLt, cntEq, cntLe]
  | cons x xs ih =>
    rw [cntLt, cntEq, cntLe] at ih ⊢
    by_cases h1 : x < c
    · have h2 : ¬ (x = c) := by omega
      have h3 : x ≤ c := by omega
      simp [List.filter_cons, h1, h2, h3]
      omega
    · by_cases h2 : x = c
      · have h3 : x ≤ c := by omega
        simp [List.filter_cons, h1, h2, h3]
        omega
      · have h3 : ¬ (x ≤ c) := by omega
        simp [List.filter_cons, h1, h2, h3]
        exact ih

theorem cntEq_pos_of_mem (t : List Int) (c : Int) (h : c ∈ t) : 1 ≤ cntEq t c := by
  have : c ∈ t.filter (fun x => decide (x = c)) := by
    rw [List.mem_filter]
    exact ⟨h, by simp⟩
  have h2 : 0 < (t.filter (fun x => decide (x = c))).length :=
    List.length_pos.2 (List.ne_nil_of_mem this)
  rw [cntEq]
  exact_mod_cast h2

theorem cntLt_lt_cntLe_of_mem (t : List Int) (c : Int) (h : c ∈ t) :
    cntLt t c < cntLe t c := by
  have := cntLt_add_cntEq t c
  have := cntEq_pos_of_mem t c h
  omega

theorem stopL_lt (text : List Int) (j : Nat) (h : 1 ≤ j) : stopL text j < j := by
  induction j with
  | zero => omega
  | succ m ih =>
    rw [stopL]
    split
    · omega
    · rcases Nat.eq_zero_or_pos m with hm | hm
      · subst hm; simp [stopL]
      · exact Nat.lt_succ_of_lt (ih hm)

theorem stopS_lt (text : List Int) (j : Nat) (h : 1 ≤ j) : stopS text j < j := by
  induction j with
  | zero => omega
  | succ m ih =>
    rw [stopS]
    split
    · omega
    · rcases Nat.eq_zero_or_pos m with hm | hm
      · subst hm; simp [stopS]
      · exact Nat.lt_succ_of_lt (ih hm)

theorem futL_nonneg (text : List Int) (c : Int) (j : Nat) : 0 ≤ futL text c j := by
  rw [futL]
  exact_mod_cast Nat.zero_le _

theorem futS_nonneg (text : List Int) (c : Int) (j : Nat) : 0 ≤ futS text c j := by
  rw [futS]
  exact_mod_cast Nat.zero_le _

/-- The cascade accounting step for `induceSubL`: processing a queue entry
`j ≥ 1` writes the index `j-1` (into the bucket of `text[j-1]`) and leaves,
when `j-1` is again a positive queue entry, the cascade of `j-1`. -/
theorem futL_succ (text : List Int) (c : Int) (j : Nat) (hj : 1 ≤ j) :
    futL text c j =
      (if tget text ((j : Int) - 1) = c then 1 else 0) +
      (if j - 1 = 0 ∨ tget text ((j : Int) - 2) < tget text ((j : Int) - 1) then 0
       else futL text c (j - 1)) := by
  obtain ⟨m, rfl⟩ : ∃ m, j = m + 1 := ⟨j - 1, by omega⟩
  rw [futL]
  rw [stopL]
  by_cases hstop : m = 0 ∨ tget text ((m : Int) - 1) < tget text (m : Int)
  · rw [if_pos hstop]
    have h1 : m + 1 - m = 1 := by omega
    rw [h1]
    have h2 : (m : Int) + 1 - 1 = (m : Int) := by omega
    have hc : ((m + 1 : Nat) : Int) - 1 = (m : Int) := by push_cast; omega
    have hc2 : ((m + 1 : Nat) : Int) - 2 = (m : Int) - 1 := by push_cast; omega
    rw [hc, hc2]
    have h3 : (m + 1 : Nat) - 1 = m := by omega
    rw [h3, if_pos hstop]
    simp only [List.range'_one]
    by_cases hc3 : tget text (m : Int) = c
    · simp [hc3]
    · simp [hc3]
  · rw [if_neg hstop]
    have hm : 1 ≤ m := by
      rcases Nat.eq_zero_or_pos m with h | h
      · exact absurd (Or.inl h) hstop
      · exact h
    have hlt := stopL_lt text m hm
    have hc : ((m + 1 : Nat) : Int) - 1 = (m : Int) := by push_cast; omega
    have hc2 : ((m + 1 : Nat) : Int) - 2 = (m : Int) - 1 := by push_cast; omega
    rw [hc, hc2]
    have h3 : (m + 1 : Nat) - 1 = m := by omega
    rw [h3, if_neg hstop]
    have hsplit : m + 1 - stopL text m = (m - stopL text m) + 1 := by omega
    rw [hsplit, List.range'_concat]
    have h4 : stopL text m + 1 * (m - stopL text m) = m := by omega
    rw [h4]
    rw [List.filter_append, List.length_append]
    rw [futL]
    simp only [List.filter_cons, List.filter_nil]
    by_cases hc3 : tget text (m : Int) = c
    · simp [hc3]
      ring
    · simp [hc3]

theorem futS_succ (text : List Int) (c : Int) (j : Nat) (hj : 1 ≤ j) :
    futS text c j =
      (if tget text ((j : Int) - 1) = c then 1 else 0) +
      (if j - 1 = 0 ∨ tget text ((j : Int) - 2) > tget text ((j : Int) - 1) then 0
       else futS text c (j - 1)) := by
  obtain ⟨m, rfl⟩ : ∃ m, j = m + 1 := ⟨j - 1, by omega⟩
  rw [futS]
  rw [stopS]
  by_cases hstop : m = 0 ∨ tget text ((m : Int) - 1) > tget text (m : Int)
  · rw [if_pos hstop]
    have h1 : m + 1 - m = 1 := by omega
    rw [h1]
    have hc : ((m + 1 : Nat) : Int) - 1 = (m : Int) := by push_cast; omega
    have hc2 : ((m + 1 : Nat) : Int) - 2 = (m : Int) - 1 := by push_cast; omega
    rw [hc, hc2]
    have h3 : (m + 1 : Nat) - 1 = m := by omega
    rw [h3, if_pos hstop]
    simp only [List.range'_one]
    by_cases hc3 : tget text (m : Int) = c
    · simp [hc3]
    · simp [hc3]
  · rw [if_neg hstop]
    have hm : 1 ≤ m := by
      rcases Nat.eq_zero_or_pos m with h | h
      · exact absurd (Or.inl h) hstop
      · exact h
    have hlt := stopS_lt text m hm
    have hc : ((m + 1 : Nat) : Int) - 1 = (m : Int) := by push_cast; omega
    have hc2 : ((m + 1 : Nat) : Int) - 2 = (m : Int) - 1 := by push_cast; omega
    rw [hc, hc2]
    have h3 : (m + 1 : Nat) - 1 = m := by omega
    rw [h3, if_neg hstop]
    have hsplit : m + 1 - stopS text m = (m - stopS text m) + 1 := by omega
    rw [hsplit, List.range'_concat]
    have h4 : stopS text m + 1 * (m - stopS text m) = m := by omega
    rw [h4]
    rw [List.filter_append, List.length_append]
    rw [futS]
    simp only [List.filter_cons, List.filter_nil]
    by_cases hc3 : tget text (m : Int) = c
    · simp [hc3]
      ring
    · simp [hc3]

/-- Replacing the summand at one position of a duplicate-free index list. -/
theorem sum_map_congr_except (l : List Nat) (f g : Nat → Int) (b : Nat)
    (hnd : l.Nodup) (hb : b ∈ l) (h : ∀ x ∈ l, x ≠ b → f x = g x) :
    (l.map f).sum = (l.map g).sum - g b + f b := by
  induction l with
  | nil => cases hb
  | cons x xs ih =>
    rcases List.mem_cons.1 hb with rfl | hbx
    · have hnx : b ∉ xs := (List.nodup_cons.1 hnd).1
      have htl : xs.map f = xs.map g := by
        apply List.map_congr_left
        intro a ha
        exact h a (List.mem_cons_of_mem _ ha) (fun hab => hnx (hab ▸ ha))
      simp only [List.map_cons, List.sum_cons, htl]
      ring
    · have hxb : x ≠ b := by
        rintro rfl
        exact (List.nodup_cons.1 hnd).1 hbx
      have hx : f x = g x := h x (List.mem_cons_self x xs) hxb
      have := ih (List.nodup_cons.1 hnd).2 hbx
        (fun a ha hab => h a (List.mem_cons_of_mem _ ha) hab)
      simp only [List.map_cons, List.sum_cons, hx, this]
      ring

theorem pendL_nonneg (text : List Int) (sa : Array Int) (m : Nat) (c : Int) :
    0 ≤ pendL text sa m c := by
  rw [pendL]
  apply List.sum_nonneg
  intro x hx
  rw [List.mem_map] at hx
  obtain ⟨p, _, rfl⟩ := hx
  split
  · exact futL_nonneg text c _
  · exact le_refl 0

theorem pendL_succ (text : List Int) (sa : Array Int) (m : Nat) (c : Int)
    (hm : m < sa.size) :
    pendL text sa m c =
      (if 0 < aget sa (m : Int) then futL text c (aget sa (m : Int)).toNat else 0) +
      pendL text sa (m + 1) c := by
  rw [pendL, pendL]
  have h1 : sa.size - m = (sa.size - (m + 1)) + 1 := by omega
  rw [h1, List.range'_succ]
  rw [List.map_cons, List.sum_cons]

theorem pendL_congr (text : List Int) (sa sa' : Array Int) (m : Nat) (c : Int)
    (hsz : sa.size = sa'.size)
    (h : ∀ p : Nat, m ≤ p → p < sa.size → aget sa (p : Int) = aget sa' (p : Int)) :
    pendL text sa m c = pendL text sa' m c := by
  rw [pendL, pendL, hsz]
  apply congrArg
  apply List.map_congr_left
  intro p hp
  rw [List.mem_range'_1] at hp
  rw [h p hp.1 (by omega)]

theorem pendL_set (text : List Int) (sa : Array Int) (m : Nat) (c : Int)
    (bn : Nat) (v : Int) (hb0 : m ≤ bn) (hb1 : bn < sa.size) :
    pendL text (aset sa (bn : Int) v) m c =
      pendL text sa m c
      - (if 0 < aget sa (bn : Int) then futL text c (aget sa (bn : Int)).toNat else 0)
      + (if 0 < v then futL text c v.toNat else 0) := by
  rw [pendL, pendL, aset_size]
  have hmem : bn ∈ List.range' m (sa.size - m) := by
    rw [List.mem_range'_1]; omega
  have hnd : (List.range' m (sa.size - m)).Nodup :=
    List.nodup_range' _ _ _ (by norm_num)
  have hcong : ∀ x ∈ List.range' m (sa.size - m), x ≠ bn →
      (if 0 < aget (aset sa (bn : Int) v) (x : Int) then
        futL text c (aget (aset sa (bn : Int) v) (x : Int)).toNat else 0) =
      (if 0 < aget sa (x : Int) then futL text c (aget sa (x : Int)).toNat else 0) := by
    intro x hx hxb
    rw [aget_aset_other sa (bn : Int) v (x : Int) (by omega)]
  rw [sum_map_congr_except _ _ _ bn hnd hmem hcong]
  rw [aget_aset_self sa (bn : Int) v (by positivity) (by exact_mod_cast hb1)]

/-- The scan invariant of `induceSubL` at loop index `i`: scanned positions
are non-negative; every positive queue entry ahead of the scan is an index
`1 ≤ j < n` lying strictly below the right edge of the bucket of `text[j]`
and is either strictly L-preceded or tied with its bucket cursor already past
it; every cursor is at or beyond its bucket's left edge, and together with
the future cascade writes of the pending entries fits within the bucket. -/
def subLInv (text : List Int) (minChar : Int) (i : Nat) (st : IndState) : Prop :=
  st.sa.size = text.length ∧
  (∀ c ∈ text, 0 ≤ c - minChar ∧ c - minChar < (st.bucket.size : Int)) ∧
  (∀ p : Nat, p < i → 0 ≤ aget st.sa (p : Int)) ∧
  (∀ p : Nat, i ≤ p → p < text.length → 0 < aget st.sa (p : Int) →
    aget st.sa (p : Int) < (text.length : Int) ∧
    (p : Int) < cntLe text (tget text (aget st.sa (p : Int))) ∧
    (tget text (aget st.sa (p : Int) - 1) > tget text (aget st.sa (p : Int)) ∨
     (tget text (aget st.sa (p : Int) - 1) = tget text (aget st.sa (p : Int)) ∧
      (p : Int) < aget st.bucket (tget text (aget st.sa (p : Int)) - minChar)))) ∧
  (∀ c ∈ text, cntLt text c ≤ aget st.bucket (c - minChar)) ∧
  (∀ c ∈ text, aget st.bucket (c - minChar) + pendL text st.sa i c ≤ cntLe text c)

theorem subLInv_step (text : List Int) (minChar : Int) (i : Nat) (st : IndState)
    (hi : i < text.length) (hinv : subLInv text minChar i st) :
    subLInv text minChar (i + 1) (induceSubLStep text minChar i st) := by
  obtain ⟨hsz, hslot, hclean, hgood, hlb, hcap⟩ := hinv
  have hin : i < st.sa.size := by omega
  simp only [induceSubLStep]
  by_cases hj0 : aget st.sa (i : Int) = 0
  · simp only [if_pos hj0]
    refine ⟨hsz, hslot, ?_, ?_, hlb, ?_⟩
    · intro p hp
      rcases Nat.lt_succ_iff_lt_or_eq.1 hp with h | rfl
      · exact hclean p h
      · rw [hj0]
    · intro p hp hpn hpos
      exact hgood p (by omega) hpn hpos
    · intro c hc
      have h1 := hcap c hc
      rw [pendL_succ text st.sa i c hin, hj0] at h1
      simp only [lt_irrefl, if_false] at h1
      omega
  · by_cases hjneg : aget st.sa (i : Int) < 0
    · simp only [if_neg hj0, if_pos hjneg, subLInv]
      have hsz' : (aset st.sa (i : Int) (-aget st.sa (i : Int))).size = st.sa.size :=
        aset_size _ _ _
      refine ⟨by rw [hsz']; exact hsz, hslot, ?_, ?_, hlb, ?_⟩
      · intro p hp
        rcases Nat.lt_succ_iff_lt_or_eq.1 hp with h | rfl
        · rw [aget_aset_other _ _ _ _ (by omega : (p : Int) ≠ (i : Int))]
          exact hclean p h
        · rw [aget_aset_self _ _ _ (by positivity) (by exact_mod_cast hin)]
          omega
      · intro p hp hpn hpos
        rw [aget_aset_other _ _ _ _ (by omega : (p : Int) ≠ (i : Int))] at hpos ⊢
        exact hgood p (by omega) hpn hpos
      · intro c hc
        have h1 := hcap c hc
        rw [pendL_succ text st.sa i c hin] at h1
        have h2 : pendL text (aset st.sa (i : Int) (-aget st.sa (i : Int))) (i + 1) c
            = pendL text st.sa (i + 1) c := by
          apply pendL_congr
          · rw [hsz']
          · intro p hp1 hp2
            rw [aget_aset_other _ _ _ _ (by omega : (p : Int) ≠ (i : Int))]
        rw [h2]
        rw [if_neg (by omega)] at h1
        omega
    · -- positive entry: induce its predecessor
      simp only [if_neg hj0, if_neg hjneg, subLInv]
      have hjpos : 0 < aget st.sa (i : Int) := by omega
      obtain ⟨hjn, hub, horigin⟩ := hgood i (le_refl i) hi hjpos
      set j : Int := aget st.sa (i : Int) with hjdef
      set c : Int := tget text j with hcdef
      set r : Int := tget text (j - 1) with hrdef
      have hj1 : 1 ≤ j := hjpos
      have hcm : c ∈ text := by
        rw [hcdef]
        exact tget_mem text j (by omega) hjn
      have hrm : r ∈ text := by
        rw [hrdef]
        exact tget_mem text (j - 1) (by omega) (by omega)
      have hblow := hlb r hrm
      set b : Int := aget st.bucket (r - minChar) with hbdef
      have hrslot := hslot r hrm
      -- the write lands strictly after the scan position
      have hbi : (i : Int) < b := by
        rcases horigin with h | ⟨h1, h2⟩
        · have h1 : cntLe text c ≤ cntLt text r := cntLe_le_cntLt text c r (by omega)
          omega
        · rw [hbdef, h1]
          exact h2
      -- the pending cascade of this entry keeps the cursor below the right edge
      have hjcast : ((j.toNat : Nat) : Int) = j := by omega
      have hfut1 : 1 ≤ futL text r j.toNat := by
        rw [futL_succ text r j.toNat (by omega), hjcast, ← hrdef, if_pos rfl]
        have h1 := futL_nonneg text r (j.toNat - 1)
        split
        · omega
        · omega
      have hpend1 : futL text r j.toNat ≤ pendL text st.sa i r := by
        rw [pendL_succ text st.sa i r hin, if_pos hjpos, ← hjdef]
        have := pendL_nonneg text st.sa (i + 1) r
        omega
      have hblt : b < cntLe text r := by
        have := hcap r hrm
        omega
      have hble : cntLe text r ≤ (text.length : Int) := cntLe_le_length text r
      have hbn : b < (st.sa.size : Int) := by omega
      have hb0 : 0 ≤ b := by
        have := cntLt_nonneg text r
        omega
      refine ⟨?_, ?_, ?_, ?_, ?_, ?_⟩
      · rw [aset_size, aset_size]; exact hsz
      · intro ch hch
        rw [aset_size]
        exact hslot ch hch
      · -- scanned region stays non-negative: the write lands at b > i
        intro p hp
        rw [aget_aset_other _ _ _ _ (by omega : (p : Int) ≠ b)]
        rcases Nat.lt_succ_iff_lt_or_eq.1 hp with h | rfl
        · rw [aget_aset_other _ _ _ _ (by omega : (p : Int) ≠ (i : Int))]
          exact hclean p h
        · rw [aget_aset_self _ _ _ (by positivity) (by exact_mod_cast hin)]
      · -- pending entries ahead keep the queue conditions
        intro p hp hpn hpos
        by_cases hpb : (p : Int) = b
        · -- the newly written entry
          rw [hpb, aget_aset_self _ _ _ hb0 (by rw [aset_size]; omega)] at hpos ⊢
          have hkpos : ¬ tget text (j - 1 - 1) < r := by
            by_contra hcon
            rw [if_pos hcon] at hpos
            omega
          rw [if_neg hkpos] at hpos ⊢
          refine ⟨by omega, ?_, ?_⟩
          · rw [← hrdef]
            exact hblt
          · rcases lt_or_eq_of_le (not_lt.1 hkpos) with hlt | heq
            · left
              rw [← hrdef]
              exact hlt
            · right
              rw [← hrdef]
              refine ⟨heq.symm, ?_⟩
              rw [aget_aset_self _ _ _ (by omega) (by exact_mod_cast hrslot.2)]
              omega
        · -- an old pending entry, unchanged; cursors only grow
          rw [aget_aset_other _ _ _ _ hpb,
            aget_aset_other _ _ _ _ (by omega : (p : Int) ≠ (i : Int))] at hpos ⊢
          obtain ⟨g1, g2, g3⟩ := hgood p (by omega) hpn hpos
          refine ⟨g1, g2, ?_⟩
          rcases g3 with h | ⟨h1, h2⟩
          · left; exact h
          · right
            refine ⟨h1, ?_⟩
            by_cases hcc : tget text (aget st.sa (p : Int)) - minChar = r - minChar
            · rw [hcc, aget_aset_self _ _ _ (by omega) (by exact_mod_cast hrslot.2)]
              rw [hcc, ← hbdef] at h2
              omega
            · rw [aget_aset_other _ _ _ _ hcc]
              exact h2
      · -- cursors stay at or beyond the left bucket edges
        intro ch hch
        by_cases hcc : ch - minChar = r - minChar
        · rw [hcc, aget_aset_self _ _ _ (by omega) (by exact_mod_cast hrslot.2)]
          have hceq : ch = r := by omega
          rw [hceq]
          omega
        · rw [aget_aset_other _ _ _ _ hcc]
          exact hlb ch hch
      · -- capacity
        intro ch hch
        have hcapc := hcap ch hch
        rw [pendL_succ text st.sa i ch hin, if_pos hjpos, ← hjdef] at hcapc
        have hszc : (aset st.sa (i : Int) 0).size = st.sa.size := aset_size _ _ _
        have hstep1 : pendL text (aset st.sa (i : Int) 0) (i + 1) ch
            = pendL text st.sa (i + 1) ch := by
          apply pendL_congr
          · rw [hszc]
          · intro p hp1 hp2
            rw [aget_aset_other _ _ _ _ (by omega : (p : Int) ≠ (i : Int))]
        have hbcast : ((b.toNat : Nat) : Int) = b := by omega
        have hset := pendL_set text (aset st.sa (i : Int) 0) (i + 1) ch b.toNat
          (if tget text (j - 1 - 1) < r then -(j - 1) else j - 1)
          (by omega) (by rw [hszc]; omega)
        rw [hbcast] at hset
        rw [hset, hstep1]
        have hold : 0 ≤ (if 0 < aget (aset st.sa (i : Int) 0) b then
            futL text ch (aget (aset st.sa (i : Int) 0) b).toNat else 0) := by
          split
          · exact futL_nonneg text ch _
          · exact le_refl 0
        -- the cursor moves on the slot of r only
        have hcur : aget (aset st.bucket (r - minChar) (b + 1)) (ch - minChar)
            = if ch = r then b + 1 else aget st.bucket (ch - minChar) := by
          by_cases hcc : ch = r
          · rw [if_pos hcc, hcc, aget_aset_self _ _ _ (by omega)
              (by exact_mod_cast hrslot.2)]
          · rw [if_neg hcc,
              aget_aset_other _ _ _ _ (by omega : ch - minChar ≠ r - minChar)]
        rw [hcur]
        -- cascade accounting: the processed entry's future writes cover
        -- the one just performed plus those of the new entry
        have hacc := futL_succ text ch j.toNat (by omega)
        rw [hjcast, ← hrdef] at hacc
        have hnew : (if 0 < (if tget text (j - 1 - 1) < r then -(j - 1) else j - 1) then
            futL text ch (if tget text (j - 1 - 1) < r then -(j - 1) else j - 1).toNat
            else 0) ≤
            (if j.toNat - 1 = 0 ∨ tget text (j - 1 - 1) < r then 0
             else futL text ch (j.toNat - 1)) := by
          by_cases hneg : tget text (j - 1 - 1) < r
          · rw [if_pos hneg, if_pos (Or.inr hneg)]
            rw [if_neg (by omega)]
          · rw [if_neg hneg]
            by_cases hk0 : j - 1 = 0
            · rw [if_neg (by omega), if_pos (Or.inl (by omega))]
            · rw [if_pos (by omega), if_neg (by
                push_neg
                exact ⟨by omega, not_lt.1 hneg⟩)]
              have htn : (j - 1).toNat = j.toNat - 1 := by omega
              rw [htn]
        rw [show (j : Int) - 2 = j - 1 - 1 from by ring] at hacc
        by_cases hchr : ch = r
        · rw [hchr] at hacc hcapc hnew hold ⊢
          rw [if_pos rfl] at hacc ⊢
          rw [← hbdef] at hcapc
          omega
        · rw [if_neg hchr]
          rw [if_neg (fun h => hchr h.symm)] at hacc
          omega


/-- The bucket consumption of the seed write of `induceSubL`: one slot of the
last character's bucket, plus the cascade of the seed when it is queued
positive (`text[n-2] ≥ text[n-1]`). -/
def subLSeed (text : List Int) (c : Int) : Int :=
  (if tget text ((text.length : Int) - 1) = c then 1 else 0) +
  (if tget text ((text.length : Int) - 1 - 1) < tget text ((text.length : Int) - 1) then 0
   else futL text c (text.length - 1))

theorem induceSubL_clean (text : List Int) (sa freq bucket : Array Int)
    (minChar : Int)
    (hn : 2 ≤ text.length) (hsz : sa.size = text.length)
    (hq : ∀ p : Nat, p < text.length → 0 < aget sa (p : Int) →
      aget sa (p : Int) < (text.length : Int) ∧
      (p : Int) < cntLe text (tget text (aget sa (p : Int))) ∧
      tget text (aget sa (p : Int) - 1) > tget text (aget sa (p : Int)))
    (hcur : ∀ c ∈ text, aget (bucketStart freq bucket) (c - minChar) = cntLt text c)
    (hslot : ∀ c ∈ text, 0 ≤ c - minChar ∧
      c - minChar < ((bucketStart freq bucket).size : Int))
    (hcap : ∀ c ∈ text, cntLt text c + subLSeed text c + pendL text sa 0 c ≤
      cntLe text c) :
    ∀ p : Nat, p < text.length →
      0 ≤ aget (induceSubL text sa freq bucket minChar).1 (p : Int) := by
  simp only [induceSubL]
  set n : Nat := text.length with hndef
  set B0 : Array Int := bucketStart freq bucket with hB0
  set lc : Int := tget text ((n : Int) - 1) with hlc
  set l0 : Int := tget text ((n : Int) - 1 - 1) with hl0
  set b0 : Int := aget B0 (lc - minChar) with hb0def
  set k0 : Int := if l0 < lc then -((n : Int) - 1) else (n : Int) - 1 with hk0
  have hlcm : lc ∈ text := by
    rw [hlc]
    exact tget_mem text _ (by omega) (by omega)
  have hlcslot := hslot lc hlcm
  have hb0v : b0 = cntLt text lc := by
    rw [hb0def, hB0]
    exact hcur lc hlcm
  have hseed1 : (1 : Int) ≤ subLSeed text lc := by
    rw [subLSeed, ← hlc, if_pos rfl]
    split
    · omega
    · have := futL_nonneg text lc (text.length - 1)
      omega
  have hb0lt : b0 < cntLe text lc := by
    have h1 := hcap lc hlcm
    have h2 := pendL_nonneg text sa 0 lc
    omega
  have hb00 : 0 ≤ b0 := by
    have := cntLt_nonneg text lc
    omega
  have hb0n : b0 < (n : Int) := by
    have := cntLe_le_length text lc
    omega
  have hszseed : (aset sa b0 k0).size = n := by rw [aset_size]; omega
  have hinv0 : subLInv text minChar 0
      ⟨aset sa b0 k0, aset B0 (lc - minChar) (b0 + 1)⟩ := by
    refine ⟨by rw [hszseed], ?_, ?_, ?_, ?_, ?_⟩
    · intro c hc
      rw [aset_size]
      exact hslot c hc
    · intro p hp
      omega
    · intro p _ hpn hpos
      by_cases hpb : (p : Int) = b0
      · rw [hpb, aget_aset_self _ _ _ hb00 (by omega)] at hpos ⊢
        have hkp : ¬ l0 < lc := by
          by_contra hcon
          rw [hk0, if_pos hcon] at hpos
          omega
        rw [hk0, if_neg hkp] at hpos ⊢
        refine ⟨by omega, ?_, ?_⟩
        · exact hb0lt
        · rcases lt_or_eq_of_le (not_lt.1 hkp) with hlt | heq
          · left; exact hlt
          · right
            refine ⟨heq.symm, ?_⟩
            rw [aget_aset_self _ _ _ (by omega) (by exact_mod_cast hlcslot.2)]
            omega
      · rw [aget_aset_other _ _ _ _ hpb] at hpos ⊢
        obtain ⟨q1, q2, q3⟩ := hq p hpn hpos
        exact ⟨q1, q2, Or.inl q3⟩
    · intro c hc
      by_cases hcc : c - minChar = lc - minChar
      · rw [hcc, aget_aset_self _ _ _ (by omega) (by exact_mod_cast hlcslot.2)]
        have : c = lc := by omega
        rw [this, hb0v]
        omega
      · rw [aget_aset_other _ _ _ _ hcc, hcur c hc]
    · intro c hc
      have hcapc := hcap c hc
      have hbcast : ((b0.toNat : Nat) : Int) = b0 := by omega
      have hset := pendL_set text sa 0 c b0.toNat k0 (by omega) (by omega)
      rw [hbcast] at hset
      rw [hset]
      have hold : 0 ≤ (if 0 < aget sa b0 then futL text c (aget sa b0).toNat else 0) := by
        split
        · exact futL_nonneg text c _
        · exact le_refl 0
      have hcur' : aget (aset B0 (lc - minChar) (b0 + 1)) (c - minChar)
          = if c = lc then b0 + 1 else cntLt text c := by
        by_cases hcc : c = lc
        · rw [if_pos hcc, hcc,
            aget_aset_self _ _ _ (by omega) (by exact_mod_cast hlcslot.2)]
        · rw [if_neg hcc,
            aget_aset_other _ _ _ _ (by omega : c - minChar ≠ lc - minChar),
            hcur c hc]
      rw [hcur']
      have hseedc : subLSeed text c =
          (if lc = c then 1 else 0) +
          (if l0 < lc then 0 else futL text c (n - 1)) := by
        rw [subLSeed, ← hlc, ← hl0, hndef]
      have hnewle : (if 0 < k0 then futL text c k0.toNat else 0) ≤
          (if l0 < lc then 0 else futL text c (n - 1)) := by
        rw [hk0]
        by_cases hneg : l0 < lc
        · rw [if_pos hneg, if_pos hneg, if_neg (by omega)]
        · rw [if_neg hneg, if_neg hneg, if_pos (by omega)]
          have : ((n : Int) - 1).toNat = n - 1 := by omega
          rw [this]
      rw [hseedc] at hcapc
      by_cases hcc : c = lc
      · rw [if_pos hcc]
        rw [hcc] at hcapc hold hnewle ⊢
        rw [if_pos rfl] at hcapc
        omega
      · rw [if_neg hcc]
        rw [if_neg (fun h => hcc h.symm)] at hcapc
        omega
  have hfin := upLoop_ind (subLInv text minChar) n (induceSubLStep text minChar)
    ⟨aset sa b0 k0, aset B0 (lc - minChar) (b0 + 1)⟩ hinv0
    (fun i s hi hs => subLInv_step text minChar i s (by omega) hs)
  rw [hszseed]
  intro p hp
  exact hfin.2.2.1 p hp

theorem pendS_nonneg (text : List Int) (sa : Array Int) (m : Nat) (c : Int) :
    0 ≤ pendS text sa m c := by
  rw [pendS]
  apply List.sum_nonneg
  intro x hx
  rw [List.mem_map] at hx
  obtain ⟨p, _, rfl⟩ := hx
  split
  · exact futS_nonneg text c _
  · exact le_refl 0

theorem pendS_succ (text : List Int) (sa : Array Int) (m : Nat) (c : Int) :
    pendS text sa (m + 1) c =
      pendS text sa m c +
      (if 0 < aget sa (m : Int) then futS text c (aget sa (m : Int)).toNat else 0) := by
  rw [pendS, pendS, List.range_succ, List.map_append, List.sum_append]
  simp

theorem pendS_congr (text : List Int) (sa sa' : Array Int) (m : Nat) (c : Int)
    (h : ∀ p : Nat, p < m → aget sa (p : Int) = aget sa' (p : Int)) :
    pendS text sa m c = pendS text sa' m c := by
  rw [pendS, pendS]
  apply congrArg
  apply List.map_congr_left
  intro p hp
  rw [List.mem_range] at hp
  rw [h p hp]

theorem pendS_set (text : List Int) (sa : Array Int) (m : Nat) (c : Int)
    (bn : Nat) (v : Int) (hb : bn < m) (hbsz : bn < sa.size) :
    pendS text (aset sa (bn : Int) v) m c =
      pendS text sa m c
      - (if 0 < aget sa (bn : Int) then futS text c (aget sa (bn : Int)).toNat else 0)
      + (if 0 < v then futS text c v.toNat else 0) := by
  rw [pendS, pendS]
  have hmem : bn ∈ List.range m := by rw [List.mem_range]; omega
  have hnd : (List.range m).Nodup := List.nodup_range _
  have hcong : ∀ x ∈ List.range m, x ≠ bn →
      (if 0 < aget (aset sa (bn : Int) v) (x : Int) then
        futS text c (aget (aset sa (bn : Int) v) (x : Int)).toNat else 0) =
      (if 0 < aget sa (x : Int) then futS text c (aget sa (x : Int)).toNat else 0) := by
    intro x hx hxb
    rw [aget_aset_other sa (bn : Int) v (x : Int) (by omega)]
  rw [sum_map_congr_except _ _ _ bn hnd hmem hcong]
  rw [aget_aset_self sa (bn : Int) v (by positivity) (by exact_mod_cast hbsz)]

theorem pendF_nonneg (text : List Int) (sa : Array Int) (m : Nat) (c : Int) :
    0 ≤ pendF text sa m c := by
  rw [pendF]
  apply List.sum_nonneg
  intro x hx
  rw [List.mem_map] at hx
  obtain ⟨p, _, rfl⟩ := hx
  split
  · exact futS_nonneg text c _
  · exact le_refl 0

theorem pendF_succ (text : List Int) (sa : Array Int) (m : Nat) (c : Int) :
    pendF text sa (m + 1) c =
      pendF text sa m c +
      (if aget sa (m : Int) < 0 then futS text c (-aget sa (m : Int)).toNat else 0) := by
  rw [pendF, pendF, List.range_succ, List.map_append, List.sum_append]
  simp

theorem pendF_congr (text : List Int) (sa sa' : Array Int) (m : Nat) (c : Int)
    (h : ∀ p : Nat, p < m → aget sa (p : Int) = aget sa' (p : Int)) :
    pendF text sa m c = pendF text sa' m c := by
  rw [pendF, pendF]
  apply congrArg
  apply List.map_congr_left
  intro p hp
  rw [List.mem_range] at hp
  rw [h p hp]

theorem pendF_set (text : List Int) (sa : Array Int) (m : Nat) (c : Int)
    (bn : Nat) (v : Int) (hb : bn < m) (hbsz : bn < sa.size) :
    pendF text (aset sa (bn : Int) v) m c =
      pendF text sa m c
      - (if aget sa (bn : Int) < 0 then futS text c (-aget sa (bn : Int)).toNat else 0)
      + (if v < 0 then futS text c (-v).toNat else 0) := by
  rw [pendF, pendF]
  have hmem : bn ∈ List.range m := by rw [List.mem_range]; omega
  have hnd : (List.range m).Nodup := List.nodup_range _
  have hcong : ∀ x ∈ List.range m, x ≠ bn →
      (if aget (aset sa (bn : Int) v) (x : Int) < 0 then
        futS text c (-aget (aset sa (bn : Int) v) (x : Int)).toNat else 0) =
      (if aget sa (x : Int) < 0 then futS text c (-aget sa (x : Int)).toNat else 0) := by
    intro x hx hxb
    rw [aget_aset_other sa (bn : Int) v (x : Int) (by omega)]
  rw [sum_map_congr_except _ _ _ bn hnd hmem hcong]
  rw [aget_aset_self sa (bn : Int) v (by positivity) (by exact_mod_cast hbsz)]

/-- The scan invariant of `induceSubS` with `m` positions still to scan:
positions already scanned (`≥ m`) are non-negative; positive queue entries in
the unscanned region sit at or beyond the left edge of their bucket and are
strictly S-preceded or tied with the cursor already below them; cursors are
at or below their bucket's right edge, with enough room above for the future
cascade writes; the `top` pointer stays in the scanned region. -/
def subSInv (text : List Int) (minChar : Int) (m : Nat) (st : SubSState) : Prop :=
  st.sa.size = text.length ∧
  (∀ c ∈ text, 0 ≤ c - minChar ∧ c - minChar < (st.bucket.size : Int)) ∧
  (∀ p : Nat, m ≤ p → p < text.length → 0 ≤ aget st.sa (p : Int)) ∧
  (∀ p : Nat, p < m → 0 < aget st.sa (p : Int) →
    aget st.sa (p : Int) < (text.length : Int) ∧
    cntLt text (tget text (aget st.sa (p : Int))) ≤ (p : Int) ∧
    (tget text (aget st.sa (p : Int) - 1) < tget text (aget st.sa (p : Int)) ∨
     (tget text (aget st.sa (p : Int) - 1) = tget text (aget st.sa (p : Int)) ∧
      aget st.bucket (tget text (aget st.sa (p : Int)) - minChar) < (p : Int)))) ∧
  (∀ c ∈ text, aget st.bucket (c - minChar) ≤ cntLe text c - 1) ∧
  (∀ c ∈ text, cntLt text c + pendS text st.sa m c ≤ aget st.bucket (c - minChar) + 1) ∧
  (m : Int) ≤ st.top

theorem subSInv_step (text : List Int) (minChar : Int) (i : Nat) (st : SubSState)
    (hi : i < text.length) (hinv : subSInv text minChar (i + 1) st) :
    subSInv text minChar i (induceSubSStep text minChar i st) := by
  obtain ⟨hsz, hslot, hclean, hgood, hub, hcap, htop⟩ := hinv
  have hin : i < st.sa.size := by omega
  simp only [induceSubSStep]
  by_cases hj0 : aget st.sa (i : Int) = 0
  · simp only [if_pos hj0]
    refine ⟨hsz, hslot, ?_, ?_, hub, ?_, by omega⟩
    · intro p hp hpn
      rcases Nat.lt_or_ge p (i + 1) with h | h
      · have : p = i := by omega
        rw [this, hj0]
      · exact hclean p h hpn
    · intro p hp hpos
      exact hgood p (by omega) hpos
    · intro c hc
      have h1 := hcap c hc
      rw [pendS_succ, hj0] at h1
      simp only [lt_irrefl, if_false] at h1
      omega
  · by_cases hjneg : aget st.sa (i : Int) < 0
    · simp only [if_neg hj0, if_pos hjneg, subSInv]
      set j : Int := aget st.sa (i : Int) with hjdef
      have hsz2 : (aset st.sa (i : Int) 0).size = st.sa.size := aset_size _ _ _
      have hsz3 : (aset (aset st.sa (i : Int) 0) (st.top - 1) (-j)).size
          = st.sa.size := by rw [aset_size, hsz2]
      refine ⟨by rw [hsz3]; exact hsz, hslot, ?_, ?_, hub, ?_, by omega⟩
      · intro p hp hpn
        by_cases hptop : (p : Int) = st.top - 1
        · rw [hptop, aget_aset_self _ _ _ (by omega) (by omega)]
          omega
        · rw [aget_aset_other _ _ _ _ hptop]
          rcases Nat.lt_or_ge p (i + 1) with h | h
          · have : p = i := by omega
            rw [this, aget_aset_self _ _ _ (by positivity) (by exact_mod_cast hin)]
          · rw [aget_aset_other _ _ _ _ (by omega : (p : Int) ≠ (i : Int))]
            exact hclean p h hpn
      · intro p hp hpos
        rw [aget_aset_other _ _ _ _ (by omega : (p : Int) ≠ st.top - 1),
          aget_aset_other _ _ _ _ (by omega : (p : Int) ≠ (i : Int))] at hpos ⊢
        exact hgood p (by omega) hpos
      · intro c hc
        have h1 := hcap c hc
        rw [pendS_succ] at h1
        rw [if_neg (by omega)] at h1
        have h2 : pendS text (aset (aset st.sa (i : Int) 0) (st.top - 1) (-j)) i c
            = pendS text st.sa i c := by
          apply pendS_congr
          intro p hp
          rw [aget_aset_other _ _ _ _ (by omega : (p : Int) ≠ st.top - 1),
            aget_aset_other _ _ _ _ (by omega : (p : Int) ≠ (i : Int))]
        rw [h2]
        omega
    · -- positive queue entry: induce its predecessor at the bucket end
      simp only [if_neg hj0, if_neg hjneg, subSInv]
      have hjpos : 0 < aget st.sa (i : Int) := by omega
      obtain ⟨hjn, hlbp, horigin⟩ := hgood i (by omega) hjpos
      set j : Int := aget st.sa (i : Int) with hjdef
      set c : Int := tget text j with hcdef
      set r : Int := tget text (j - 1) with hrdef
      have hj1 : 1 ≤ j := hjpos
      have hcm : c ∈ text := by
        rw [hcdef]
        exact tget_mem text j (by omega) hjn
      have hrm : r ∈ text := by
        rw [hrdef]
        exact tget_mem text (j - 1) (by omega) (by omega)
      have hrub := hub r hrm
      set b : Int := aget st.bucket (r - minChar) with hbdef
      have hrslot := hslot r hrm
      have hjcast : ((j.toNat : Nat) : Int) = j := by omega
      have hfut1 : 1 ≤ futS text r j.toNat := by
        rw [futS_succ text r j.toNat (by omega), hjcast, ← hrdef, if_pos rfl]
        have h1 := futS_nonneg text r (j.toNat - 1)
        split
        · omega
        · omega
      have hpend1 : futS text r j.toNat ≤ pendS text st.sa (i + 1) r := by
        rw [pendS_succ, if_pos hjpos, ← hjdef]
        have := pendS_nonneg text st.sa i r
        omega
      have hblb : cntLt text r ≤ b := by
        have := hcap r hrm
        omega
      have hb0 : 0 ≤ b := by
        have := cntLt_nonneg text r
        omega
      -- the write lands strictly before the scan position
      have hbi : b < (i : Int) := by
        rcases horigin with h | ⟨h1, h2⟩
        · have h3 : cntLe text r ≤ cntLt text c := cntLe_le_cntLt text r c (by omega)
          omega
        · rw [hbdef, h1]
          exact h2
      have hszc : (aset st.sa (i : Int) 0).size = st.sa.size := aset_size _ _ _
      refine ⟨by rw [aset_size, hszc]; exact hsz, ?_, ?_, ?_, ?_, ?_, by omega⟩
      · intro ch hch
        rw [aset_size]
        exact hslot ch hch
      · -- scanned region: position i is cleared, the write lands below i
        intro p hp hpn
        rw [aget_aset_other _ _ _ _ (by omega : (p : Int) ≠ b)]
        rcases Nat.lt_or_ge p (i + 1) with h | h
        · have : p = i := by omega
          rw [this, aget_aset_self _ _ _ (by positivity) (by exact_mod_cast hin)]
        · rw [aget_aset_other _ _ _ _ (by omega : (p : Int) ≠ (i : Int))]
          exact hclean p h hpn
      · -- pending entries keep the queue conditions
        intro p hp hpos
        by_cases hpb : (p : Int) = b
        · rw [hpb, aget_aset_self _ _ _ hb0 (by rw [hszc]; omega)] at hpos ⊢
          have hkpos : ¬ tget text (j - 1 - 1) > r := by
            by_contra hcon
            rw [if_pos hcon] at hpos
            omega
          rw [if_neg hkpos] at hpos ⊢
          refine ⟨by omega, ?_, ?_⟩
          · rw [← hrdef]
            exact hblb
          · rcases lt_or_eq_of_le (not_lt.1 hkpos) with hlt | heq
            · left
              rw [← hrdef]
              exact hlt
            · right
              rw [← hrdef]
              refine ⟨heq, ?_⟩
              rw [aget_aset_self _ _ _ (by omega) (by exact_mod_cast hrslot.2)]
              omega
        · rw [aget_aset_other _ _ _ _ hpb,
            aget_aset_other _ _ _ _ (by omega : (p : Int) ≠ (i : Int))] at hpos ⊢
          obtain ⟨g1, g2, g3⟩ := hgood p (by omega) hpos
          refine ⟨g1, g2, ?_⟩
          rcases g3 with h | ⟨h1, h2⟩
          · left; exact h
          · right
            refine ⟨h1, ?_⟩
            by_cases hcc : tget text (aget st.sa (p : Int)) - minChar = r - minChar
            · rw [hcc, aget_aset_self _ _ _ (by omega) (by exact_mod_cast hrslot.2)]
              rw [hcc, ← hbdef] at h2
              omega
            · rw [aget_aset_other _ _ _ _ hcc]
              exact h2
      · -- cursors stay at or below the right bucket edges
        intro ch hch
        by_cases hcc : ch - minChar = r - minChar
        · rw [hcc, aget_aset_self _ _ _ (by omega) (by exact_mod_cast hrslot.2)]
          have hceq : ch = r := by omega
          rw [hceq]
          omega
        · rw [aget_aset_other _ _ _ _ hcc]
          exact hub ch hch
      · -- capacity
        intro ch hch
        have hcapc := hcap ch hch
        rw [pendS_succ, if_pos hjpos, ← hjdef] at hcapc
        have hstep1 : ∀ cx : Int, pendS text (aset st.sa (i : Int) 0) i cx
            = pendS text st.sa i cx := by
          intro cx
          apply pendS_congr
          intro p hp
          rw [aget_aset_other _ _ _ _ (by omega : (p : Int) ≠ (i : Int))]
        have hbcast : ((b.toNat : Nat) : Int) = b := by omega
        have hset := pendS_set text (aset st.sa (i : Int) 0) i ch b.toNat
          (if tget text (j - 1 - 1) > r then -(j - 1) else j - 1)
          (by omega) (by rw [hszc]; omega)
        rw [hbcast] at hset
        rw [hset, hstep1]
        have holdv : aget (aset st.sa (i : Int) 0) b = aget st.sa b := by
          rw [aget_aset_other _ _ _ _ (by omega : b ≠ (i : Int))]
        rw [holdv]
        have hold : 0 ≤ (if 0 < aget st.sa b then
            futS text ch (aget st.sa b).toNat else 0) := by
          split
          · exact futS_nonneg text ch _
          · exact le_refl 0
        have hcur : aget (aset st.bucket (r - minChar) (b - 1)) (ch - minChar)
            = if ch = r then b - 1 else aget st.bucket (ch - minChar) := by
          by_cases hcc : ch = r
          · rw [if_pos hcc, hcc, aget_aset_self _ _ _ (by omega)
              (by exact_mod_cast hrslot.2)]
          · rw [if_neg hcc,
              aget_aset_other _ _ _ _ (by omega : ch - minChar ≠ r - minChar)]
        rw [hcur]
        have hacc := futS_succ text ch j.toNat (by omega)
        rw [hjcast, ← hrdef] at hacc
        rw [show (j : Int) - 2 = j - 1 - 1 from by ring] at hacc
        have hnew : (if 0 < (if tget text (j - 1 - 1) > r then -(j - 1) else j - 1) then
            futS text ch (if tget text (j - 1 - 1) > r then -(j - 1) else j - 1).toNat
            else 0) ≤
            (if j.toNat - 1 = 0 ∨ tget text (j - 1 - 1) > r then 0
             else futS text ch (j.toNat - 1)) := by
          by_cases hneg : tget text (j - 1 - 1) > r
          · rw [if_pos hneg, if_pos (Or.inr hneg)]
            rw [if_neg (by omega)]
          · rw [if_neg hneg]
            by_cases hk0 : j - 1 = 0
            · rw [if_neg (by omega), if_pos (Or.inl (by omega))]
            · rw [if_pos (by omega), if_neg (by
                push_neg
                exact ⟨by omega, not_lt.1 hneg⟩)]
              have htn : (j - 1).toNat = j.toNat - 1 := by omega
              rw [htn]
        by_cases hchr : ch = r
        · rw [hchr] at hacc hcapc hnew hold ⊢
          rw [if_pos rfl] at hacc ⊢
          rw [← hbdef] at hcapc
          omega
        · rw [if_neg hchr]
          rw [if_neg (fun h => hchr h.symm)] at hacc
          omega

theorem induceSubS_clean (text : List Int) (sa freq bucket : Array Int)
    (minChar : Int) (hsz : sa.size = text.length)
    (hq : ∀ p : Nat, p < text.length → 0 < aget sa (p : Int) →
      aget sa (p : Int) < (text.length : Int) ∧
      cntLt text (tget text (aget sa (p : Int))) ≤ (p : Int) ∧
      tget text (aget sa (p : Int) - 1) < tget text (aget sa (p : Int)))
    (hcur : ∀ c ∈ text, aget (bucketEnd freq bucket) (c - minChar) = cntLe text c - 1)
    (hslot : ∀ c ∈ text, 0 ≤ c - minChar ∧
      c - minChar < ((bucketEnd freq bucket).size : Int))
    (hcap : ∀ c ∈ text, cntLt text c + pendS text sa sa.size c ≤ cntLe text c) :
    ∀ p : Nat, p < text.length →
      0 ≤ aget (induceSubS text sa freq bucket minChar).1 (p : Int) := by
  simp only [induceSubS]
  have hinv0 : subSInv text minChar sa.size
      ⟨sa, bucketEnd freq bucket, (sa.size : Int)⟩ := by
    simp only [subSInv]
    refine ⟨hsz, hslot, ?_, ?_, ?_, ?_, le_refl _⟩
    · intro p hp hpn
      omega
    · intro p hp hpos
      obtain ⟨q1, q2, q3⟩ := hq p (by omega) hpos
      exact ⟨q1, q2, Or.inl q3⟩
    · intro c hc
      rw [hcur c hc]
    · intro c hc
      rw [hcur c hc]
      have := hcap c hc
      omega
  have hfin := downLoop_ind (subSInv text minChar) sa.size
    (induceSubSStep text minChar) ⟨sa, bucketEnd freq bucket, (sa.size : Int)⟩
    hinv0 (fun i s hi hs => subSInv_step text minChar i s (by omega) hs)
  intro p hp
  exact hfin.2.2.1 p (by omega) hp

/-- The scan invariant of the final `induceS` with `m` positions still to
scan: the scanned region is non-negative (flags are restored in place);
pending flags are indexes `< n` at or beyond their bucket's left edge,
strictly S-preceded or tied with the cursor already below them; cursors are
at or below the right bucket edges with room for the future cascade flags. -/
def indSInv (text : List Int) (minChar : Int) (m : Nat) (st : IndState) : Prop :=
  st.sa.size = text.length ∧
  (∀ c ∈ text, 0 ≤ c - minChar ∧ c - minChar < (st.bucket.size : Int)) ∧
  (∀ p : Nat, m ≤ p → p < text.length → 0 ≤ aget st.sa (p : Int)) ∧
  (∀ p : Nat, p < m → aget st.sa (p : Int) < 0 →
    -aget st.sa (p : Int) < (text.length : Int) ∧
    cntLt text (tget text (-aget st.sa (p : Int))) ≤ (p : Int) ∧
    (tget text (-aget st.sa (p : Int) - 1) < tget text (-aget st.sa (p : Int)) ∨
     (tget text (-aget st.sa (p : Int) - 1) = tget text (-aget st.sa (p : Int)) ∧
      aget st.bucket (tget text (-aget st.sa (p : Int)) - minChar) < (p : Int)))) ∧
  (∀ c ∈ text, aget st.bucket (c - minChar) ≤ cntLe text c - 1) ∧
  (∀ c ∈ text, cntLt text c + pendF text st.sa m c ≤ aget st.bucket (c - minChar) + 1)

theorem indSInv_step (text : List Int) (minChar : Int) (i : Nat) (st : IndState)
    (hi : i < text.length) (hinv : indSInv text minChar (i + 1) st) :
    indSInv text minChar i (induceSStep text minChar i st) := by
  obtain ⟨hsz, hslot, hclean, hgood, hub, hcap⟩ := hinv
  have hin : i < st.sa.size := by omega
  simp only [induceSStep]
  by_cases hj0 : aget st.sa (i : Int) ≥ 0
  · simp only [if_pos hj0]
    refine ⟨hsz, hslot, ?_, ?_, hub, ?_⟩
    · intro p hp hpn
      rcases Nat.lt_or_ge p (i + 1) with h | h
      · have : p = i := by omega
        rw [this]
        omega
      · exact hclean p h hpn
    · intro p hp hpos
      exact hgood p (by omega) hpos
    · intro c hc
      have h1 := hcap c hc
      rw [pendF_succ] at h1
      rw [if_neg (by omega)] at h1
      omega
  · simp only [if_neg hj0, indSInv]
    have hjneg : aget st.sa (i : Int) < 0 := by omega
    obtain ⟨hjn, hlbp, horigin⟩ := hgood i (by omega) hjneg
    set j : Int := -aget st.sa (i : Int) with hjdef
    set c : Int := tget text j with hcdef
    set r : Int := tget text (j - 1) with hrdef
    have hj1 : 1 ≤ j := by omega
    have hcm : c ∈ text := by
      rw [hcdef]
      exact tget_mem text j (by omega) hjn
    have hrm : r ∈ text := by
      rw [hrdef]
      exact tget_mem text (j - 1) (by omega) (by omega)
    have hrub := hub r hrm
    set b : Int := aget st.bucket (r - minChar) with hbdef
    have hrslot := hslot r hrm
    have hjcast : ((j.toNat : Nat) : Int) = j := by omega
    have hfut1 : 1 ≤ futS text r j.toNat := by
      rw [futS_succ text r j.toNat (by omega), hjcast, ← hrdef, if_pos rfl]
      have h1 := futS_nonneg text r (j.toNat - 1)
      split
      · omega
      · omega
    have hpend1 : futS text r j.toNat ≤ pendF text st.sa (i + 1) r := by
      rw [pendF_succ, if_pos hjneg, ← hjdef]
      have := pendF_nonneg text st.sa i r
      omega
    have hblb : cntLt text r ≤ b := by
      have := hcap r hrm
      omega
    have hb0 : 0 ≤ b := by
      have := cntLt_nonneg text r
      omega
    have hbi : b < (i : Int) := by
      rcases horigin with h | ⟨h1, h2⟩
      · have h3 : cntLe text r ≤ cntLt text c := cntLe_le_cntLt text r c (by omega)
        omega
      · rw [hbdef, h1]
        exact h2
    have hszc : (aset st.sa (i : Int) j).size = st.sa.size := aset_size _ _ _
    refine ⟨by rw [aset_size, hszc]; exact hsz, ?_, ?_, ?_, ?_, ?_⟩
    · intro ch hch
      rw [aset_size]
      exact hslot ch hch
    · -- scanned region: position i is restored positive, write lands below i
      intro p hp hpn
      rw [aget_aset_other _ _ _ _ (by omega : (p : Int) ≠ b)]
      rcases Nat.lt_or_ge p (i + 1) with h | h
      · have : p = i := by omega
        rw [this, aget_aset_self _ _ _ (by positivity) (by exact_mod_cast hin)]
        omega
      · rw [aget_aset_other _ _ _ _ (by omega : (p : Int) ≠ (i : Int))]
        exact hclean p h hpn
    · -- pending flags keep the queue conditions
      intro p hp hpos
      by_cases hpb : (p : Int) = b
      · rw [hpb, aget_aset_self _ _ _ hb0 (by rw [hszc]; omega)] at hpos ⊢
        have hkneg : j - 1 > 0 ∧ tget text (j - 1 - 1) ≤ r := by
          by_contra hcon
          rw [if_neg hcon] at hpos
          omega
        rw [if_pos hkneg] at hpos ⊢
        simp only [neg_neg]
        refine ⟨by omega, ?_, ?_⟩
        · rw [← hrdef]
          exact hblb
        · rcases lt_or_eq_of_le hkneg.2 with hlt | heq
          · left
            rw [← hrdef]
            exact hlt
          · right
            rw [← hrdef]
            refine ⟨heq, ?_⟩
            rw [aget_aset_self _ _ _ (by omega) (by exact_mod_cast hrslot.2)]
            omega
      · rw [aget_aset_other _ _ _ _ hpb,
          aget_aset_other _ _ _ _ (by omega : (p : Int) ≠ (i : Int))] at hpos ⊢
        obtain ⟨g1, g2, g3⟩ := hgood p (by omega) hpos
        refine ⟨g1, g2, ?_⟩
        rcases g3 with h | ⟨h1, h2⟩
        · left; exact h
        · right
          refine ⟨h1, ?_⟩
          by_cases hcc : tget text (-aget st.sa (p : Int)) - minChar = r - minChar
          · rw [hcc, aget_aset_self _ _ _ (by omega) (by exact_mod_cast hrslot.2)]
            rw [hcc, ← hbdef] at h2
            omega
          · rw [aget_aset_other _ _ _ _ hcc]
            exact h2
    · -- cursors stay at or below the right bucket edges
      intro ch hch
      by_cases hcc : ch - minChar = r - minChar
      · rw [hcc, aget_aset_self _ _ _ (by omega) (by exact_mod_cast hrslot.2)]
        have hceq : ch = r := by omega
        rw [hceq]
        omega
      · rw [aget_aset_other _ _ _ _ hcc]
        exact hub ch hch
    · -- capacity
      intro ch hch
      have hcapc := hcap ch hch
      rw [pendF_succ, if_pos hjneg, ← hjdef] at hcapc
      have hstep1 : ∀ cx : Int, pendF text (aset st.sa (i : Int) j) i cx
          = pendF text st.sa i cx := by
        intro cx
        apply pendF_congr
        intro p hp
        rw [aget_aset_other _ _ _ _ (by omega : (p : Int) ≠ (i : Int))]
      have hbcast : ((b.toNat : Nat) : Int) = b := by omega
      have hset := pendF_set text (aset st.sa (i : Int) j) i ch b.toNat
        (if j - 1 > 0 ∧ tget text (j - 1 - 1) ≤ r then -(j - 1) else j - 1)
        (by omega) (by rw [hszc]; omega)
      rw [hbcast] at hset
      rw [hset, hstep1]
      have holdv : aget (aset st.sa (i : Int) j) b = aget st.sa b := by
        rw [aget_aset_other _ _ _ _ (by omega : b ≠ (i : Int))]
      rw [holdv]
      have hold : 0 ≤ (if aget st.sa b < 0 then
          futS text ch (-aget st.sa b).toNat else 0) := by
        split
        · exact futS_nonneg text ch _
        · exact le_refl 0
      have hcur : aget (aset st.bucket (r - minChar) (b - 1)) (ch - minChar)
          = if ch = r then b - 1 else aget st.bucket (ch - minChar) := by
        by_cases hcc : ch = r
        · rw [if_pos hcc, hcc, aget_aset_self _ _ _ (by omega)
            (by exact_mod_cast hrslot.2)]
        · rw [if_neg hcc,
            aget_aset_other _ _ _ _ (by omega : ch - minChar ≠ r - minChar)]
      rw [hcur]
      have hacc := futS_succ text ch j.toNat (by omega)
      rw [hjcast, ← hrdef] at hacc
      rw [show (j : Int) - 2 = j - 1 - 1 from by ring] at hacc
      have hnew : (if (if j - 1 > 0 ∧ tget text (j - 1 - 1) ≤ r then
          -(j - 1) else j - 1) < 0 then
          futS text ch (-(if j - 1 > 0 ∧ tget text (j - 1 - 1) ≤ r then
            -(j - 1) else j - 1)).toNat else 0) ≤
          (if j.toNat - 1 = 0 ∨ tget text (j - 1 - 1) > r then 0
           else futS text ch (j.toNat - 1)) := by
        by_cases hflag : j - 1 > 0 ∧ tget text (j - 1 - 1) ≤ r
        · rw [if_pos hflag, if_pos (by omega), if_neg (by
            push_neg
            exact ⟨by omega, hflag.2⟩)]
          simp only [neg_neg]
          have htn : (j - 1).toNat = j.toNat - 1 := by omega
          rw [htn]
        · rw [if_neg hflag, if_neg (by omega)]
          split
          · exact le_refl 0
          · exact futS_nonneg text ch _
      by_cases hchr : ch = r
      · rw [hchr] at hacc hcapc hnew hold ⊢
        rw [if_pos rfl] at hacc ⊢
        rw [← hbdef] at hcapc
        omega
      · rw [if_neg hchr]
        rw [if_neg (fun h => hchr h.symm)] at hacc
        omega

theorem induceS_clean (text : List Int) (sa freq bucket : Array Int)
    (minChar : Int) (hsz : sa.size = text.length)
    (hq : ∀ p : Nat, p < text.length → aget sa (p : Int) < 0 →
      -aget sa (p : Int) < (text.length : Int) ∧
      cntLt text (tget text (-aget sa (p : Int))) ≤ (p : Int) ∧
      tget text (-aget sa (p : Int) - 1) < tget text (-aget sa (p : Int)))
    (hcur : ∀ c ∈ text, aget (bucketEnd freq bucket) (c - minChar) = cntLe text c - 1)
    (hslot : ∀ c ∈ text, 0 ≤ c - minChar ∧
      c - minChar < ((bucketEnd freq bucket).size : Int))
    (hcap : ∀ c ∈ text, cntLt text c + pendF text sa sa.size c ≤ cntLe text c) :
    ∀ p : Nat, p < text.length →
      0 ≤ aget (induceS text sa freq bucket minChar).1 (p : Int) := by
  simp only [induceS]
  have hinv0 : indSInv text minChar sa.size ⟨sa, bucketEnd freq bucket⟩ := by
    simp only [indSInv]
    refine ⟨hsz, hslot, ?_, ?_, ?_, ?_⟩
    · intro p hp hpn
      omega
    · intro p hp hpos
      obtain ⟨q1, q2, q3⟩ := hq p (by omega) hpos
      exact ⟨q1, q2, Or.inl q3⟩
    · intro c hc
      rw [hcur c hc]
    · intro c hc
      rw [hcur c hc]
      have := hcap c hc
      omega
  have hfin := downLoop_ind (indSInv text minChar) sa.size
    (induceSStep text minChar) ⟨sa, bucketEnd freq bucket⟩
    hinv0 (fun i s hi hs => indSInv_step text minChar i s (by omega) hs)
  intro p hp
  exact hfin.2.2.1 p (by omega) hp

theorem bupd_self (m : Int → Buck) (c : Int) (b : Buck) : bupd m c b c = b := by
  rw [bupd]
  simp

theorem bupd_other (m : Int → Buck) (c : Int) (b : Buck) (x : Int) (h : x ≠ c) :
    bupd m c b x = m x := by
  rw [bupd]
  exact if_neg h

theorem cntEq_cons (x : Int) (xs : List Int) (c : Int) :
    cntEq (x :: xs) c = (if x = c then 1 else 0) + cntEq xs c := by
  rw [cntEq, cntEq, List.filter_cons]
  by_cases h : x = c
  · simp [h]
    omega
  · simp [h]

theorem cntEq_nonneg (t : List Int) (c : Int) : 0 ≤ cntEq t c := by
  rw [cntEq]
  exact_mod_cast Nat.zero_le _

/-- Two adjacent positions holding the same code point put at least two
copies of it in the text. -/
theorem two_adjacent_cntEq (t : List Int) (c : Int) :
    ∀ k : Nat, k + 1 < t.length → tget t (k : Int) = c →
    tget t ((k + 1 : Nat) : Int) = c → 2 ≤ cntEq t c := by
  induction t with
  | nil =>
    intro k hk
    simp at hk
  | cons x xs ih =>
    intro k hk h1 h2
    cases k with
    | zero =>
      rw [show ((0 : Nat) : Int) = 0 from rfl, tget_zero] at h1
      rw [show (0 + 1 : Nat) = 0 + 1 from rfl, tget_cons_succ] at h2
      simp only [List.length_cons] at hk
      cases xs with
      | nil => simp at hk
      | cons y ys =>
        rw [show ((0 : Nat) : Int) = 0 from rfl, tget_zero] at h2
        rw [cntEq_cons, cntEq_cons, if_pos h1, if_pos h2]
        have := cntEq_nonneg ys c
        omega
    | succ m =>
      rw [tget_cons_succ] at h1
      rw [show (m + 1 + 1 : Nat) = (m + 1) + 1 from rfl, tget_cons_succ] at h2
      simp only [List.length_cons] at hk
      have := ih m (by omega) h1 h2
      rw [cntEq_cons]
      split
      · omega
      · omega

/-- When the last two code points agree, their common value occurs at least
twice in the text (so its bucket has size at least 2). -/
theorem two_le_cntEq_last (text : List Int) (hn : 2 ≤ text.length)
    (heq : tget text ((text.length : Int) - 1 - 1) = tget text ((text.length : Int) - 1)) :
    2 ≤ cntEq text (tget text ((text.length : Int) - 1)) := by
  have e1 : ((text.length - 2 : Nat) : Int) = (text.length : Int) - 1 - 1 := by omega
  have e2 : ((text.length - 2 + 1 : Nat) : Int) = (text.length : Int) - 1 := by omega
  apply two_adjacent_cntEq text _ (text.length - 2) (by omega)
  · rw [e1, heq]
  · rw [e2]

/-- The scan invariant of `induceSubL_arb`, the map-bucket mirror of
`subLInv`. -/
def subLArbInv (text : List Int) (i : Nat) (st : IndStateArb) : Prop :=
  st.sa.size = text.length ∧
  (∀ p : Nat, p < i → 0 ≤ aget st.sa (p : Int)) ∧
  (∀ p : Nat, i ≤ p → p < text.length → 0 < aget st.sa (p : Int) →
    aget st.sa (p : Int) < (text.length : Int) ∧
    (p : Int) < cntLe text (tget text (aget st.sa (p : Int))) ∧
    (tget text (aget st.sa (p : Int) - 1) > tget text (aget st.sa (p : Int)) ∨
     (tget text (aget st.sa (p : Int) - 1) = tget text (aget st.sa (p : Int)) ∧
      (p : Int) < (st.m (tget text (aget st.sa (p : Int)))).start))) ∧
  (∀ c ∈ text, cntLt text c ≤ (st.m c).start) ∧
  (∀ c ∈ text, (st.m c).start + pendL text st.sa i c ≤ cntLe text c)

theorem subLArbInv_step (text : List Int) (i : Nat) (st : IndStateArb)
    (hi : i < text.length) (hinv : subLArbInv text i st) :
    subLArbInv text (i + 1) (induceSubLArbStep text i st) := by
  obtain ⟨hsz, hclean, hgood, hlb, hcap⟩ := hinv
  have hin : i < st.sa.size := by omega
  simp only [induceSubLArbStep]
  by_cases hj0 : aget st.sa (i : Int) = 0
  · simp only [if_pos hj0]
    refine ⟨hsz, ?_, ?_, hlb, ?_⟩
    · intro p hp
      rcases Nat.lt_succ_iff_lt_or_eq.1 hp with h | rfl
      · exact hclean p h
      · rw [hj0]
    · intro p hp hpn hpos
      exact hgood p (by omega) hpn hpos
    · intro c hc
      have h1 := hcap c hc
      rw [pendL_succ text st.sa i c hin, hj0] at h1
      simp only [lt_irrefl, if_false] at h1
      omega
  · by_cases hjneg : aget st.sa (i : Int) < 0
    · simp only [if_neg hj0, if_pos hjneg, subLArbInv]
      have hsz' : (aset st.sa (i : Int) (-aget st.sa (i : Int))).size = st.sa.size :=
        aset_size _ _ _
      refine ⟨by rw [hsz']; exact hsz, ?_, ?_, hlb, ?_⟩
      · intro p hp
        rcases Nat.lt_succ_iff_lt_or_eq.1 hp with h | rfl
        · rw [aget_aset_other _ _ _ _ (by omega : (p : Int) ≠ (i : Int))]
          exact hclean p h
        · rw [aget_aset_self _ _ _ (by positivity) (by exact_mod_cast hin)]
          omega
      · intro p hp hpn hpos
        rw [aget_aset_other _ _ _ _ (by omega : (p : Int) ≠ (i : Int))] at hpos ⊢
        exact hgood p (by omega) hpn hpos
      · intro c hc
        have h1 := hcap c hc
        rw [pendL_succ text st.sa i c hin] at h1
        have h2 : pendL text (aset st.sa (i : Int) (-aget st.sa (i : Int))) (i + 1) c
            = pendL text st.sa (i + 1) c := by
          apply pendL_congr
          · rw [hsz']
          · intro p hp1 hp2
            rw [aget_aset_other _ _ _ _ (by omega : (p : Int) ≠ (i : Int))]
        rw [h2]
        rw [if_neg (by omega)] at h1
        omega
    · -- positive entry: induce its predecessor
      simp only [if_neg hj0, if_neg hjneg, subLArbInv]
      have hjpos : 0 < aget st.sa (i : Int) := by omega
      obtain ⟨hjn, hub, horigin⟩ := hgood i (le_refl i) hi hjpos
      set j : Int := aget st.sa (i : Int) with hjdef
      set c : Int := tget text j with hcdef
      set r : Int := tget text (j - 1) with hrdef
      have hj1 : 1 ≤ j := hjpos
      have hcm : c ∈ text := by
        rw [hcdef]
        exact tget_mem text j (by omega) hjn
      have hrm : r ∈ text := by
        rw [hrdef]
        exact tget_mem text (j - 1) (by omega) (by omega)
      have hblow := hlb r hrm
      set b : Int := (st.m r).start with hbdef
      have hbi : (i : Int) < b := by
        rcases horigin with h | ⟨h1, h2⟩
        · have h1 : cntLe text c ≤ cntLt text r := cntLe_le_cntLt text c r (by omega)
          omega
        · rw [hbdef, h1]
          exact h2
      have hjcast : ((j.toNat : Nat) : Int) = j := by omega
      have hfut1 : 1 ≤ futL text r j.toNat := by
        rw [futL_succ text r j.toNat (by omega), hjcast, ← hrdef, if_pos rfl]
        have h1 := futL_nonneg text r (j.toNat - 1)
        split
        · omega
        · omega
      have hpend1 : futL text r j.toNat ≤ pendL text st.sa i r := by
        rw [pendL_succ text st.sa i r hin, if_pos hjpos, ← hjdef]
        have := pendL_nonneg text st.sa (i + 1) r
        omega
      have hblt : b < cntLe text r := by
        have := hcap r hrm
        omega
      have hble : cntLe text r ≤ (text.length : Int) := cntLe_le_length text r
      have hbn : b < (st.sa.size : Int) := by omega
      have hb0 : 0 ≤ b := by
        have := cntLt_nonneg text r
        omega
      have hcur : ∀ x : Int, ((bupd st.m r { st.m r with start := b + 1 }) x).start
          = if x = r then b + 1 else (st.m x).start := by
        intro x
        by_cases hxr : x = r
        · rw [if_pos hxr, hxr, bupd_self]
        · rw [if_neg hxr, bupd_other _ _ _ _ hxr]
      refine ⟨?_, ?_, ?_, ?_, ?_⟩
      · rw [aset_size, aset_size]; exact hsz
      · intro p hp
        rw [aget_aset_other _ _ _ _ (by omega : (p : Int) ≠ b)]
        rcases Nat.lt_succ_iff_lt_or_eq.1 hp with h | rfl
        · rw [aget_aset_other _ _ _ _ (by omega : (p : Int) ≠ (i : Int))]
          exact hclean p h
        · rw [aget_aset_self _ _ _ (by positivity) (by exact_mod_cast hin)]
      · intro p hp hpn hpos
        by_cases hpb : (p : Int) = b
        · rw [hpb, aget_aset_self _ _ _ hb0 (by rw [aset_size]; omega)] at hpos ⊢
          have hkpos : ¬ tget text (j - 1 - 1) < r := by
            by_contra hcon
            rw [if_pos hcon] at hpos
            omega
          rw [if_neg hkpos] at hpos ⊢
          refine ⟨by omega, ?_, ?_⟩
          · rw [← hrdef]
            exact hblt
          · rcases lt_or_eq_of_le (not_lt.1 hkpos) with hlt | heq
            · left
              rw [← hrdef]
              exact hlt
            · right
              rw [← hrdef]
              refine ⟨heq.symm, ?_⟩
              rw [hcur r, if_pos rfl]
              omega
        · rw [aget_aset_other _ _ _ _ hpb,
            aget_aset_other _ _ _ _ (by omega : (p : Int) ≠ (i : Int))] at hpos ⊢
          obtain ⟨g1, g2, g3⟩ := hgood p (by omega) hpn hpos
          refine ⟨g1, g2, ?_⟩
          rcases g3 with h | ⟨h1, h2⟩
          · left; exact h
          · right
            refine ⟨h1, ?_⟩
            rw [hcur]
            by_cases hcc : tget text (aget st.sa (p : Int)) = r
            · rw [if_pos hcc]
              rw [hcc, ← hbdef] at h2
              omega
            · rw [if_neg hcc]
              exact h2
      · intro ch hch
        rw [hcur]
        by_cases hcc : ch = r
        · rw [if_pos hcc, hcc]
          omega
        · rw [if_neg hcc]
          exact hlb ch hch
      · -- capacity
        intro ch hch
        have hcapc := hcap ch hch
        rw [pendL_succ text st.sa i ch hin, if_pos hjpos, ← hjdef] at hcapc
        have hszc : (aset st.sa (i : Int) 0).size = st.sa.size := aset_size _ _ _
        have hstep1 : pendL text (aset st.sa (i : Int) 0) (i + 1) ch
            = pendL text st.sa (i + 1) ch := by
          apply pendL_congr
          · rw [hszc]
          · intro p hp1 hp2
            rw [aget_aset_other _ _ _ _ (by omega : (p : Int) ≠ (i : Int))]
        have hbcast : ((b.toNat : Nat) : Int) = b := by omega
        have hset := pendL_set text (aset st.sa (i : Int) 0) (i + 1) ch b.toNat
          (if tget text (j - 1 - 1) < r then -(j - 1) else j - 1)
          (by omega) (by rw [hszc]; omega)
        rw [hbcast] at hset
        rw [hset, hstep1]
        have hold : 0 ≤ (if 0 < aget (aset st.sa (i : Int) 0) b then
            futL text ch (aget (aset st.sa (i : Int) 0) b).toNat else 0) := by
          split
          · exact futL_nonneg text ch _
          · exact le_refl 0
        rw [hcur]
        have hacc := futL_succ text ch j.toNat (by omega)
        rw [hjcast, ← hrdef] at hacc
        rw [show (j : Int) - 2 = j - 1 - 1 from by ring] at hacc
        have hnew : (if 0 < (if tget text (j - 1 - 1) < r then -(j - 1) else j - 1) then
            futL text ch (if tget text (j - 1 - 1) < r then -(j - 1) else j - 1).toNat
            else 0) ≤
            (if j.toNat - 1 = 0 ∨ tget text (j - 1 - 1) < r then 0
             else futL text ch (j.toNat - 1)) := by
          by_cases hneg : tget text (j - 1 - 1) < r
          · rw [if_pos hneg, if_pos (Or.inr hneg)]
            rw [if_neg (by omega)]
          · rw [if_neg hneg]
            by_cases hk0 : j - 1 = 0
            · rw [if_neg (by omega), if_pos (Or.inl (by omega))]
            · rw [if_pos (by omega), if_neg (by
                push_neg
                exact ⟨by omega, not_lt.1 hneg⟩)]
              have htn : (j - 1).toNat = j.toNat - 1 := by omega
              rw [htn]
        by_cases hchr : ch = r
        · rw [hchr] at hacc hcapc hnew hold ⊢
          rw [if_pos rfl] at hacc ⊢
          rw [← hbdef] at hcapc
          omega
        · rw [if_neg hchr]
          rw [if_neg (fun h => hchr h.symm)] at hacc
          omega

theorem induceSubLArb_clean (text : List Int) (sa : Array Int) (m : Int → Buck)
    (hn : 2 ≤ text.length) (hsz : sa.size = text.length)
    (hq : ∀ p : Nat, p < text.length → 0 < aget sa (p : Int) →
      aget sa (p : Int) < (text.length : Int) ∧
      (p : Int) < cntLe text (tget text (aget sa (p : Int))) ∧
      tget text (aget sa (p : Int) - 1) > tget text (aget sa (p : Int)))
    (hcur : ∀ c ∈ text, (m c).start = cntLt text c)
    (hsize : ∀ c ∈ text, (m c).size = cntEq text c)
    (hcap : ∀ c ∈ text, cntLt text c + subLSeed text c + pendL text sa 0 c ≤
      cntLe text c) :
    ∀ p : Nat, p < text.length →
      0 ≤ aget (induceSubLArb text sa m).1 (p : Int) := by
  simp only [induceSubLArb]
  set n : Nat := text.length with hndef
  set lc : Int := tget text ((n : Int) - 1) with hlc
  set l0 : Int := tget text ((n : Int) - 1 - 1) with hl0
  set b0 : Int := (m lc).start with hb0def
  set k0 : Int := if l0 < lc then -((n : Int) - 1) else (n : Int) - 1 with hk0
  have hlcm : lc ∈ text := by
    rw [hlc]
    exact tget_mem text _ (by omega) (by omega)
  have hb0v : b0 = cntLt text lc := by
    rw [hb0def]
    exact hcur lc hlcm
  have hseed1 : (1 : Int) ≤ subLSeed text lc := by
    rw [subLSeed, ← hlc, if_pos rfl]
    split
    · omega
    · have := futL_nonneg text lc (text.length - 1)
      omega
  have hb0lt : b0 < cntLe text lc := by
    have h1 := hcap lc hlcm
    have h2 := pendL_nonneg text sa 0 lc
    omega
  have hb00 : 0 ≤ b0 := by
    have := cntLt_nonneg text lc
    omega
  have hb0n : b0 < (n : Int) := by
    have := cntLe_le_length text lc
    omega
  have hszseed : (aset sa b0 k0).size = n := by rw [aset_size]; omega
  have hcur' : ∀ x ∈ text,
      ((if (m lc).size > 1 then bupd m lc { m lc with start := b0 + 1 } else m) x).start
      = if x = lc ∧ (m lc).size > 1 then b0 + 1 else cntLt text x := by
    intro x hx
    by_cases hadv : (m lc).size > 1
    · rw [if_pos hadv]
      by_cases hxlc : x = lc
      · rw [hxlc, bupd_self, if_pos ⟨rfl, hadv⟩]
      · rw [bupd_other _ _ _ _ hxlc, if_neg (by tauto), hcur x hx]
    · rw [if_neg hadv, if_neg (by tauto), hcur x hx]
  have hinv0 : subLArbInv text 0
      ⟨aset sa b0 k0, if (m lc).size > 1 then
        bupd m lc { m lc with start := b0 + 1 } else m⟩ := by
    simp only [subLArbInv]
    refine ⟨by rw [hszseed], ?_, ?_, ?_, ?_⟩
    · intro p hp
      omega
    · intro p _ hpn hpos
      by_cases hpb : (p : Int) = b0
      · rw [hpb, aget_aset_self _ _ _ hb00 (by omega)] at hpos ⊢
        have hkp : ¬ l0 < lc := by
          by_contra hcon
          rw [hk0, if_pos hcon] at hpos
          omega
        rw [hk0, if_neg hkp] at hpos ⊢
        refine ⟨by omega, ?_, ?_⟩
        · exact hb0lt
        · rcases lt_or_eq_of_le (not_lt.1 hkp) with hlt | heq
          · left; exact hlt
          · right
            refine ⟨heq.symm, ?_⟩
            have hsz2 : (1 : Int) < (m lc).size := by
              rw [hsize lc hlcm]
              have := two_le_cntEq_last text (by omega) (by rw [← hl0, ← hlc, heq])
              rw [← hlc] at this
              omega
            rw [hcur' lc hlcm, if_pos ⟨rfl, hsz2⟩]
            omega
      · rw [aget_aset_other _ _ _ _ hpb] at hpos ⊢
        obtain ⟨q1, q2, q3⟩ := hq p hpn hpos
        exact ⟨q1, q2, Or.inl q3⟩
    · intro c hc
      rw [hcur' c hc]
      split
      · rename_i hsp
        rw [hsp.1]
        omega
      · omega
    · intro c hc
      have hcapc := hcap c hc
      have hbcast : ((b0.toNat : Nat) : Int) = b0 := by omega
      have hset := pendL_set text sa 0 c b0.toNat k0 (by omega) (by omega)
      rw [hbcast] at hset
      rw [hset]
      have hold : 0 ≤ (if 0 < aget sa b0 then futL text c (aget sa b0).toNat else 0) := by
        split
        · exact futL_nonneg text c _
        · exact le_refl 0
      rw [hcur' c hc]
      have hseedc : subLSeed text c =
          (if lc = c then 1 else 0) +
          (if l0 < lc then 0 else futL text c (n - 1)) := by
        rw [subLSeed, ← hlc, ← hl0, hndef]
      have hnewle : (if 0 < k0 then futL text c k0.toNat else 0) ≤
          (if l0 < lc then 0 else futL text c (n - 1)) := by
        rw [hk0]
        by_cases hneg : l0 < lc
        · rw [if_pos hneg, if_pos hneg, if_neg (by omega)]
        · rw [if_neg hneg, if_neg hneg, if_pos (by omega)]
          have : ((n : Int) - 1).toNat = n - 1 := by omega
          rw [this]
      rw [hseedc] at hcapc
      by_cases hcc : c = lc
      · rw [hcc] at hcapc hold hnewle ⊢
        rw [if_pos rfl] at hcapc
        split
        · omega
        · omega
      · rw [if_neg (by tauto)]
        rw [if_neg (fun h => hcc h.symm)] at hcapc
        omega
  have hfin := upLoop_ind (subLArbInv text) n (induceSubLArbStep text)
    ⟨aset sa b0 k0, if (m lc).size > 1 then
      bupd m lc { m lc with start := b0 + 1 } else m⟩ hinv0
    (fun i s hi hs => subLArbInv_step text i s (by omega) hs)
  rw [hszseed]
  intro p hp
  exact hfin.2.1 p hp

/-- The scan invariant of `induceSubS_arb`, the map-bucket mirror of
`subSInv`. -/
def subSArbInv (text : List Int) (m : Nat) (st : SubSStateArb) : Prop :=
  st.sa.size = text.length ∧
  (∀ p : Nat, m ≤ p → p < text.length → 0 ≤ aget st.sa (p : Int)) ∧
  (∀ p : Nat, p < m → 0 < aget st.sa (p : Int) →
    aget st.sa (p : Int) < (text.length : Int) ∧
    cntLt text (tget text (aget st.sa (p : Int))) ≤ (p : Int) ∧
    (tget text (aget st.sa (p : Int) - 1) < tget text (aget st.sa (p : Int)) ∨
     (tget text (aget st.sa (p : Int) - 1) = tget text (aget st.sa (p : Int)) ∧
      (st.m (tget text (aget st.sa (p : Int)))).stop < (p : Int)))) ∧
  (∀ c ∈ text, (st.m c).stop ≤ cntLe text c - 1) ∧
  (∀ c ∈ text, cntLt text c + pendS text st.sa m c ≤ (st.m c).stop + 1) ∧
  (m : Int) ≤ st.top

theorem subSArbInv_step (text : List Int) (i : Nat) (st : SubSStateArb)
    (hi : i < text.length) (hinv : subSArbInv text (i + 1) st) :
    subSArbInv text i (induceSubSArbStep text i st) := by
  obtain ⟨hsz, hclean, hgood, hub, hcap, htop⟩ := hinv
  have hin : i < st.sa.size := by omega
  simp only [induceSubSArbStep]
  by_cases hj0 : aget st.sa (i : Int) = 0
  · simp only [if_pos hj0]
    refine ⟨hsz, ?_, ?_, hub, ?_, by omega⟩
    · intro p hp hpn
      rcases Nat.lt_or_ge p (i + 1) with h | h
      · have : p = i := by omega
        rw [this, hj0]
      · exact hclean p h hpn
    · intro p hp hpos
      exact hgood p (by omega) hpos
    · intro c hc
      have h1 := hcap c hc
      rw [pendS_succ, hj0] at h1
      simp only [lt_irrefl, if_false] at h1
      omega
  · by_cases hjneg : aget st.sa (i : Int) < 0
    · simp only [if_neg hj0, if_pos hjneg, subSArbInv]
      set j : Int := aget st.sa (i : Int) with hjdef
      have hsz2 : (aset st.sa (i : Int) 0).size = st.sa.size := aset_size _ _ _
      have hsz3 : (aset (aset st.sa (i : Int) 0) (st.top - 1) (-j)).size
          = st.sa.size := by rw [aset_size, hsz2]
      refine ⟨by rw [hsz3]; exact hsz, ?_, ?_, hub, ?_, by omega⟩
      · intro p hp hpn
        by_cases hptop : (p : Int) = st.top - 1
        · rw [hptop, aget_aset_self _ _ _ (by omega) (by omega)]
          omega
        · rw [aget_aset_other _ _ _ _ hptop]
          rcases Nat.lt_or_ge p (i + 1) with h | h
          · have : p = i := by omega
            rw [this, aget_aset_self _ _ _ (by positivity) (by exact_mod_cast hin)]
          · rw [aget_aset_other _ _ _ _ (by omega : (p : Int) ≠ (i : Int))]
            exact hclean p h hpn
      · intro p hp hpos
        rw [aget_aset_other _ _ _ _ (by omega : (p : Int) ≠ st.top - 1),
          aget_aset_other _ _ _ _ (by omega : (p : Int) ≠ (i : Int))] at hpos ⊢
        exact hgood p (by omega) hpos
      · intro c hc
        have h1 := hcap c hc
        rw [pendS_succ] at h1
        rw [if_neg (by omega)] at h1
        have h2 : pendS text (aset (aset st.sa (i : Int) 0) (st.top - 1) (-j)) i c
            = pendS text st.sa i c := by
          apply pendS_congr
          intro p hp
          rw [aget_aset_other _ _ _ _ (by omega : (p : Int) ≠ st.top - 1),
            aget_aset_other _ _ _ _ (by omega : (p : Int) ≠ (i : Int))]
        rw [h2]
        omega
    · -- positive queue entry: induce its predecessor at the bucket end
      simp only [if_neg hj0, if_neg hjneg, subSArbInv]
      have hjpos : 0 < aget st.sa (i : Int) := by omega
      obtain ⟨hjn, hlbp, horigin⟩ := hgood i (by omega) hjpos
      set j : Int := aget st.sa (i : Int) with hjdef
      set c : Int := tget text j with hcdef
      set r : Int := tget text (j - 1) with hrdef
      have hj1 : 1 ≤ j := hjpos
      have hcm : c ∈ text := by
        rw [hcdef]
        exact tget_mem text j (by omega) hjn
      have hrm : r ∈ text := by
        rw [hrdef]
        exact tget_mem text (j - 1) (by omega) (by omega)
      have hrub := hub r hrm
      set b : Int := (st.m r).stop with hbdef
      have hjcast : ((j.toNat : Nat) : Int) = j := by omega
      have hfut1 : 1 ≤ futS text r j.toNat := by
        rw [futS_succ text r j.toNat (by omega), hjcast, ← hrdef, if_pos rfl]
        have h1 := futS_nonneg text r (j.toNat - 1)
        split
        · omega
        · omega
      have hpend1 : futS text r j.toNat ≤ pendS text st.sa (i + 1) r := by
        rw [pendS_succ, if_pos hjpos, ← hjdef]
        have := pendS_nonneg text st.sa i r
        omega
      have hblb : cntLt text r ≤ b := by
        have := hcap r hrm
        omega
      have hb0 : 0 ≤ b := by
        have := cntLt_nonneg text r
        omega
      have hbi : b < (i : Int) := by
        rcases horigin with h | ⟨h1, h2⟩
        · have h3 : cntLe text r ≤ cntLt text c := cntLe_le_cntLt text r c (by omega)
          omega
        · rw [hbdef, h1]
          exact h2
      have hszc : (aset st.sa (i : Int) 0).size = st.sa.size := aset_size _ _ _
      have hcur : ∀ x : Int, ((bupd st.m r { st.m r with stop := b - 1 }) x).stop
          = if x = r then b - 1 else (st.m x).stop := by
        intro x
        by_cases hxr : x = r
        · rw [if_pos hxr, hxr, bupd_self]
        · rw [if_neg hxr, bupd_other _ _ _ _ hxr]
      refine ⟨by rw [aset_size, hszc]; exact hsz, ?_, ?_, ?_, ?_, by omega⟩
      · intro p hp hpn
        rw [aget_aset_other _ _ _ _ (by omega : (p : Int) ≠ b)]
        rcases Nat.lt_or_ge p (i + 1) with h | h
        · have : p = i := by omega
          rw [this, aget_aset_self _ _ _ (by positivity) (by exact_mod_cast hin)]
        · rw [aget_aset_other _ _ _ _ (by omega : (p : Int) ≠ (i : Int))]
          exact hclean p h hpn
      · intro p hp hpos
        by_cases hpb : (p : Int) = b
        · rw [hpb, aget_aset_self _ _ _ hb0 (by rw [hszc]; omega)] at hpos ⊢
          have hkpos : ¬ tget text (j - 1 - 1) > r := by
            by_contra hcon
            rw [if_pos hcon] at hpos
            omega
          rw [if_neg hkpos] at hpos ⊢
          refine ⟨by omega, ?_, ?_⟩
          · rw [← hrdef]
            exact hblb
          · rcases lt_or_eq_of_le (not_lt.1 hkpos) with hlt | heq
            · left
              rw [← hrdef]
              exact hlt
            · right
              rw [← hrdef]
              refine ⟨heq, ?_⟩
              rw [hcur r, if_pos rfl]
              omega
        · rw [aget_aset_other _ _ _ _ hpb,
            aget_aset_other _ _ _ _ (by omega : (p : Int) ≠ (i : Int))] at hpos ⊢
          obtain ⟨g1, g2, g3⟩ := hgood p (by omega) hpos
          refine ⟨g1, g2, ?_⟩
          rcases g3 with h | ⟨h1, h2⟩
          · left; exact h
          · right
            refine ⟨h1, ?_⟩
            rw [hcur]
            by_cases hcc : tget text (aget st.sa (p : Int)) = r
            · rw [if_pos hcc]
              rw [hcc, ← hbdef] at h2
              omega
            · rw [if_neg hcc]
              exact h2
      · intro ch hch
        rw [hcur]
        by_cases hcc : ch = r
        · rw [if_pos hcc, hcc]
          omega
        · rw [if_neg hcc]
          exact hub ch hch
      · -- capacity
        intro ch hch
        have hcapc := hcap ch hch
        rw [pendS_succ, if_pos hjpos, ← hjdef] at hcapc
        have hstep1 : ∀ cx : Int, pendS text (aset st.sa (i : Int) 0) i cx
            = pendS text st.sa i cx := by
          intro cx
          apply pendS_congr
          intro p hp
          rw [aget_aset_other _ _ _ _ (by omega : (p : Int) ≠ (i : Int))]
        have hbcast : ((b.toNat : Nat) : Int) = b := by omega
        have hset := pendS_set text (aset st.sa (i : Int) 0) i ch b.toNat
          (if tget text (j - 1 - 1) > r then -(j - 1) else j - 1)
          (by omega) (by rw [hszc]; omega)
        rw [hbcast] at hset
        rw [hset, hstep1]
        have holdv : aget (aset st.sa (i : Int) 0) b = aget st.sa b := by
          rw [aget_aset_other _ _ _ _ (by omega : b ≠ (i : Int))]
        rw [holdv]
        have hold : 0 ≤ (if 0 < aget st.sa b then
            futS text ch (aget st.sa b).toNat else 0) := by
          split
          · exact futS_nonneg text ch _
          · exact le_refl 0
        rw [hcur]
        have hacc := futS_succ text ch j.toNat (by omega)
        rw [hjcast, ← hrdef] at hacc
        rw [show (j : Int) - 2 = j - 1 - 1 from by ring] at hacc
        have hnew : (if 0 < (if tget text (j - 1 - 1) > r then -(j - 1) else j - 1) then
            futS text ch (if tget text (j - 1 - 1) > r then -(j - 1) else j - 1).toNat
            else 0) ≤
            (if j.toNat - 1 = 0 ∨ tget text (j - 1 - 1) > r then 0
             else futS text ch (j.toNat - 1)) := by
          by_cases hneg : tget text (j - 1 - 1) > r
          · rw [if_pos hneg, if_pos (Or.inr hneg)]
            rw [if_neg (by omega)]
          · rw [if_neg hneg]
            by_cases hk0 : j - 1 = 0
            · rw [if_neg (by omega), if_pos (Or.inl (by omega))]
            · rw [if_pos (by omega), if_neg (by
                push_neg
                exact ⟨by omega, not_lt.1 hneg⟩)]
              have htn : (j - 1).toNat = j.toNat - 1 := by omega
              rw [htn]
        by_cases hchr : ch = r
        · rw [hchr] at hacc hcapc hnew hold ⊢
          rw [if_pos rfl] at hacc ⊢
          rw [← hbdef] at hcapc
          omega
        · rw [if_neg hchr]
          rw [if_neg (fun h => hchr h.symm)] at hacc
          omega

theorem induceSubSArb_clean (text : List Int) (sa : Array Int) (m : Int → Buck)
    (hsz : sa.size = text.length)
    (hq : ∀ p : Nat, p < text.length → 0 < aget sa (p : Int) →
      aget sa (p : Int) < (text.length : Int) ∧
      cntLt text (tget text (aget sa (p : Int))) ≤ (p : Int) ∧
      tget text (aget sa (p : Int) - 1) < tget text (aget sa (p : Int)))
    (hcur : ∀ c ∈ text, (m c).stop = cntLe text c - 1)
    (hcap : ∀ c ∈ text, cntLt text c + pendS text sa sa.size c ≤ cntLe text c) :
    ∀ p : Nat, p < text.length →
      0 ≤ aget (induceSubSArb text sa m).1 (p : Int) := by
  simp only [induceSubSArb]
  have hinv0 : subSArbInv text sa.size ⟨sa, m, (sa.size : Int)⟩ := by
    simp only [subSArbInv]
    refine ⟨hsz, ?_, ?_, ?_, ?_, le_refl _⟩
    · intro p hp hpn
      omega
    · intro p hp hpos
      obtain ⟨q1, q2, q3⟩ := hq p (by omega) hpos
      exact ⟨q1, q2, Or.inl q3⟩
    · intro c hc
      rw [hcur c hc]
    · intro c hc
      rw [hcur c hc]
      have := hcap c hc
      omega
  have hfin := downLoop_ind (subSArbInv text) sa.size
    (induceSubSArbStep text) ⟨sa, m, (sa.size : Int)⟩
    hinv0 (fun i s hi hs => subSArbInv_step text i s (by omega) hs)
  intro p hp
  exact hfin.2.1 p (by omega) hp

/-- The scan invariant of the final `induceS_arb`, the map-bucket mirror of
`indSInv`. -/
def indSArbInv (text : List Int) (m : Nat) (st : IndStateArb) : Prop :=
  st.sa.size = text.length ∧
  (∀ p : Nat, m ≤ p → p < text.length → 0 ≤ aget st.sa (p : Int)) ∧
  (∀ p : Nat, p < m → aget st.sa (p : Int) < 0 →
    -aget st.sa (p : Int) < (text.length : Int) ∧
    cntLt text (tget text (-aget st.sa (p : Int))) ≤ (p : Int) ∧
    (tget text (-aget st.sa (p : Int) - 1) < tget text (-aget st.sa (p : Int)) ∨
     (tget text (-aget st.sa (p : Int) - 1) = tget text (-aget st.sa (p : Int)) ∧
      (st.m (tget text (-aget st.sa (p : Int)))).stop < (p : Int)))) ∧
  (∀ c ∈ text, (st.m c).stop ≤ cntLe text c - 1) ∧
  (∀ c ∈ text, cntLt text c + pendF text st.sa m c ≤ (st.m c).stop + 1)

theorem indSArbInv_step (text : List Int) (i : Nat) (st : IndStateArb)
    (hi : i < text.length) (hinv : indSArbInv text (i + 1) st) :
    indSArbInv text i (induceSArbStep text i st) := by
  obtain ⟨hsz, hclean, hgood, hub, hcap⟩ := hinv
  have hin : i < st.sa.size := by omega
  simp only [induceSArbStep]
  by_cases hj0 : aget st.sa (i : Int) ≥ 0
  · simp only [if_pos hj0]
    refine ⟨hsz, ?_, ?_, hub, ?_⟩
    · intro p hp hpn
      rcases Nat.lt_or_ge p (i + 1) with h | h
      · have : p = i := by omega
        rw [this]
        omega
      · exact hclean p h hpn
    · intro p hp hpos
      exact hgood p (by omega) hpos
    · intro c hc
      have h1 := hcap c hc
      rw [pendF_succ] at h1
      rw [if_neg (by omega)] at h1
      omega
  · simp only [if_neg hj0, indSArbInv]
    have hjneg : aget st.sa (i : Int) < 0 := by omega
    obtain ⟨hjn, hlbp, horigin⟩ := hgood i (by omega) hjneg
    set j : Int := -aget st.sa (i : Int) with hjdef
    set c : Int := tget text j with hcdef
    set r : Int := tget text (j - 1) with hrdef
    have hj1 : 1 ≤ j := by omega
    have hcm : c ∈ text := by
      rw [hcdef]
      exact tget_mem text j (by omega) hjn
    have hrm : r ∈ text := by
      rw [hrdef]
      exact tget_mem text (j - 1) (by omega) (by omega)
    have hrub := hub r hrm
    set b : Int := (st.m r).stop with hbdef
    have hjcast : ((j.toNat : Nat) : Int) = j := by omega
    have hfut1 : 1 ≤ futS text r j.toNat := by
      rw [futS_succ text r j.toNat (by omega), hjcast, ← hrdef, if_pos rfl]
      have h1 := futS_nonneg text r (j.toNat - 1)
      split
      · omega
      · omega
    have hpend1 : futS text r j.toNat ≤ pendF text st.sa (i + 1) r := by
      rw [pendF_succ, if_pos hjneg, ← hjdef]
      have := pendF_nonneg text st.sa i r
      omega
    have hblb : cntLt text r ≤ b := by
      have := hcap r hrm
      omega
    have hb0 : 0 ≤ b := by
      have := cntLt_nonneg text r
      omega
    have hbi : b < (i : Int) := by
      rcases horigin with h | ⟨h1, h2⟩
      · have h3 : cntLe text r ≤ cntLt text c := cntLe_le_cntLt text r c (by omega)
        omega
      · rw [hbdef, h1]
        exact h2
    have hszc : (aset st.sa (i : Int) j).size = st.sa.size := aset_size _ _ _
    have hcur : ∀ x : Int, ((bupd st.m r { st.m r with stop := b - 1 }) x).stop
        = if x = r then b - 1 else (st.m x).stop := by
      intro x
      by_cases hxr : x = r
      · rw [if_pos hxr, hxr, bupd_self]
      · rw [if_neg hxr, bupd_other _ _ _ _ hxr]
    refine ⟨by rw [aset_size, hszc]; exact hsz, ?_, ?_, ?_, ?_⟩
    · intro p hp hpn
      rw [aget_aset_other _ _ _ _ (by omega : (p : Int) ≠ b)]
      rcases Nat.lt_or_ge p (i + 1) with h | h
      · have : p = i := by omega
        rw [this, aget_aset_self _ _ _ (by positivity) (by exact_mod_cast hin)]
        omega
      · rw [aget_aset_other _ _ _ _ (by omega : (p : Int) ≠ (i : Int))]
        exact hclean p h hpn
    · intro p hp hpos
      by_cases hpb : (p : Int) = b
      · rw [hpb, aget_aset_self _ _ _ hb0 (by rw [hszc]; omega)] at hpos ⊢
        have hkneg : j - 1 > 0 ∧ tget text (j - 1 - 1) ≤ r := by
          by_contra hcon
          rw [if_neg hcon] at hpos
          omega
        rw [if_pos hkneg] at hpos ⊢
        simp only [neg_neg]
        refine ⟨by omega, ?_, ?_⟩
        · rw [← hrdef]
          exact hblb
        · rcases lt_or_eq_of_le hkneg.2 with hlt | heq
          · left
            rw [← hrdef]
            exact hlt
          · right
            rw [← hrdef]
            refine ⟨heq, ?_⟩
            rw [hcur r, if_pos rfl]
            omega
      · rw [aget_aset_other _ _ _ _ hpb,
          aget_aset_other _ _ _ _ (by omega : (p : Int) ≠ (i : Int))] at hpos ⊢
        obtain ⟨g1, g2, g3⟩ := hgood p (by omega) hpos
        refine ⟨g1, g2, ?_⟩
        rcases g3 with h | ⟨h1, h2⟩
        · left; exact h
        · right
          refine ⟨h1, ?_⟩
          rw [hcur]
          by_cases hcc : tget text (-aget st.sa (p : Int)) = r
          · rw [if_pos hcc]
            rw [hcc, ← hbdef] at h2
            omega
          · rw [if_neg hcc]
            exact h2
    · intro ch hch
      rw [hcur]
      by_cases hcc : ch = r
      · rw [if_pos hcc, hcc]
        omega
      · rw [if_neg hcc]
        exact hub ch hch
    · -- capacity
      intro ch hch
      have hcapc := hcap ch hch
      rw [pendF_succ, if_pos hjneg, ← hjdef] at hcapc
      have hstep1 : ∀ cx : Int, pendF text (aset st.sa (i : Int) j) i cx
          = pendF text st.sa i cx := by
        intro cx
        apply pendF_congr
        intro p hp
        rw [aget_aset_other _ _ _ _ (by omega : (p : Int) ≠ (i : Int))]
      have hbcast : ((b.toNat : Nat) : Int) = b := by omega
      have hset := pendF_set text (aset st.sa (i : Int) j) i ch b.toNat
        (if j - 1 > 0 ∧ tget text (j - 1 - 1) ≤ r then -(j - 1) else j - 1)
        (by omega) (by rw [hszc]; omega)
      rw [hbcast] at hset
      rw [hset, hstep1]
      have holdv : aget (aset st.sa (i : Int) j) b = aget st.sa b := by
        rw [aget_aset_other _ _ _ _ (by omega : b ≠ (i : Int))]
      rw [holdv]
      have hold : 0 ≤ (if aget st.sa b < 0 then
          futS text ch (-aget st.sa b).toNat else 0) := by
        split
        · exact futS_nonneg text ch _
        · exact le_refl 0
      rw [hcur]
      have hacc := futS_succ text ch j.toNat (by omega)
      rw [hjcast, ← hrdef] at hacc
      rw [show (j : Int) - 2 = j - 1 - 1 from by ring] at hacc
      have hnew : (if (if j - 1 > 0 ∧ tget text (j - 1 - 1) ≤ r then
          -(j - 1) else j - 1) < 0 then
          futS text ch (-(if j - 1 > 0 ∧ tget text (j - 1 - 1) ≤ r then
            -(j - 1) else j - 1)).toNat else 0) ≤
          (if j.toNat - 1 = 0 ∨ tget text (j - 1 - 1) > r then 0
           else futS text ch (j.toNat - 1)) := by
        by_cases hflag : j - 1 > 0 ∧ tget text (j - 1 - 1) ≤ r
        · rw [if_pos hflag, if_pos (by omega), if_neg (by
            push_neg
            exact ⟨by omega, hflag.2⟩)]
          simp only [neg_neg]
          have htn : (j - 1).toNat = j.toNat - 1 := by omega
          rw [htn]
        · rw [if_neg hflag, if_neg (by omega)]
          split
          · exact le_refl 0
          · exact futS_nonneg text ch _
      by_cases hchr : ch = r
      · rw [hchr] at hacc hcapc hnew hold ⊢
        rw [if_pos rfl] at hacc ⊢
        rw [← hbdef] at hcapc
        omega
      · rw [if_neg hchr]
        rw [if_neg (fun h => hchr h.symm)] at hacc
        omega

theorem induceSArb_clean (text : List Int) (sa : Array Int) (m : Int → Buck)
    (hsz : sa.size = text.length)
    (hq : ∀ p : Nat, p < text.length → aget sa (p : Int) < 0 →
      -aget sa (p : Int) < (text.length : Int) ∧
      cntLt text (tget text (-aget sa (p : Int))) ≤ (p : Int) ∧
      tget text (-aget sa (p : Int) - 1) < tget text (-aget sa (p : Int)))
    (hcur : ∀ c ∈ text, (m c).stop = cntLe text c - 1)
    (hcap : ∀ c ∈ text, cntLt text c + pendF text sa sa.size c ≤ cntLe text c) :
    ∀ p : Nat, p < text.length →
      0 ≤ aget (induceSArb text sa m).1 (p : Int) := by
  simp only [induceSArb]
  have hinv0 : indSArbInv text sa.size ⟨sa, m⟩ := by
    simp only [indSArbInv]
    refine ⟨hsz, ?_, ?_, ?_, ?_⟩
    · intro p hp hpn
      omega
    · intro p hp hpos
      obtain ⟨q1, q2, q3⟩ := hq p (by omega) hpos
      exact ⟨q1, q2, Or.inl q3⟩
    · intro c hc
      rw [hcur c hc]
    · intro c hc
      rw [hcur c hc]
      have := hcap c hc
      omega
  have hfin := downLoop_ind (indSArbInv text) sa.size
    (induceSArbStep text) ⟨sa, m⟩
    hinv0 (fun i s hi hs => indSArbInv_step text i s (by omega) hs)
  intro p hp
  exact hfin.2.1 p (by omega) hp

/-- Writing a non-negative value keeps every buffer entry non-negative. -/
theorem aset_mem_nonneg (a : Array Int) (i v : Int)
    (ha : ∀ x ∈ a.toList, 0 ≤ x) (hv : 0 ≤ v) :
    ∀ x ∈ (aset a i v).toList, 0 ≤ x := by
  intro x hx
  rw [aset] at hx
  split at hx
  · rw [Array.toList_set] at hx
    rcases List.mem_or_eq_of_mem_set hx with h | h
    · exact ha x h
    · exact h ▸ hv
  · exact ha x hx

/-- `insertLMS` writes only positive indexes and zeros. -/
theorem insertLMS_nonneg (text : List Int) (sa freq bucket : Array Int)
    (minChar : Int) (h0 : ∀ v ∈ sa.toList, 0 ≤ v) :
    ∀ v ∈ (insertLMS text sa freq bucket minChar).1.toList, 0 ≤ v := by
  rw [insertLMS]
  have hmain := downLoop_invariant
    (fun st : LMSIns => ∀ x ∈ st.sa.toList, 0 ≤ x) text.length
    (insertLMSStep text minChar) ⟨0, false, sa, bucketEnd freq bucket, 0, 0⟩
    h0 (by
      intro i s hs
      rw [insertLMSStep]
      split
      · exact hs
      · split
        · exact aset_mem_nonneg _ _ _ hs (by positivity)
        · exact hs)
  split
  · exact aset_mem_nonneg _ _ _ hmain (le_refl 0)
  · exact hmain

/-- `insertLMS_arb` writes only positive indexes and zeros. -/
theorem insertLMSArb_nonneg (text : List Int) (sa : Array Int) (m : Int → Buck)
    (h0 : ∀ v ∈ sa.toList, 0 ≤ v) :
    ∀ v ∈ (insertLMSArb text sa m).1.toList, 0 ≤ v := by
  rw [insertLMSArb]
  have hmain := downLoop_invariant
    (fun st : LMSInsArb => ∀ x ∈ st.sa.toList, 0 ≤ x) text.length
    (insertLMSArbStep text) ⟨0, false, sa, m, 0, 0⟩
    h0 (by
      intro i s hs
      rw [insertLMSArbStep]
      split
      · exact hs
      · split
        · exact aset_mem_nonneg _ _ _ hs (by positivity)
        · exact hs)
  split
  · exact aset_mem_nonneg _ _ _ hmain (le_refl 0)
  · exact hmain

/-- Claim C5, amended: after every induction pass except the final `induceL`
(and `induceL_arb`) completes, the SA buffer contains no negative values.
`insertLMS` and `insertLMS_arb` map a non-negative buffer to a non-negative
buffer, and each of `induceSubL`, `induceSubS`, the final `induceS` and their
arbitrary-alphabet counterparts, started from an entry state satisfying its
pass contract — bucket cursors at the canonical edges of the character
buckets, every queue entry an in-range index of the expected type placed
within its bucket, and the pending cascade writes fitting inside the
buckets — ends with every buffer entry non-negative: each negated sentinel
written during the pass is restored (or collected positively) before the
pass returns.  `induceL` and `induceL_arb` are excluded: the counterexample
shows they leave their negated sentinels in place, by design, as the work
queue of the following `induceS`. -/
theorem C5_pass_cleanliness
    (text : List Int) (saI saL saS saF freq bucket : Array Int)
    (minChar : Int) (mA : Int → Buck)
    (hn : 2 ≤ text.length)
    (hnnI : ∀ v ∈ saI.toList, 0 ≤ v)
    (hszL : saL.size = text.length)
    (hqL : ∀ p : Nat, p < text.length → 0 < aget saL (p : Int) →
      aget saL (p : Int) < (text.length : Int) ∧
      (p : Int) < cntLe text (tget text (aget saL (p : Int))) ∧
      tget text (aget saL (p : Int) - 1) > tget text (aget saL (p : Int)))
    (hcurL : ∀ c ∈ text, aget (bucketStart freq bucket) (c - minChar) = cntLt text c)
    (hslotL : ∀ c ∈ text, 0 ≤ c - minChar ∧
      c - minChar < ((bucketStart freq bucket).size : Int))
    (hcapL : ∀ c ∈ text, cntLt text c + subLSeed text c + pendL text saL 0 c ≤
      cntLe text c)
    (hszS : saS.size = text.length)
    (hqS : ∀ p : Nat, p < text.length → 0 < aget saS (p : Int) →
      aget saS (p : Int) < (text.length : Int) ∧
      cntLt text (tget text (aget saS (p : Int))) ≤ (p : Int) ∧
      tget text (aget saS (p : Int) - 1) < tget text (aget saS (p : Int)))
    (hcurS : ∀ c ∈ text, aget (bucketEnd freq bucket) (c - minChar) = cntLe text c - 1)
    (hslotS : ∀ c ∈ text, 0 ≤ c - minChar ∧
      c - minChar < ((bucketEnd freq bucket).size : Int))
    (hcapS : ∀ c ∈ text, cntLt text c + pendS text saS saS.size c ≤ cntLe text c)
    (hszF : saF.size = text.length)
    (hqF : ∀ p : Nat, p < text.length → aget saF (p : Int) < 0 →
      -aget saF (p : Int) < (text.length : Int) ∧
      cntLt text (tget text (-aget saF (p : Int))) ≤ (p : Int) ∧
      tget text (-aget saF (p : Int) - 1) < tget text (-aget saF (p : Int)))
    (hcapF : ∀ c ∈ text, cntLt text c + pendF text saF saF.size c ≤ cntLe text c)
    (hcurA : ∀ c ∈ text, (mA c).start = cntLt text c)
    (hstopA : ∀ c ∈ text, (mA c).stop = cntLe text c - 1)
    (hsizeA : ∀ c ∈ text, (mA c).size = cntEq text c) :
    (∀ v ∈ (insertLMS text saI freq bucket minChar).1.toList, 0 ≤ v) ∧
    (∀ v ∈ (insertLMSArb text saI mA).1.toList, 0 ≤ v) ∧
    (∀ p : Nat, p < text.length →
      0 ≤ aget (induceSubL text saL freq bucket minChar).1 (p : Int)) ∧
    (∀ p : Nat, p < text.length →
      0 ≤ aget (induceSubS text saS freq bucket minChar).1 (p : Int)) ∧
    (∀ p : Nat, p < text.length →
      0 ≤ aget (induceS text saF freq bucket minChar).1 (p : Int)) ∧
    (∀ p : Nat, p < text.length →
      0 ≤ aget (induceSubLArb text saL mA).1 (p : Int)) ∧
    (∀ p : Nat, p < text.length →
      0 ≤ aget (induceSubSArb text saS mA).1 (p : Int)) ∧
    (∀ p : Nat, p < text.length →
      0 ≤ aget (induceSArb text saF mA).1 (p : Int)) :=
  ⟨insertLMS_nonneg text saI freq bucket minChar hnnI,
   insertLMSArb_nonneg text saI mA hnnI,
   induceSubL_clean text saL freq bucket minChar hn hszL hqL hcurL hslotL hcapL,
   induceSubS_clean text saS freq bucket minChar hszS hqS hcurS hslotS hcapS,
   induceS_clean text saF freq bucket minChar hszF hqF hcurS hslotS hcapF,
   induceSubLArb_clean text saL mA hn hszL hqL hcurA hsizeA hcapL,
   induceSubSArb_clean text saS mA hszS hqS hstopA hcapS,
   induceSArb_clean text saF mA hszF hqF hstopA hcapF⟩

set_option maxRecDepth 100000 in
/-- Witness for the amended claim C5: all pass contracts instantiated on the
actual pass-entry states of the `sais` run on the text of `"banana"`. -/
theorem C5_pass_cleanliness_witness :
    2 ≤ ([98, 97, 110, 97, 110, 97] : List Int).length ∧
    0 ≤ ((insertLMS [98, 97, 110, 97, 110, 97] #[0, 0, 0, 0, 0, 0]
      #[3, 1, 0, 0, 0, 0, 0, 0, 0, 0, 0, 0, 0, 2] (Array.mkArray 14 0)
      97).1.toList.getD 2 0) ∧
    0 ≤ ((insertLMSArb [98, 97, 110, 97, 110, 97] #[0, 0, 0, 0, 0, 0]
      (fun c => if c = 97 then ⟨0, 2, 3⟩ else if c = 98 then ⟨3, 3, 1⟩
        else if c = 110 then ⟨4, 5, 2⟩ else ⟨0, 0, 0⟩)).1.toList.getD 2 0) ∧
    0 ≤ aget (induceSubL [98, 97, 110, 97, 110, 97] #[0, 0, 3, 0, 0, 0]
      #[3, 1, 0, 0, 0, 0, 0, 0, 0, 0, 0, 0, 0, 2] (Array.mkArray 14 0) 97).1
      ((4 : Nat) : Int) ∧
    0 ≤ aget (induceSubS [98, 97, 110, 97, 110, 97] #[0, 0, 0, 0, 4, 2]
      #[3, 1, 0, 0, 0, 0, 0, 0, 0, 0, 0, 0, 0, 2] (Array.mkArray 14 0) 97).1
      ((5 : Nat) : Int) ∧
    0 ≤ aget (induceS [98, 97, 110, 97, 110, 97] #[5, 3, 1, 0, -4, -2]
      #[3, 1, 0, 0, 0, 0, 0, 0, 0, 0, 0, 0, 0, 2] (Array.mkArray 14 0) 97).1
      ((4 : Nat) : Int) ∧
    0 ≤ aget (induceSubLArb [98, 97, 110, 97, 110, 97] #[0, 0, 3, 0, 0, 0]
      (fun c => if c = 97 then ⟨0, 2, 3⟩ else if c = 98 then ⟨3, 3, 1⟩
        else if c = 110 then ⟨4, 5, 2⟩ else ⟨0, 0, 0⟩)).1 ((4 : Nat) : Int) ∧
    0 ≤ aget (induceSubSArb [98, 97, 110, 97, 110, 97] #[0, 0, 0, 0, 4, 2]
      (fun c => if c = 97 then ⟨0, 2, 3⟩ else if c = 98 then ⟨3, 3, 1⟩
        else if c = 110 then ⟨4, 5, 2⟩ else ⟨0, 0, 0⟩)).1 ((5 : Nat) : Int) ∧
    0 ≤ aget (induceSArb [98, 97, 110, 97, 110, 97] #[5, 3, 1, 0, -4, -2]
      (fun c => if c = 97 then ⟨0, 2, 3⟩ else if c = 98 then ⟨3, 3, 1⟩
        else if c = 110 then ⟨4, 5, 2⟩ else ⟨0, 0, 0⟩)).1 ((4 : Nat) : Int) := by
  have h := C5_pass_cleanliness [98, 97, 110, 97, 110, 97]
    #[0, 0, 0, 0, 0, 0] #[0, 0, 3, 0, 0, 0] #[0, 0, 0, 0, 4, 2]
    #[5, 3, 1, 0, -4, -2] #[3, 1, 0, 0, 0, 0, 0, 0, 0, 0, 0, 0, 0, 2]
    (Array.mkArray 14 0) 97
    (fun c => if c = 97 then ⟨0, 2, 3⟩ else if c = 98 then ⟨3, 3, 1⟩
      else if c = 110 then ⟨4, 5, 2⟩ else ⟨0, 0, 0⟩)
    (by decide) (by decide) (by decide) (by decide) (by decide) (by decide)
    (by decide) (by decide) (by decide) (by decide) (by decide) (by decide)
    (by decide) (by decide) (by decide) (by decide) (by decide) (by decide)
  exact ⟨by decide, h.1 _ (by decide), h.2.1 _ (by decide),
    h.2.2.1 4 (by decide), h.2.2.2.1 5 (by decide), h.2.2.2.2.1 4 (by decide),
    h.2.2.2.2.2.1 4 (by decide), h.2.2.2.2.2.2.1 5 (by decide),
    h.2.2.2.2.2.2.2 4 (by decide)⟩


/-- One unfolding of the reference S-type flag in terms of the neighbours. -/
theorem isS_step (t : List Int) (i : Nat) (h : i + 1 < t.length) :
    isS t i = (decide (tget t (i : Int) < tget t ((i + 1 : Nat) : Int)) ||
      (decide (tget t (i : Int) = tget t ((i + 1 : Nat) : Int)) && isS t (i + 1))) := by
  induction t generalizing i with
  | nil => simp at h
  | cons a l ih =>
    cases l with
    | nil => simp at h
    | cons b v =>
      cases i with
      | zero =>
        obtain ⟨x, xs, hx⟩ := List.exists_cons_of_ne_nil
          (List.ne_nil_of_length_pos (by rw [sTypes_length]; simp) :
            sTypes (b :: v) ≠ [])
        have h0 : tget (a :: b :: v) ((0 : Nat) : Int) = a := by simp [tget]
        have h1 : tget (a :: b :: v) ((0 + 1 : Nat) : Int) = b := by simp [tget]
        rw [h0, h1, isS, isS, sTypes]
        simp only [List.getD_cons_zero, List.getD_cons_succ]
        simp [hx]
      | succ k =>
        have hL : isS (a :: b :: v) (k + 1) = isS (b :: v) k := by
          rw [isS, isS, sTypes]
          simp
        have hR : isS (a :: b :: v) (k + 1 + 1) = isS (b :: v) (k + 1) := by
          rw [isS, isS, sTypes]
          simp
        rw [hL, hR, tget_cons_succ, tget_cons_succ, ih k (by simpa using h)]

/-- The last position of a non-empty text is L-type by convention. -/
theorem isS_last (t : List Int) (h : t ≠ []) : isS t (t.length - 1) = false := by
  induction t with
  | nil => exact absurd rfl h
  | cons a l ih =>
    cases l with
    | nil => rfl
    | cons b v =>
      have hlen : (a :: b :: v).length - 1 = v.length + 1 := by simp
      rw [hlen, isS, sTypes]
      simp only [List.getD_cons_succ]
      have := ih (by simp)
      rw [isS] at this
      simpa using this

theorem mem_lmsPositions (t : List Int) (p : Nat) :
    p ∈ lmsPositions t ↔ p < t.length ∧ isLMS t p = true := by
  simp [lmsPositions, List.mem_filter, List.mem_range]

theorem isLMS_iff (t : List Int) (p : Nat) :
    isLMS t p = true ↔ 0 < p ∧ isS t p = true ∧ isS t (p - 1) = false := by
  simp [isLMS, Bool.and_eq_true, decide_eq_true_eq, Bool.not_eq_true']
  tauto

/-- Every LMS position lies in `[1, n-2]`. -/
theorem lms_bounds (t : List Int) (p : Nat) (hp : p ∈ lmsPositions t) :
    1 ≤ p ∧ p + 2 ≤ t.length := by
  rw [mem_lmsPositions] at hp
  obtain ⟨hlt, hlms⟩ := hp
  rw [isLMS_iff] at hlms
  refine ⟨hlms.1, ?_⟩
  by_contra hc
  have hp1 : p = t.length - 1 := by omega
  have hfalse := isS_last t (by
    intro he
    rw [he] at hlt
    simp at hlt)
  rw [← hp1] at hfalse
  have := hlms.2.1
  rw [hfalse] at this
  simp at this

theorem lms_sorted (t : List Int) : (lmsPositions t).Pairwise (· < ·) :=
  (List.pairwise_lt_range t.length).filter _

/-- Consecutive LMS positions are at least 2 apart: the predecessor of an LMS
position is L-type while an LMS position itself is S-type. -/
theorem lms_gap (t : List Int) : (lmsPositions t).Pairwise (fun p q => p + 2 ≤ q) := by
  have hs := lms_sorted t
  rw [List.pairwise_iff_getElem] at hs ⊢
  intro i j hi hj hij
  have hlt := hs i j hi hj hij
  by_cases he : (lmsPositions t)[j] = (lmsPositions t)[i] + 1
  · have hmi : (lmsPositions t)[i] ∈ lmsPositions t := List.getElem_mem hi
    have hmj : (lmsPositions t)[j] ∈ lmsPositions t := List.getElem_mem hj
    rw [mem_lmsPositions] at hmi hmj
    have h1 : isS t (lmsPositions t)[i] = true := ((isLMS_iff t _).1 hmi.2).2.1
    have h2 : isS t ((lmsPositions t)[j] - 1) = false := ((isLMS_iff t _).1 hmj.2).2.2
    rw [he] at h2
    simp only [Nat.add_sub_cancel] at h2
    rw [h1] at h2
    simp at h2
  · omega

/-- A strictly increasing list of naturals below `K` has at most `K` entries. -/
theorem sorted_length_le (H : List Nat) (K : Nat) (hs : H.Pairwise (· < ·))
    (hb : ∀ h ∈ H, h < K) : H.length ≤ K := by
  have hnd : H.Nodup := hs.imp (fun hlt => Nat.ne_of_lt hlt)
  have hsub : H ⊆ List.range K := fun x hx => List.mem_range.2 (hb x hx)
  have hsp := List.subperm_of_subset hnd hsub
  simpa using hsp.length_le

/-- In a strictly increasing list, the entry whose index is the number of
smaller entries is the element itself. -/
theorem sorted_getD_count (H : List Nat) (i : Nat) (hs : H.Pairwise (· < ·))
    (hi : i ∈ H) :
    H.getD ((H.filter (fun h => decide (h < i))).length) 0 = i := by
  induction H with
  | nil => simp at hi
  | cons a tl ih =>
    rw [List.pairwise_cons] at hs
    rcases List.mem_cons.1 hi with rfl | hitl
    · have hf : tl.filter (fun h => decide (h < i)) = [] := by
        rw [List.filter_eq_nil_iff]
        intro x hx
        simp only [decide_eq_true_eq]
        exact not_lt.2 (le_of_lt (hs.1 x hx))
      rw [List.filter_cons]
      simp [hf]
    · have ha : a < i := hs.1 i hitl
      rw [List.filter_cons]
      rw [if_pos (by simpa using ha)]
      rw [List.length_cons, List.getD_cons_succ]
      exact ih hs.2 hitl

/-- Counting entries below `i+1` versus below `i` in a duplicate-free list. -/
theorem count_lt_succ (H : List Nat) (hnd : H.Nodup) (i : Nat) :
    (H.filter (fun h => decide (h < i + 1))).length
      = (H.filter (fun h => decide (h < i))).length + (if i ∈ H then 1 else 0) := by
  induction H with
  | nil => simp
  | cons a tl ih =>
    rw [List.nodup_cons] at hnd
    rw [List.filter_cons, List.filter_cons]
    have ihtl := ih hnd.2
    by_cases h1 : a < i
    · have h2 : a < i + 1 := by omega
      have h3 : ¬ (i = a) := by omega
      rw [if_pos (by simpa using h2), if_pos (by simpa using h1)]
      simp only [List.length_cons, List.mem_cons, h3, false_or]
      omega
    · by_cases h4 : a = i
      · subst h4
        rw [if_pos (by simp), if_neg (by simp)]
        have h5 : a ∉ tl := hnd.1
        simp only [List.length_cons, List.mem_cons, true_or, if_pos]
        rw [ihtl, if_neg h5]
      · have h6 : ¬ (a < i + 1) := by omega
        rw [if_neg (by simpa using h6), if_neg (by simpa using h1)]
        have h7 : ¬ (i = a) := fun h => h4 h.symm
        simp only [List.mem_cons, h7, false_or]
        exact ihtl

/-! ## What `summarise` writes where -/

/-- The backward scan of `lengthLMS` writes only at half slots `p / 2` of LMS
positions `p`: provided the final code point is non-negative, its registers
track the reference classifier, so a write happens exactly at the slot of a
reference LMS position. -/
theorem lengthLMS_spec (t : List Int) (sa : Array Int)
    (hlast : 0 ≤ tget t ((t.length : Int) - 1)) :
    ∀ j : Nat, (∀ p ∈ lmsPositions t, j ≠ p / 2) →
      aget (lengthLMS t sa) (j : Int) = aget sa (j : Int) := by
  have main := downLoop_ind
    (fun i st =>
      (∀ j : Nat, (∀ p ∈ lmsPositions t, j ≠ p / 2) →
        aget st.sa (j : Int) = aget sa (j : Int)) ∧
      (i = t.length → st.r = 0 ∧ st.S = false) ∧
      (i < t.length → st.r = tget t (i : Int) ∧ st.S = isS t i))
    t.length (lengthLMSStep t) ⟨0, false, (t.length : Int) - 1, sa⟩
    ⟨fun j _ => rfl, fun _ => ⟨rfl, rfl⟩, fun hlt => absurd hlt (lt_irrefl _)⟩
    (by
      intro i st hi hP
      obtain ⟨hUn, hTop, hReg⟩ := hP
      simp only [lengthLMSStep]
      rcases Nat.lt_or_ge (i + 1) t.length with hin | hend
      · obtain ⟨hr, hS⟩ := hReg hin
        have hstep := isS_step t i hin
        rcases lt_trichotomy (tget t (i : Int)) st.r with hlr | hlr | hlr
        · rw [if_pos hlr]
          refine ⟨hUn, fun he => absurd he (by omega), fun _ => ⟨rfl, ?_⟩⟩
          symm
          rw [hstep, ← hr]
          simp [hlr]
        · rw [if_neg (by omega), if_neg (fun hc => absurd hc.1 (by omega))]
          refine ⟨hUn, fun he => absurd he (by omega), fun _ => ⟨rfl, ?_⟩⟩
          symm
          rw [hstep, ← hr, ← hS]
          simp [hlr]
        · rw [if_neg (by omega)]
          have hSfalse : isS t i = false := by
            rw [hstep, ← hr]
            simp [not_lt.2 (le_of_lt hlr), (ne_of_gt hlr)]
          by_cases hSS : st.S = true
          · rw [if_pos ⟨hlr, hSS⟩]
            have hlms : (i + 1) ∈ lmsPositions t := by
              rw [mem_lmsPositions]
              refine ⟨by omega, ?_⟩
              rw [isLMS_iff]
              exact ⟨by omega, by rw [← hS]; exact hSS,
                by simpa using hSfalse⟩
            have hslot : ((i : Int) + 1) / 2 = (((i + 1) / 2 : Nat) : Int) := by
              omega
            refine ⟨?_, fun he => absurd he (by omega), fun _ => ⟨rfl, ?_⟩⟩
            · intro j hj
              rw [hslot, aget_aset_ne _ _ _ _
                (by exact_mod_cast (hj (i + 1) hlms))]
              exact hUn j hj
            · symm
              exact hSfalse
          · have hSS' : st.S = false := by revert hSS; cases st.S <;> simp
            rw [if_neg (fun hc => by rw [hSS'] at hc; exact absurd hc.2 (by simp))]
            refine ⟨hUn, fun he => absurd he (by omega), fun _ => ⟨rfl, ?_⟩⟩
            rw [hSS', hSfalse]
      · have hieq : i = t.length - 1 := by omega
        obtain ⟨hr0, hS0⟩ := hTop (by omega)
        have hl0 : 0 ≤ tget t (i : Int) := by
          have hcast : ((t.length : Int) - 1) = ((i : Nat) : Int) := by omega
          rwa [hcast] at hlast
        rw [if_neg (by rw [hr0]; omega),
          if_neg (fun hc => by rw [hS0] at hc; exact absurd hc.2 (by simp))]
        refine ⟨hUn, fun he => absurd he (by omega), fun _ => ⟨rfl, ?_⟩⟩
        have hfin : isS t i = false := by
          rw [hieq]
          exact isS_last t (by intro he; rw [he] at hi; simp at hi)
        rw [hS0, hfin]
        )
  rw [lengthLMS]
  exact main.1

/-- Whatever the comparison says, a naming step writes some name `w ≥ name`
at the half slot of `posLMS[i]` and keeps `w` as the running name. -/
theorem nameStep_shape (text : List Int) (base : Int) (i2 : Nat) (st : NameState) :
    ∃ w : Int, st.name ≤ w ∧
      (summariseNameStep text base i2 st).sa
        = aset st.sa
            (Int.tdiv (aget st.sa (base + ((i2 + 1 : Nat) : Int))) 2) w ∧
      (summariseNameStep text base i2 st).name = w := by
  simp only [summariseNameStep]
  split
  · exact ⟨st.name, le_rfl, rfl, rfl⟩
  · exact ⟨st.name + 1, by omega, rfl, rfl⟩

/-- After the naming loop of `summarise`, the half slot of every LMS position
holds a positive name, and every other slot still holds its entry value. -/
theorem nameStage_spec (t : List Int) (sa : Array Int) (P : List Nat) (m : Nat)
    (hsz : sa.size = t.length)
    (hmn : m ≤ t.length) (hm1 : 1 ≤ m)
    (hlast : 0 ≤ tget t ((t.length : Int) - 1))
    (hhalf : ∀ p ∈ lmsPositions t, p / 2 < t.length - m)
    (hPlen : P.length = m)
    (hPmem : ∀ p ∈ P, p ∈ lmsPositions t)
    (hPcov : ∀ p ∈ lmsPositions t, p ∈ P)
    (htail : ∀ i : Nat, i < m →
      aget sa ((t.length - m + i : Nat) : Int) = ((P.getD i 0 : Nat) : Int)) :
    (nameStage t sa m).sa.size = sa.size ∧
    (∀ j : Nat, (∀ p ∈ lmsPositions t, j ≠ p / 2) →
      aget (nameStage t sa m).sa (j : Int) = aget sa (j : Int)) ∧
    (∀ p ∈ lmsPositions t, 1 ≤ aget (nameStage t sa m).sa ((p / 2 : Nat) : Int)) := by
  have hr1size : (lengthLMS t sa).size = sa.size := lengthLMS_size t sa
  have hr1 := lengthLMS_spec t sa hlast
  have hbase_cast : ((lengthLMS t sa).size : Int) - (m : Int)
      = ((t.length - m : Nat) : Int) := by
    rw [hr1size, hsz]; omega
  have hbase_ne : ∀ p ∈ lmsPositions t, t.length - m ≠ p / 2 :=
    fun p hp => (Nat.ne_of_lt (hhalf p hp)).symm
  have hP0 : P.getD 0 0 ∈ lmsPositions t := by
    apply hPmem
    have h0 : 0 < P.length := by omega
    rw [List.getD_eq_getElem _ _ h0]
    exact List.getElem_mem h0
  have hp0val : aget (lengthLMS t sa) (((lengthLMS t sa).size : Int) - (m : Int))
      = ((P.getD 0 0 : Nat) : Int) := by
    rw [hbase_cast, hr1 (t.length - m) hbase_ne]
    have := htail 0 (by omega)
    rwa [Nat.add_zero] at this
  have hslot0 : Int.tdiv (aget (lengthLMS t sa)
        (((lengthLMS t sa).size : Int) - (m : Int))) 2
      = ((P.getD 0 0 / 2 : Nat) : Int) := by
    rw [hp0val, tdiv_two]
  have main := upLoop_ind
    (fun k st =>
      st.sa.size = sa.size ∧ 1 ≤ st.name ∧
      (∀ j : Nat, (∀ p ∈ lmsPositions t, j ≠ p / 2) →
        aget st.sa (j : Int) = aget sa (j : Int)) ∧
      (∀ i : Nat, i ≤ k → i < m →
        1 ≤ aget st.sa ((P.getD i 0 / 2 : Nat) : Int)))
    (m - 1)
    (summariseNameStep t (((lengthLMS t sa).size : Int) - (m : Int)))
    ⟨aset (lengthLMS t sa) (Int.tdiv (aget (lengthLMS t sa)
        (((lengthLMS t sa).size : Int) - (m : Int))) 2) 1, 1, 1,
      aget (lengthLMS t sa) (Int.tdiv (aget (lengthLMS t sa)
        (((lengthLMS t sa).size : Int) - (m : Int))) 2)⟩
    (by
      refine ⟨by simp [hr1size], le_rfl, ?_, ?_⟩
      · intro j hj
        rw [hslot0, aget_aset_ne _ _ _ _
          (by exact_mod_cast (hj (P.getD 0 0) hP0))]
        exact hr1 j hj
      · intro i hi0 him
        have hieq : i = 0 := by omega
        subst hieq
        rw [hslot0, aget_aset_eq]
        rw [hr1size, hsz]
        have := hhalf (P.getD 0 0) hP0
        omega)
    (by
      intro k st hk hQ
      obtain ⟨hQsz, hQnm, hQun, hQcov⟩ := hQ
      obtain ⟨w, hw, hsaeq, hnameeq⟩ := nameStep_shape t
        (((lengthLMS t sa).size : Int) - (m : Int)) k st
      have hidx : (((lengthLMS t sa).size : Int) - (m : Int)) + ((k + 1 : Nat) : Int)
          = ((t.length - m + (k + 1) : Nat) : Int) := by
        rw [hbase_cast]; push_cast; omega
      have hk1m : k + 1 < m := by omega
      have htailslot : ∀ p ∈ lmsPositions t, t.length - m + (k + 1) ≠ p / 2 := by
        intro p hp
        have := hhalf p hp
        omega
      have hcurr : aget st.sa ((((lengthLMS t sa).size : Int) - (m : Int))
            + ((k + 1 : Nat) : Int)) = ((P.getD (k + 1) 0 : Nat) : Int) := by
        rw [hidx, hQun _ htailslot]
        exact htail (k + 1) hk1m
      have hPk1 : P.getD (k + 1) 0 ∈ lmsPositions t := by
        apply hPmem
        rw [List.getD_eq_getElem _ _ (by omega)]
        exact List.getElem_mem (by omega)
      have hslot : Int.tdiv (aget st.sa ((((lengthLMS t sa).size : Int) - (m : Int))
            + ((k + 1 : Nat) : Int))) 2 = ((P.getD (k + 1) 0 / 2 : Nat) : Int) := by
        rw [hcurr, tdiv_two]
      rw [hslot] at hsaeq
      refine ⟨by rw [hsaeq, aset_size, hQsz], by omega, ?_, ?_⟩
      · intro j hj
        rw [hsaeq, aget_aset_ne _ _ _ _
          (by exact_mod_cast (hj (P.getD (k + 1) 0) hPk1))]
        exact hQun j hj
      · intro i hik him
        by_cases hq : P.getD i 0 / 2 = P.getD (k + 1) 0 / 2
        · rw [hq, hsaeq, aget_aset_eq]
          · omega
          · rw [hQsz, hsz]
            have := hhalf (P.getD (k + 1) 0) hPk1
            omega
        · rw [hsaeq, aget_aset_ne _ _ _ _ (by exact_mod_cast hq)]
          have hik' : i ≤ k := by
            by_contra hgt
            have hieq : i = k + 1 := by omega
            rw [hieq] at hq
            exact hq rfl
          exact hQcov i hik' him)
  rw [nameStage]
  refine ⟨main.1, main.2.2.1, ?_⟩
  intro p hp
  obtain ⟨ip, hip, hipv⟩ := List.mem_iff_getElem.1 (hPcov p hp)
  have hipm : ip < m := by omega
  have := main.2.2.2 ip (by omega) hipm
  rwa [List.getD_eq_getElem _ _ hip, hipv] at this

/-- `summarise` is the naming stage followed, in the compaction case, by the
compaction loop over the half slots. -/
theorem summarise_eq (text : List Int) (sa : Array Int) (numLMS : Nat) :
    summarise text sa numLMS =
      if (nameStage text sa numLMS).maxName ≥ (numLMS : Int) then
        ((nameStage text sa numLMS).sa, (nameStage text sa numLMS).maxName)
      else
        ((upLoop ((lengthLMS text sa).size / 2)
            (summariseCompactStep (((lengthLMS text sa).size : Int) - (numLMS : Int)))
            ((nameStage text sa numLMS).sa, 0)).1,
          (nameStage text sa numLMS).maxName) := rfl

theorem summarise_snd (text : List Int) (sa : Array Int) (numLMS : Nat) :
    (summarise text sa numLMS).2 = (nameStage text sa numLMS).maxName := by
  rw [summarise_eq]
  split <;> rfl

/-- The compaction loop collects the positive half-slot entries, in slot
order, into the summary region, zeroing everything before it. -/
theorem compact_spec (B : Array Int) (n m : Nat) (H : List Nat)
    (hB : B.size = n) (hm : H.length = m) (hmn : m ≤ n)
    (hs : H.Pairwise (· < ·))
    (hlt : ∀ h ∈ H, h < n / 2)
    (hn2 : n / 2 ≤ n - m)
    (hpos : ∀ h ∈ H, 1 ≤ aget B ((h : Nat) : Int))
    (h0 : ∀ j : Nat, j < n - m → j ∉ H → aget B ((j : Nat) : Int) = 0) :
    (∀ j : Nat, j < n - m →
      aget (upLoop (n / 2) (summariseCompactStep ((n : Int) - (m : Int)))
        (B, 0)).1 ((j : Nat) : Int) = 0) ∧
    (∀ i : Nat, i < m →
      aget (upLoop (n / 2) (summariseCompactStep ((n : Int) - (m : Int)))
        (B, 0)).1 ((n - m + i : Nat) : Int)
        = aget B ((H.getD i 0 : Nat) : Int)) := by
  have hnd : H.Nodup := hs.imp (fun hlt => Nat.ne_of_lt hlt)
  have main := upLoop_ind
    (fun i (st : Array Int × Nat) =>
      st.1.size = n ∧
      st.2 = (H.filter (fun h => decide (h < i))).length ∧
      (∀ j : Nat, j < n - m →
        aget st.1 ((j : Nat) : Int) =
          if j ∈ H ∧ j < i then 0 else aget B ((j : Nat) : Int)) ∧
      (∀ k : Nat, k < m →
        aget st.1 ((n - m + k : Nat) : Int) =
          if k < st.2 then aget B ((H.getD k 0 : Nat) : Int)
          else aget B ((n - m + k : Nat) : Int)))
    (n / 2) (summariseCompactStep ((n : Int) - (m : Int))) (B, 0)
    (by
      refine ⟨hB, by simp, ?_, ?_⟩
      · intro j hj
        rw [if_neg (by omega)]
      · intro k hk
        rw [if_neg (by omega)])
    (by
      intro i st hi hQ
      obtain ⟨hQsz, hQc, hQlow, hQtail⟩ := hQ
      have hcurr : aget st.1 ((i : Nat) : Int) = aget B ((i : Nat) : Int) := by
        have := hQlow i (by omega)
        rwa [if_neg (by omega)] at this
      have hbase_cast : ((n : Int) - (m : Int)) + ((st.2 : Nat) : Int)
          = ((n - m + st.2 : Nat) : Int) := by push_cast; omega
      simp only [summariseCompactStep]
      by_cases hiH : i ∈ H
      · have hBpos : 1 ≤ aget B ((i : Nat) : Int) := hpos i hiH
        simp only [if_neg (show ¬ (aget st.1 ((i : Nat) : Int) ≤ 0) by
          rw [hcurr]; omega)]
        have hc2m : st.2 < m := by
          have hsub : List.Sublist (H.filter (fun h => decide (h < i))) H :=
            List.filter_sublist H
          have hle := hsub.length_le
          have hne : (H.filter (fun h => decide (h < i))).length ≠ H.length := by
            intro he
            have heq := hsub.eq_of_length he
            have hmem : i ∈ H.filter (fun h => decide (h < i)) := by
              rw [heq]; exact hiH
            simp at hmem
          rw [hQc, ← hm]
          omega
        have hgetD : H.getD st.2 0 = i := by
          rw [hQc]
          exact sorted_getD_count H i hs hiH
        refine ⟨by simp [hQsz], ?_, ?_, ?_⟩
        · show st.2 + 1 = _
          rw [count_lt_succ H hnd i, if_pos hiH, hQc]
        · intro j hj
          show aget (aset (aset st.1 ((i : Nat) : Int) 0)
            (((n : Int) - (m : Int)) + ((st.2 : Nat) : Int)) _) _ = _
          rw [hbase_cast, aget_aset_ne _ _ _ _
            (by exact_mod_cast (by omega : j ≠ n - m + st.2))]
          by_cases hji : j = i
          · subst hji
            rw [aget_aset_eq _ _ _ (by rw [hQsz]; omega),
              if_pos ⟨hiH, by omega⟩]
          · rw [aget_aset_ne _ _ _ _ (by exact_mod_cast hji), hQlow j hj]
            by_cases hjH : j ∈ H ∧ j < i
            · rw [if_pos hjH, if_pos ⟨hjH.1, by omega⟩]
            · rw [if_neg hjH, if_neg (by
                intro hc
                exact hjH ⟨hc.1, by omega⟩)]
        · intro k hk
          show aget (aset (aset st.1 ((i : Nat) : Int) 0)
            (((n : Int) - (m : Int)) + ((st.2 : Nat) : Int)) _) _ = _
          rw [hbase_cast]
          by_cases hks : k = st.2
          · subst hks
            rw [aget_aset_eq _ _ _ (by rw [aset_size, hQsz]; omega)]
            rw [hcurr, hgetD, if_pos (by omega)]
          · rw [aget_aset_ne _ _ _ _
              (by exact_mod_cast (by omega : n - m + k ≠ n - m + st.2))]
            rw [aget_aset_ne _ _ _ _
              (by exact_mod_cast (by omega : n - m + k ≠ i))]
            rw [hQtail k hk]
            by_cases hlt2 : k < st.2
            · rw [if_pos hlt2, if_pos (by omega)]
            · rw [if_neg hlt2, if_neg (by omega)]
      · have hB0 : aget B ((i : Nat) : Int) = 0 := h0 i (by omega) hiH
        simp only [if_pos (show aget st.1 ((i : Nat) : Int) ≤ 0 by
          rw [hcurr, hB0])]
        refine ⟨hQsz, ?_, ?_, hQtail⟩
        · rw [hQc, count_lt_succ H hnd i, if_neg hiH]
          omega
        · intro j hj
          rw [hQlow j hj]
          by_cases hjH : j ∈ H ∧ j < i
          · rw [if_pos hjH, if_pos ⟨hjH.1, by omega⟩]
          · rw [if_neg hjH, if_neg (by
              intro hc
              rcases Nat.lt_or_ge j i with h | h
              · exact hjH ⟨hc.1, h⟩
              · have : j = i := by omega
                subst this
                exact hiH hc.1)]
    )
  obtain ⟨hFsz, hFc, hFlow, hFtail⟩ := main
  have hcall : (H.filter (fun h => decide (h < n / 2))).length = m := by
    rw [List.filter_eq_self.2 (fun a ha => by simpa using hlt a ha), hm]
  constructor
  · intro j hj
    rw [hFlow j hj]
    by_cases hjH : j ∈ H
    · rw [if_pos ⟨hjH, hlt j hjH⟩]
    · rw [if_neg (fun hc => hjH hc.1)]
      exact h0 j hj hjH
  · intro i him
    rw [hFtail i him, if_pos (by rw [hFc, hcall]; exact him)]

/-- C4, amended (compaction case): when `summarise` does compact
(`maxName < numLMS`), started from a buffer whose tail holds the LMS
positions and whose remaining slots are zero off the half slots, the summary
region ends up holding the (positive) names of the LMS substrings in
original text order, and everything before the summary region is zero. -/
theorem C4_summarise_compaction
    (text : List Int) (sa : Array Int) (numLMS : Nat) (P : List Nat)
    (hsz : sa.size = text.length)
    (hnum : (lmsPositions text).length = numLMS)
    (hm2 : 2 ≤ numLMS)
    (hlast : 0 ≤ tget text ((text.length : Int) - 1))
    (hPperm : P.Perm (lmsPositions text))
    (htail : ∀ i : Nat, i < numLMS →
      aget sa ((text.length - numLMS + i : Nat) : Int) = ((P.getD i 0 : Nat) : Int))
    (hzero : ∀ j : Nat, j < text.length - numLMS →
      (∀ p ∈ lmsPositions text, j ≠ p / 2) → aget sa ((j : Nat) : Int) = 0)
    (hmax : (summarise text sa numLMS).2 < (numLMS : Int)) :
    (∀ j : Nat, j < text.length - numLMS →
      aget (summarise text sa numLMS).1 ((j : Nat) : Int) = 0) ∧
    (∀ i : Nat, i < numLMS →
      aget (summarise text sa numLMS).1 ((text.length - numLMS + i : Nat) : Int)
        = aget (namedBuffer text sa numLMS)
            (((lmsPositions text).getD i 0 / 2 : Nat) : Int)) ∧
    (∀ i : Nat, i < numLMS →
      1 ≤ aget (namedBuffer text sa numLMS)
            (((lmsPositions text).getD i 0 / 2 : Nat) : Int)) := by
  have hHlen : ((lmsPositions text).map (fun p => p / 2)).length = numLMS := by
    rw [List.length_map, hnum]
  have hHs : ((lmsPositions text).map (fun p => p / 2)).Pairwise (· < ·) := by
    refine List.Pairwise.map _ (fun a b hab => ?_) (lms_gap text)
    omega
  have hHlt : ∀ h ∈ (lmsPositions text).map (fun p => p / 2),
      h < text.length / 2 := by
    intro h hh
    obtain ⟨p, hp, rfl⟩ := List.mem_map.1 hh
    obtain ⟨h1, h2⟩ := lms_bounds text p hp
    omega
  have hm_le : numLMS ≤ text.length / 2 := by
    rw [← hHlen]
    exact sorted_length_le _ _ hHs hHlt
  have hmn : numLMS ≤ text.length := by omega
  have hn2 : text.length / 2 ≤ text.length - numLMS := by omega
  have hhalf : ∀ p ∈ lmsPositions text, p / 2 < text.length - numLMS := by
    intro p hp
    have := hHlt (p / 2) (List.mem_map_of_mem _ hp)
    omega
  have hPlen : P.length = numLMS := by rw [hPperm.length_eq, hnum]
  obtain ⟨hBsz, hBun, hBpos⟩ := nameStage_spec text sa P numLMS hsz hmn
    (by omega) hlast hhalf hPlen (fun p hp => hPperm.subset hp)
    (fun p hp => hPperm.symm.subset hp) htail
  have hmaxName : (nameStage text sa numLMS).maxName < (numLMS : Int) := by
    rw [← summarise_snd]; exact hmax
  have hsum1 : (summarise text sa numLMS).1
      = (upLoop (text.length / 2)
          (summariseCompactStep ((text.length : Int) - (numLMS : Int)))
          ((nameStage text sa numLMS).sa, 0)).1 := by
    rw [summarise_eq, if_neg (by omega), lengthLMS_size, hsz]
  have hBsize : (nameStage text sa numLMS).sa.size = text.length := by
    rw [hBsz, hsz]
  have hpos2 : ∀ h ∈ (lmsPositions text).map (fun p => p / 2),
      1 ≤ aget (nameStage text sa numLMS).sa ((h : Nat) : Int) := by
    intro h hh
    obtain ⟨p, hp, rfl⟩ := List.mem_map.1 hh
    exact hBpos p hp
  have h0 : ∀ j : Nat, j < text.length - numLMS →
      j ∉ (lmsPositions text).map (fun p => p / 2) →
      aget (nameStage text sa numLMS).sa ((j : Nat) : Int) = 0 := by
    intro j hj hjH
    have hcond : ∀ p ∈ lmsPositions text, j ≠ p / 2 := by
      intro p hp he
      exact hjH (by rw [he]; exact List.mem_map_of_mem _ hp)
    rw [hBun j hcond]
    exact hzero j hj hcond
  obtain ⟨hz, htl⟩ := compact_spec (nameStage text sa numLMS).sa text.length
    numLMS ((lmsPositions text).map (fun p => p / 2)) hBsize hHlen hmn hHs hHlt
    hn2 hpos2 h0
  refine ⟨?_, ?_, ?_⟩
  · intro j hj
    rw [hsum1]
    exact hz j hj
  · intro i hi
    rw [hsum1]
    have hres := htl i hi
    rw [List.getD_eq_getElem _ _ (by rw [hHlen]; exact hi),
      List.getElem_map] at hres
    rw [List.getD_eq_getElem _ _ (by rw [hnum]; exact hi)]
    exact hres
  · intro i hi
    have hmem : (lmsPositions text).getD i 0 ∈ lmsPositions text := by
      rw [List.getD_eq_getElem _ _ (by rw [hnum]; exact hi)]
      exact List.getElem_mem (by rw [hnum]; exact hi)
    exact hBpos _ hmem

set_option maxRecDepth 100000 in
/-- Witness for C4 on `T = [1,0,2,0,2,0,2]` (three equal LMS substrings, so
`maxName = 1 < 3` and `summarise` compacts): the summary region receives the
name of each LMS substring in text order and the rest of the buffer is
zeroed. -/
theorem C4_summarise_compaction_witness :
    ([1, 3, 5] : List Nat).Perm (lmsPositions [1, 0, 2, 0, 2, 0, 2]) ∧
    (summarise [1, 0, 2, 0, 2, 0, 2] #[0, 0, 0, 0, 1, 3, 5] 3).2 < (3 : Int) ∧
    aget (summarise [1, 0, 2, 0, 2, 0, 2] #[0, 0, 0, 0, 1, 3, 5] 3).1
      ((0 : Nat) : Int) = 0 ∧
    aget (summarise [1, 0, 2, 0, 2, 0, 2] #[0, 0, 0, 0, 1, 3, 5] 3).1
      ((7 - 3 + 0 : Nat) : Int)
      = aget (namedBuffer [1, 0, 2, 0, 2, 0, 2] #[0, 0, 0, 0, 1, 3, 5] 3)
          (((lmsPositions [1, 0, 2, 0, 2, 0, 2]).getD 0 0 / 2 : Nat) : Int) ∧
    1 ≤ aget (namedBuffer [1, 0, 2, 0, 2, 0, 2] #[0, 0, 0, 0, 1, 3, 5] 3)
          (((lmsPositions [1, 0, 2, 0, 2, 0, 2]).getD 2 0 / 2 : Nat) : Int) := by
  have h := C4_summarise_compaction [1, 0, 2, 0, 2, 0, 2] #[0, 0, 0, 0, 1, 3, 5]
    3 [1, 3, 5] (by decide) (by decide) (by decide) (by decide) (by decide)
    (by decide) (by decide) (by decide)
  exact ⟨by decide, by decide, h.1 0 (by decide), h.2.1 0 (by decide),
    h.2.2 2 (by decide)⟩

/-! ## List and array helpers -/

theorem aset_toList (a : Array Int) (k : Nat) (v : Int) (hk : k < a.size) :
    (aset a ((k : Nat) : Int) v).toList = a.toList.set k v := by
  rw [aset, dif_pos ⟨Int.ofNat_nonneg k, by simpa using hk⟩]
  simp

theorem take_set_succ {α : Type} (l : List α) (k : Nat) (v : α)
    (hk : k < l.length) : (l.set k v).take (k + 1) = l.take k ++ [v] := by
  induction l generalizing k with
  | nil => simp at hk
  | cons a tl ih =>
    cases k with
    | zero => simp
    | succ m =>
      simp only [List.set_cons_succ, List.take_succ_cons,
        List.cons_append]
      rw [ih m (by simpa using hk)]

theorem drop_set_of_lt {α : Type} (l : List α) (k m : Nat) (v : α)
    (hkm : k < m) : (l.set k v).drop m = l.drop m := by
  induction l generalizing k m with
  | nil => simp
  | cons a tl ih =>
    cases k with
    | zero =>
      cases m with
      | zero => omega
      | succ m2 => simp
    | succ k2 =>
      cases m with
      | zero => omega
      | succ m2 =>
        simp only [List.set_cons_succ, List.drop_succ_cons]
        exact ih k2 m2 (by omega)

theorem list_set_self {α : Type} (l : List α) (i : Nat) (d : α)
    (h : l.getD i d = l.getD i d) : ∀ x, l.getD i d = x → i < l.length →
    l.set i x = l := by
  intro x hx hi
  induction l generalizing i with
  | nil => simp at hi
  | cons a tl ih =>
    cases i with
    | zero =>
      rw [List.set_cons_zero]
      have ha : a = x := hx
      rw [ha]
    | succ k =>
      rw [List.getD_cons_succ] at hx
      rw [List.set_cons_succ, ih k rfl hx (by simpa using hi)]

theorem getD_set_eq {α : Type} (l : List α) (i : Nat) (x d : α)
    (hi : i < l.length) : (l.set i x).getD i d = x := by
  induction l generalizing i with
  | nil => simp at hi
  | cons a tl ih =>
    cases i with
    | zero => rfl
    | succ k => simpa using ih k (by simpa using hi)

theorem getD_of_drop_cons {α : Type} (l : List α) (i : Nat) (x : α)
    (xs : List α) (d : α) (h : l.drop i = x :: xs) : l.getD i d = x := by
  induction l generalizing i with
  | nil => simp at h
  | cons a tl ih =>
    cases i with
    | zero => simp at h ⊢; exact h.1
    | succ k =>
      simp only [List.drop_succ_cons] at h
      simpa using ih k h

theorem drop_succ_of_drop_cons {α : Type} (l : List α) (i : Nat) (x : α)
    (xs : List α) (h : l.drop i = x :: xs) : l.drop (i + 1) = xs := by
  have h2 : l.drop (i + 1) = (l.drop i).drop 1 := by
    rw [List.drop_drop, Nat.add_comm]
  rw [h2, h]
  rfl

theorem array_eq_of_toList (a b : Array Int) (h : a.toList = b.toList) :
    a = b := by
  cases a
  cases b
  simpa using h

/-! ## Content of the GSA buffers -/

theorem blockStart_shift (src : List (List Int)) :
    ∀ (a d k : Nat), blockStart (a + d) src k = blockStart a src k + d := by
  induction src with
  | nil => intro a d k; cases k <;> rfl
  | cons s rest ih =>
    intro a d k
    cases k with
    | zero => rfl
    | succ k2 =>
      show blockStart (a + d + s.length + 1) rest k2
        = blockStart (a + s.length + 1) rest k2 + d
      have : a + d + s.length + 1 = (a + s.length + 1) + d := by omega
      rw [this, ih]

theorem tget_cons_succ_gsa (a : Int) (l : List Int) (k : Nat) :
    tget (a :: l) ((k + 1 : Nat) : Int) = tget l ((k : Nat) : Int) := by
  rw [tget, tget]
  by_cases h : k < l.length
  · rw [dif_pos ⟨by positivity, by simpa using Nat.succ_lt_succ h⟩,
      dif_pos ⟨Int.ofNat_nonneg k, by simpa using h⟩]
    simp
  · rw [dif_neg (by simp; omega), dif_neg (by simp; omega)]

theorem tget_append_left (x y : List Int) (k : Nat) (hk : k < x.length) :
    tget (x ++ y) ((k : Nat) : Int) = tget x ((k : Nat) : Int) := by
  rw [tget, tget,
    dif_pos ⟨Int.ofNat_nonneg k, by simp; omega⟩,
    dif_pos ⟨Int.ofNat_nonneg k, by simpa using hk⟩]
  simp [List.getElem_append_left, hk]

theorem tget_append_right (x y : List Int) (k : Nat) :
    tget (x ++ y) ((x.length + k : Nat) : Int) = tget y ((k : Nat) : Int) := by
  rw [tget, tget]
  by_cases h : k < y.length
  · rw [dif_pos ⟨Int.ofNat_nonneg _, by simp; omega⟩,
      dif_pos ⟨Int.ofNat_nonneg k, by simpa using h⟩]
    simp only [List.get_eq_getElem, Int.toNat_natCast]
    rw [List.getElem_append_right (by omega)]
    have hix : x.length + k - x.length = k := by omega
    simp [hix]
  · rw [dif_neg (by simp; omega), dif_neg (by simp; omega)]

theorem tget_getD (s : List Int) (k : Nat) (hk : k < s.length) :
    tget s ((k : Nat) : Int) = s.getD k 0 := by
  rw [tget, dif_pos ⟨Int.ofNat_nonneg k, by simpa using hk⟩,
    List.getD_eq_getElem _ _ hk]
  simp

/-- Text content of the concatenation at the characters of each string. -/
theorem gsaText_content (src : List (List Int)) :
    ∀ (k : Nat), k < src.length → ∀ (o : Nat), o < (src.getD k []).length →
      tget (gsaText src) ((blockStart 1 src k + o : Nat) : Int)
        = (src.getD k []).getD o 0 := by
  induction src with
  | nil => intro k hk; simp at hk
  | cons s rest ih =>
    intro k hk o ho
    cases k with
    | zero =>
      show tget (gsaText (s :: rest)) ((1 + o : Nat) : Int) = s.getD o 0
      have h1 : gsaText (s :: rest) = sep :: (s ++ sep :: concatSep rest) := rfl
      have h2 : (1 + o : Nat) = o + 1 := by omega
      rw [h1, h2, tget_cons_succ_gsa, tget_append_left _ _ o (by simpa using ho),
        tget_getD s o (by simpa using ho)]
    | succ k2 =>
      have hbs : blockStart 1 (s :: rest) (k2 + 1)
          = blockStart 1 rest k2 + (s.length + 1) := by
        show blockStart (1 + s.length + 1) rest k2 = _
        have : 1 + s.length + 1 = 1 + (s.length + 1) := by omega
        rw [this, blockStart_shift]
      have h1 : gsaText (s :: rest) = (sep :: s) ++ gsaText rest := by
        show sep :: (s ++ sep :: concatSep rest) = _
        simp [gsaText]
      have h2 : (blockStart 1 (s :: rest) (k2 + 1) + o : Nat)
          = (sep :: s).length + (blockStart 1 rest k2 + o) := by
        rw [hbs]; simp; omega
      rw [h1, h2, tget_append_right]
      exact ih k2 (by simpa using hk) o (by simpa using ho)

theorem tget_replicate (v : Int) (n k : Nat) (hk : k < n) :
    tget (List.replicate n v) ((k : Nat) : Int) = v := by
  rw [tget, dif_pos ⟨Int.ofNat_nonneg k, by simpa using hk⟩]
  simp

/-- String-id content of `strIdx` at the characters of each string. -/
theorem strIdxTail_content (src : List (List Int)) :
    ∀ (i0 k : Nat), k < src.length → ∀ (o : Nat), o < (src.getD k []).length + 1 →
      tget (strIdxTail i0 src) ((blockStart 0 src k + o : Nat) : Int)
        = ((i0 + k : Nat) : Int) := by
  induction src with
  | nil => intro i0 k hk; simp at hk
  | cons s rest ih =>
    intro i0 k hk o ho
    cases k with
    | zero =>
      show tget (List.replicate (s.length + 1) ((i0 : Nat) : Int)
        ++ strIdxTail (i0 + 1) rest) ((0 + o : Nat) : Int) = _
      have h0 : (0 + o : Nat) = o := by omega
      rw [h0, tget_append_left _ _ o
        (by rw [List.length_replicate]; simpa using ho)]
      rw [tget_replicate _ _ _ (by simpa using ho)]
      norm_num
    | succ k2 =>
      have hbs : blockStart 0 (s :: rest) (k2 + 1)
          = blockStart 0 rest k2 + (s.length + 1) := by
        show blockStart (0 + s.length + 1) rest k2 = _
        have : 0 + s.length + 1 = 0 + (s.length + 1) := by omega
        rw [this, blockStart_shift]
      have h2 : (blockStart 0 (s :: rest) (k2 + 1) + o : Nat)
          = (List.replicate (s.length + 1) ((i0 : Nat) : Int)).length
            + (blockStart 0 rest k2 + o) := by
        rw [hbs, List.length_replicate]; omega
      show tget (List.replicate (s.length + 1) ((i0 : Nat) : Int)
        ++ strIdxTail (i0 + 1) rest) _ = _
      rw [h2, tget_append_right]
      have := ih (i0 + 1) k2 (by simpa using hk) o (by simpa using ho)
      rw [this]
      congr 1
      omega

/-- String-id content of the full `strIdx` buffer. -/
theorem gsaStrIdx_content (src : List (List Int)) :
    ∀ (k : Nat), k < src.length → ∀ (o : Nat), o < (src.getD k []).length →
      tget (gsaStrIdx src) ((blockStart 1 src k + o : Nat) : Int)
        = ((k : Nat) : Int) := by
  intro k hk o ho
  have hbs : blockStart 1 src k = blockStart 0 src k + 1 := by
    have : (1 : Nat) = 0 + 1 := rfl
    rw [this, blockStart_shift]
  have h2 : (blockStart 1 src k + o : Nat) = (blockStart 0 src k + o) + 1 := by
    rw [hbs]; omega
  rw [gsaStrIdx, h2, tget_cons_succ_gsa]
  have := strIdxTail_content src 0 k hk o (by omega)
  rw [this]
  norm_num

/-! ## Decomposing the matches of the concatenation -/

/-- A separator-free pattern is a prefix of `w ++ sep :: z` exactly when it is
a prefix of `w`: crossing the separator would put `sep` inside the pattern. -/
theorem prefix_concat_sep (pat w z : List Int) (hsep : sep ∉ pat) :
    pat <+: (w ++ sep :: z) ↔ pat <+: w := by
  constructor
  · intro h
    rcases le_or_lt pat.length w.length with hle | hgt
    · rw [List.prefix_iff_eq_take] at h
      rw [List.take_append_of_le_length hle] at h
      rw [h]
      exact List.take_prefix _ _
    · exfalso
      rw [List.prefix_iff_eq_take] at h
      apply hsep
      rw [h, List.take_append_eq_append_take]
      apply List.mem_append_right
      have hk : pat.length - w.length = (pat.length - w.length - 1) + 1 := by
        omega
      rw [hk, List.take_succ_cons]
      exact List.mem_cons_self _ _
  · intro h
    exact h.trans (List.prefix_append w (sep :: z))

/-- Splitting the match positions of an append at the boundary. -/
theorem matchPositions_append (pat x y : List Int) :
    matchPositions pat (x ++ y)
      = ((List.range x.length).filter (fun j => decide (pat <+: (x.drop j ++ y))))
        ++ (matchPositions pat y).map (fun j => x.length + j) := by
  rw [matchPositions, List.length_append, List.range_add, List.filter_append]
  congr 1
  · apply List.filter_congr
    intro j hj
    rw [List.mem_range] at hj
    rw [List.drop_append_of_le_length (le_of_lt hj)]
  · rw [List.filter_map, matchPositions]
    congr 1
    apply List.filter_congr
    intro j hj
    simp only [Function.comp_apply]
    congr 1
    rw [List.drop_append_eq_append_drop]
    have h1 : x.drop (x.length + j) = [] := by
      apply List.drop_eq_nil_of_le
      omega
    have h2 : x.length + j - x.length = j := by omega
    rw [h1, h2, List.nil_append]

/-- A separator-headed text shifts every match by one: a non-empty,
separator-free pattern cannot match at the separator itself. -/
theorem matchPositions_cons_sep (pat u : List Int) (hp : pat ≠ [])
    (hsep : sep ∉ pat) :
    matchPositions pat (sep :: u) = (matchPositions pat u).map (fun j => 1 + j) := by
  have h0 : ¬ (pat <+: sep :: u) := by
    intro hpre
    obtain ⟨p0, pr, rfl⟩ := List.exists_cons_of_ne_nil hp
    obtain ⟨t, ht⟩ := hpre
    rw [List.cons_append] at ht
    injection ht with h1 h2
    exact hsep (by rw [h1]; exact List.mem_cons_self _ _)
  have hx : matchPositions pat (sep :: u) = matchPositions pat ([sep] ++ u) := rfl
  rw [hx, matchPositions_append]
  have hz : (List.range [sep].length).filter
      (fun j => decide (pat <+: ([sep].drop j ++ u))) = [] := by
    show (List.range 1).filter _ = []
    rw [show List.range 1 = [0] from rfl, List.filter_cons, List.filter_nil]
    rw [if_neg (by simpa using h0)]
  rw [hz, List.nil_append]
  rfl

/-- The match positions of the concatenation body, shifted to `start`, are
the blocks of local matches. -/
theorem matchPositions_concat (pat : List Int) (hp : pat ≠ []) (hsep : sep ∉ pat) :
    ∀ (src : List (List Int)) (start : Nat),
      (matchPositions pat (concatSep src)).map (fun j => start + j)
        = blockPositions pat start src := by
  intro src
  induction src with
  | nil => intro start; rfl
  | cons s rest ih =>
    intro start
    show (matchPositions pat (s ++ sep :: concatSep rest)).map _ = _
    rw [matchPositions_append, List.map_append]
    congr 1
    · rw [show (sep :: concatSep rest) = [sep] ++ concatSep rest from rfl]
      have hpt : (List.range s.length).filter
          (fun j => decide (pat <+: (s.drop j ++ ([sep] ++ concatSep rest))))
          = localMatches pat s := by
        apply List.filter_congr
        intro j hj
        apply decide_eq_decide.2
        rw [show s.drop j ++ ([sep] ++ concatSep rest)
            = s.drop j ++ sep :: concatSep rest from by simp]
        exact prefix_concat_sep pat (s.drop j) (concatSep rest) hsep
      rw [hpt]
    · rw [matchPositions_cons_sep pat _ hp hsep, List.map_map, List.map_map]
      rw [← ih (start + s.length + 1)]
      apply List.map_congr_left
      intro j hj
      simp only [Function.comp_apply]
      omega

/-- The match positions of the full GSA text are the blocks of local matches
starting at position 1. -/
theorem matchPositions_gsa (pat : List Int) (src : List (List Int))
    (hp : pat ≠ []) (hsep : sep ∉ pat) :
    matchPositions pat (gsaText src) = blockPositions pat 1 src := by
  rw [gsaText, matchPositions_cons_sep pat _ hp hsep]
  exact matchPositions_concat pat hp hsep src 1

/-! ## Per-string match facts -/

theorem localMatches_sorted (pat s : List Int) :
    (localMatches pat s).Pairwise (· < ·) :=
  (List.pairwise_lt_range s.length).filter _

theorem localMatches_mem (pat s : List Int) (o : Nat)
    (ho : o ∈ localMatches pat s) : o < s.length ∧ pat <+: s.drop o := by
  rw [localMatches, List.mem_filter, List.mem_range] at ho
  exact ⟨ho.1, by simpa using ho.2⟩

theorem localMatches_len_le (pat s : List Int) :
    (localMatches pat s).length ≤ s.length := by
  have := List.length_filter_le (fun o => decide (pat <+: s.drop o))
    (List.range s.length)
  simpa using this

/-- A string's code point at a match offset is the pattern's first code
point. -/
theorem match_head (pat s : List Int) (hp : pat ≠ []) (o : Nat)
    (ho : o ∈ localMatches pat s) : s.getD o 0 = pat.getD 0 0 := by
  obtain ⟨hlt, hpre⟩ := localMatches_mem pat s o ho
  obtain ⟨t, ht⟩ := hpre
  have hplen : 0 < pat.length := List.length_pos.2 hp
  have h1 : s.getD o 0 = (s.drop o).getD 0 0 := by
    rw [List.getD_eq_getElem _ _ hlt,
      List.getD_eq_getElem _ _ (by rw [List.length_drop]; omega)]
    simp [List.getElem_drop]
  rw [h1, ← ht, List.getD_eq_getElem _ _ (by rw [List.length_append]; omega),
    List.getD_eq_getElem _ _ hplen, List.getElem_append_left hplen]

theorem pat_head_ne_sep (pat : List Int) (hp : pat ≠ []) (hsep : sep ∉ pat) :
    pat.getD 0 0 ≠ sep := by
  intro he
  apply hsep
  rw [← he, List.getD_eq_getElem _ _ (List.length_pos.2 hp)]
  exact List.getElem_mem _

/-! ## The fill pass over the blocks -/

theorem fillIdxGo_cons (text strIdx : List Int) (st : List GoIdx × Int × Nat)
    (j0 : Int) (rest : List Int) :
    fillIdxGo text strIdx st (j0 :: rest)
      = if tget text j0 = sep ∧ j0 = (text.length : Int) - 1 then st
        else fillIdxGo text strIdx (fillStep text strIdx st j0) rest := rfl

theorem fillIdxGo_append (text strIdx : List Int) :
    ∀ (l1 l2 : List Int) (st : List GoIdx × Int × Nat),
    (∀ j ∈ l1, ¬(tget text j = sep ∧ j = (text.length : Int) - 1)) →
    fillIdxGo text strIdx st (l1 ++ l2)
      = fillIdxGo text strIdx (fillIdxGo text strIdx st l1) l2 := by
  intro l1
  induction l1 with
  | nil => intro l2 st h; rfl
  | cons j0 r ih =>
    intro l2 st h
    rw [List.cons_append, fillIdxGo_cons, fillIdxGo_cons,
      if_neg (h j0 (List.mem_cons_self _ _)),
      if_neg (h j0 (List.mem_cons_self _ _))]
    exact ih l2 _ (fun j hj => h j (List.mem_cons_of_mem _ hj))

/-- Filling one string's block: each position appends its local offset to the
string's record; the counter advances by the block length and `sz` counts the
block once if it is non-empty and the record was untouched. -/
theorem fill_block (text strIdx : List Int) (i0 start : Nat) (s : List Int) :
    ∀ (os : List Nat) (idx : List GoIdx) (prev : Int) (sz c : Nat) (buf : Array Int),
    os.Pairwise (· < ·) →
    (∀ o ∈ os, o < s.length) →
    (∀ o ∈ os, prev < ((start + o : Nat) : Int)) →
    prev < ((start + s.length + 1 : Nat) : Int) →
    (∀ o ∈ os, tget text ((start + o : Nat) : Int) ≠ sep) →
    (∀ o ∈ os, tget strIdx ((start + o : Nat) : Int) = ((i0 : Nat) : Int)) →
    i0 < idx.length →
    idx.getD i0 ⟨0, 0, #[]⟩ = ⟨start, c, buf⟩ →
    c + os.length ≤ buf.size →
    ∃ (buf' : Array Int) (prev' : Int),
      fillIdxGo text strIdx (idx, prev, sz)
          (os.map (fun o => ((start + o : Nat) : Int)))
        = (idx.set i0 ⟨start, c + os.length, buf'⟩, prev',
            sz + (if c = 0 ∧ os ≠ [] then 1 else 0)) ∧
      buf'.size = buf.size ∧
      buf'.toList.take (c + os.length) = buf.toList.take c ++ os.map Int.ofNat ∧
      buf'.toList.drop (c + os.length) = buf.toList.drop (c + os.length) ∧
      prev' < ((start + s.length + 1 : Nat) : Int) := by
  intro os
  induction os with
  | nil =>
    intro idx prev sz c buf hpw hbnd hprev hprev0 htext hstr hi0 hget hsz
    refine ⟨buf, prev, ?_, rfl, by simp, rfl, hprev0⟩
    have hone : (if c = 0 ∧ ([] : List Nat) ≠ [] then 1 else 0) = 0 := by simp
    have hset : idx.set i0 ⟨start, c + ([] : List Nat).length, buf⟩ = idx := by
      simp only [List.length_nil, Nat.add_zero]
      exact list_set_self idx i0 ⟨0, 0, #[]⟩ rfl ⟨start, c, buf⟩ hget hi0
    rw [hone, Nat.add_zero, hset]
    rfl
  | cons o0 os2 ih =>
    intro idx prev sz c buf hpw hbnd hprev hprev0 htext hstr hi0 hget hsz
    rw [List.pairwise_cons] at hpw
    have hmem0 : o0 ∈ o0 :: os2 := List.mem_cons_self _ _
    have hnb : ¬ (tget text ((start + o0 : Nat) : Int) = sep ∧
        ((start + o0 : Nat) : Int) = (text.length : Int) - 1) :=
      fun hc => htext o0 hmem0 hc.1
    have hc_lt : c < buf.size := by
      have hsz2 : c + (os2.length + 1) ≤ buf.size := by simpa using hsz
      omega
    have hstep : fillStep text strIdx (idx, prev, sz) ((start + o0 : Nat) : Int)
        = (idx.set i0 ⟨start, c + 1,
              aset buf ((c : Nat) : Int) ((o0 : Nat) : Int)⟩,
            ((start + o0 : Nat) : Int), if c = 0 then sz + 1 else sz) := by
      simp only [fillStep]
      rw [if_neg (htext o0 hmem0)]
      rw [if_neg (show ¬ ((start + o0 : Nat) : Int) = prev by
        have := hprev o0 hmem0; omega)]
      simp only [hstr o0 hmem0, Int.toNat_natCast, hget]
      rw [show ((start + o0 : Nat) : Int) - ((start : Nat) : Int)
          = ((o0 : Nat) : Int) from by push_cast; omega]
    obtain ⟨buf', prev', heq, hbsz, htake, hdropc, hbnd'⟩ :=
      ih (idx.set i0 ⟨start, c + 1, aset buf ((c : Nat) : Int) ((o0 : Nat) : Int)⟩)
        ((start + o0 : Nat) : Int) (if c = 0 then sz + 1 else sz) (c + 1)
        (aset buf ((c : Nat) : Int) ((o0 : Nat) : Int))
        hpw.2
        (fun o ho => hbnd o (List.mem_cons_of_mem _ ho))
        (fun o ho => by
          have := hpw.1 o ho
          push_cast
          omega)
        (by
          have := hbnd o0 hmem0
          push_cast
          omega)
        (fun o ho => htext o (List.mem_cons_of_mem _ ho))
        (fun o ho => hstr o (List.mem_cons_of_mem _ ho))
        (by simpa using hi0)
        (getD_set_eq idx i0 _ _ hi0)
        (by
          rw [aset_size]
          have hsz2 : c + (os2.length + 1) ≤ buf.size := by simpa using hsz
          omega)
    refine ⟨buf', prev', ?_, by rw [hbsz, aset_size], ?_, ?_, hbnd'⟩
    · show fillIdxGo text strIdx (idx, prev, sz)
        (((start + o0 : Nat) : Int) :: os2.map (fun o => ((start + o : Nat) : Int)))
          = _
      rw [fillIdxGo_cons, if_neg hnb, hstep, heq, List.set_set]
      have hcnt : c + 1 + os2.length = c + (o0 :: os2).length := by
        simp; omega
      rw [hcnt]
      have hszq : (if c = 0 then sz + 1 else sz)
          + (if c + 1 = 0 ∧ os2 ≠ [] then 1 else 0)
          = sz + (if c = 0 ∧ (o0 :: os2) ≠ [] then 1 else 0) := by
        by_cases hc : c = 0 <;> simp [hc]
      rw [hszq]
    · have hlen : c + (o0 :: os2).length = c + 1 + os2.length := by simp; omega
      rw [hlen, htake, aset_toList buf c _ hc_lt,
        take_set_succ _ _ _ (by rw [Array.length_toList]; omega)]
      simp
    · have hlen : c + (o0 :: os2).length = c + 1 + os2.length := by simp; omega
      rw [hlen, hdropc, aset_toList buf c _ hc_lt,
        drop_set_of_lt _ _ _ _ (by omega)]

theorem drop_replicate_gsa (v : Int) (n k : Nat) :
    (List.replicate n v).drop k = List.replicate (n - k) v := by
  induction n generalizing k with
  | zero => simp
  | succ m ih =>
    cases k with
    | zero => simp
    | succ k2 =>
      rw [List.replicate_succ, List.drop_succ_cons, ih]
      congr 1
      omega

/-- Filling all remaining blocks: the remaining records become the filled
records and `sz` counts the strings with occurrences. -/
theorem fill_blocks (text strIdx pat : List Int) (hp : pat ≠ [])
    (hsep : sep ∉ pat) :
    ∀ (src2 : List (List Int)) (start i0 : Nat) (idx : List GoIdx)
      (prev : Int) (sz : Nat),
    i0 + src2.length = idx.length →
    idx.drop i0 = freshIdx start src2 →
    prev < ((start : Nat) : Int) →
    (∀ k, k < src2.length → ∀ o, o < (src2.getD k []).length →
      tget text ((blockStart start src2 k + o : Nat) : Int)
        = (src2.getD k []).getD o 0) →
    (∀ k, k < src2.length → ∀ o, o < (src2.getD k []).length →
      tget strIdx ((blockStart start src2 k + o : Nat) : Int)
        = ((i0 + k : Nat) : Int)) →
    ∃ prev',
      fillIdxGo text strIdx (idx, prev, sz)
          ((blockPositions pat start src2).map (fun p => ((p : Nat) : Int)))
        = (idx.take i0 ++ filledIdx pat start src2, prev',
            sz + matchedCount pat src2) := by
  intro src2
  induction src2 with
  | nil =>
    intro start i0 idx prev sz hlen hdrop hprev htext hstr
    refine ⟨prev, ?_⟩
    have htk : idx.take i0 = idx :=
      List.take_of_length_le (by simpa using Nat.le_of_eq hlen.symm)
    show (idx, prev, sz) = _
    rw [htk]
    simp [filledIdx, matchedCount]
  | cons s rest ih =>
    intro start i0 idx prev sz hlen hdrop hprev htext hstr
    have hlen2 : i0 + (rest.length + 1) = idx.length := by simpa using hlen
    have hi0lt : i0 < idx.length := by omega
    have hdrop2 : idx.drop i0
        = ⟨start, 0, Array.mkArray s.length 0⟩
          :: freshIdx (start + s.length + 1) rest := hdrop
    have hget0 : idx.getD i0 ⟨0, 0, #[]⟩ = ⟨start, 0, Array.mkArray s.length 0⟩ :=
      getD_of_drop_cons _ _ _ _ _ hdrop2
    have htext0 : ∀ o ∈ localMatches pat s,
        tget text ((start + o : Nat) : Int) = pat.getD 0 0 := by
      intro o ho
      have hb := (localMatches_mem pat s o ho).1
      have := htext 0 (by simp) o (by simpa using hb)
      rw [show blockStart start (s :: rest) 0 = start from rfl] at this
      rw [this]
      exact match_head pat s hp o ho
    have hnsep : ∀ o ∈ localMatches pat s,
        tget text ((start + o : Nat) : Int) ≠ sep := by
      intro o ho
      rw [htext0 o ho]
      exact pat_head_ne_sep pat hp hsep
    have hstr0 : ∀ o ∈ localMatches pat s,
        tget strIdx ((start + o : Nat) : Int) = ((i0 : Nat) : Int) := by
      intro o ho
      have hb := (localMatches_mem pat s o ho).1
      have := hstr 0 (by simp) o (by simpa using hb)
      rw [show blockStart start (s :: rest) 0 = start from rfl] at this
      rw [this, Nat.add_zero]
    have hjs : (blockPositions pat start (s :: rest)).map
          (fun p => ((p : Nat) : Int))
        = (localMatches pat s).map (fun o => ((start + o : Nat) : Int))
          ++ (blockPositions pat (start + s.length + 1) rest).map
              (fun p => ((p : Nat) : Int)) := by
      rw [show blockPositions pat start (s :: rest)
          = (localMatches pat s).map (fun o => start + o)
            ++ blockPositions pat (start + s.length + 1) rest from rfl,
        List.map_append, List.map_map]
      rfl
    have hnb1 : ∀ j ∈ (localMatches pat s).map (fun o => ((start + o : Nat) : Int)),
        ¬ (tget text j = sep ∧ j = (text.length : Int) - 1) := by
      intro j hj
      rw [List.mem_map] at hj
      obtain ⟨o, ho, rfl⟩ := hj
      exact fun hc => hnsep o ho hc.1
    obtain ⟨buf', prev1, heq1, hbsz, htake1, hdrop1, hbnd1⟩ :=
      fill_block text strIdx i0 start s (localMatches pat s) idx prev sz 0
        (Array.mkArray s.length 0)
        (localMatches_sorted pat s)
        (fun o ho => (localMatches_mem pat s o ho).1)
        (fun o ho => by push_cast; omega)
        (by push_cast; omega)
        hnsep hstr0 hi0lt hget0
        (by simpa using localMatches_len_le pat s)
    have hbufl : buf'.toList
        = (localMatches pat s).map Int.ofNat
          ++ List.replicate (s.length - (localMatches pat s).length) 0 := by
      have hsplit := (List.take_append_drop (0 + (localMatches pat s).length)
        buf'.toList).symm
      rw [hsplit, htake1, hdrop1]
      rw [show (Array.mkArray s.length (0 : Int)).toList
          = List.replicate s.length 0 from by simp]
      rw [drop_replicate_gsa]
      simp
    have hentry : (⟨start, 0 + (localMatches pat s).length, buf'⟩ : GoIdx)
        = ⟨start, (localMatches pat s).length,
            Array.mk ((localMatches pat s).map Int.ofNat
              ++ List.replicate (s.length - (localMatches pat s).length) 0)⟩ := by
      rw [Nat.zero_add]
      congr 1
      exact array_eq_of_toList _ _ (by rw [hbufl])
    have hmc : (if (0 : Nat) = 0 ∧ localMatches pat s ≠ [] then 1 else 0)
        = (if localMatches pat s = [] then 0 else 1) := by
      by_cases h : localMatches pat s = [] <;> simp [h]
    rw [hentry, hmc] at heq1
    obtain ⟨prev2, heq2⟩ := ih (start + s.length + 1) (i0 + 1)
      (idx.set i0 ⟨start, (localMatches pat s).length,
        Array.mk ((localMatches pat s).map Int.ofNat
          ++ List.replicate (s.length - (localMatches pat s).length) 0)⟩)
      prev1 (sz + if localMatches pat s = [] then 0 else 1)
      (by rw [List.length_set]; omega)
      (by
        rw [drop_set_of_lt _ _ _ _ (Nat.lt_succ_self i0)]
        exact drop_succ_of_drop_cons _ _ _ _ hdrop2)
      hbnd1
      (fun k hk o ho => by
        have := htext (k + 1) (by simpa using Nat.succ_lt_succ hk) o
          (by simpa using ho)
        rw [show blockStart start (s :: rest) (k + 1)
            = blockStart (start + s.length + 1) rest k from rfl] at this
        simpa using this)
      (fun k hk o ho => by
        have := hstr (k + 1) (by simpa using Nat.succ_lt_succ hk) o
          (by simpa using ho)
        rw [show blockStart start (s :: rest) (k + 1)
            = blockStart (start + s.length + 1) rest k from rfl] at this
        rw [this]
        congr 1
        omega)
    refine ⟨prev2, ?_⟩
    rw [hjs, fillIdxGo_append text strIdx _ _ _ hnb1, heq1, heq2]
    rw [take_set_succ _ _ _ hi0lt]
    rw [show filledIdx pat start (s :: rest)
        = ⟨start, (localMatches pat s).length,
            Array.mk ((localMatches pat s).map Int.ofNat
              ++ List.replicate (s.length - (localMatches pat s).length) 0)⟩
          :: filledIdx pat (start + s.length + 1) rest from rfl]
    rw [show matchedCount pat (s :: rest)
        = (if localMatches pat s = [] then 0 else 1) + matchedCount pat rest
        from rfl]
    have hl : (idx.take i0 ++ [(⟨start, (localMatches pat s).length,
          Array.mk ((localMatches pat s).map Int.ofNat
            ++ List.replicate (s.length - (localMatches pat s).length) 0)⟩ : GoIdx)])
          ++ filledIdx pat (start + s.length + 1) rest
        = idx.take i0 ++ (⟨start, (localMatches pat s).length,
            Array.mk ((localMatches pat s).map Int.ofNat
              ++ List.replicate (s.length - (localMatches pat s).length) 0)⟩
            :: filledIdx pat (start + s.length + 1) rest) := by
      simp
    rw [hl]
    have hsz3 : sz + (if localMatches pat s = [] then 0 else 1)
          + matchedCount pat rest
        = sz + ((if localMatches pat s = [] then 0 else 1)
            + matchedCount pat rest) := by
      omega
    rw [hsz3]

/-! ## The collect pass over the blocks -/

theorem makeIndexGo_cons (text strIdx : List Int) (idx : List GoIdx)
    (prev j0 : Int) (rest : List Int) :
    makeIndexGo text strIdx idx prev (j0 :: rest)
      = if tget text j0 = sep ∧ j0 = (text.length : Int) - 1 then (idx, [])
        else
          if (if tget text j0 = sep then j0 + 1 else j0) = prev then
            makeIndexGo text strIdx idx prev rest
          else
            if (idx.getD (tget strIdx
                (if tget text j0 = sep then j0 + 1 else j0)).toNat
                ⟨0, 0, #[]⟩).i = 0 then
              makeIndexGo text strIdx idx prev rest
            else
              ((makeIndexGo text strIdx
                  (idx.set (tget strIdx
                      (if tget text j0 = sep then j0 + 1 else j0)).toNat
                    ⟨(idx.getD (tget strIdx
                        (if tget text j0 = sep then j0 + 1 else j0)).toNat
                        ⟨0, 0, #[]⟩).l, 0,
                      (idx.getD (tget strIdx
                        (if tget text j0 = sep then j0 + 1 else j0)).toNat
                        ⟨0, 0, #[]⟩).sa⟩) prev rest).1,
                (tget strIdx (if tget text j0 = sep then j0 + 1 else j0),
                  (idx.getD (tget strIdx
                      (if tget text j0 = sep then j0 + 1 else j0)).toNat
                      ⟨0, 0, #[]⟩).sa.toList.take
                    (idx.getD (tget strIdx
                      (if tget text j0 = sep then j0 + 1 else j0)).toNat
                      ⟨0, 0, #[]⟩).i)
                  :: (makeIndexGo text strIdx
                      (idx.set (tget strIdx
                          (if tget text j0 = sep then j0 + 1 else j0)).toNat
                        ⟨(idx.getD (tget strIdx
                            (if tget text j0 = sep then j0 + 1 else j0)).toNat
                            ⟨0, 0, #[]⟩).l, 0,
                          (idx.getD (tget strIdx
                            (if tget text j0 = sep then j0 + 1 else j0)).toNat
                            ⟨0, 0, #[]⟩).sa⟩) prev rest).2) := rfl

theorem makeIndexGo_append (text strIdx : List Int) :
    ∀ (l1 l2 : List Int) (idx : List GoIdx) (prev : Int),
    (∀ j ∈ l1, tget text j ≠ sep) →
    makeIndexGo text strIdx idx prev (l1 ++ l2)
      = ((makeIndexGo text strIdx
            (makeIndexGo text strIdx idx prev l1).1 prev l2).1,
          (makeIndexGo text strIdx idx prev l1).2
            ++ (makeIndexGo text strIdx
                (makeIndexGo text strIdx idx prev l1).1 prev l2).2) := by
  intro l1
  induction l1 with
  | nil => intro l2 idx prev h; rfl
  | cons j0 r ih =>
    intro l2 idx prev h
    have hns : tget text j0 ≠ sep := h j0 (List.mem_cons_self _ _)
    have htail : ∀ j ∈ r, tget text j ≠ sep :=
      fun j hj => h j (List.mem_cons_of_mem _ hj)
    have hnb : ¬ (tget text j0 = sep ∧ j0 = (text.length : Int) - 1) :=
      fun hc => hns hc.1
    rw [List.cons_append, makeIndexGo_cons, makeIndexGo_cons]
    simp only [if_neg hnb, if_neg hns]
    by_cases h1 : j0 = prev
    · simp only [if_pos h1]
      exact ih l2 idx prev htail
    · simp only [if_neg h1]
      by_cases h2 : (idx.getD (tget strIdx j0).toNat ⟨0, 0, #[]⟩).i = 0
      · simp only [if_pos h2]
        exact ih l2 idx prev htail
      · simp only [if_neg h2]
        rw [ih l2 _ prev htail]
        simp

/-- Skipping the tail of a block in the collect pass: the record's counter is
already zero, so every further position of this string is ignored. -/
theorem make_skip (text strIdx : List Int) (i0 start : Nat) (hstart : 1 ≤ start) :
    ∀ (os : List Nat) (idx : List GoIdx) (buf : Array Int),
    (∀ o ∈ os, tget text ((start + o : Nat) : Int) ≠ sep) →
    (∀ o ∈ os, tget strIdx ((start + o : Nat) : Int) = ((i0 : Nat) : Int)) →
    idx.getD i0 ⟨0, 0, #[]⟩ = ⟨start, 0, buf⟩ →
    makeIndexGo text strIdx idx 0 (os.map (fun o => ((start + o : Nat) : Int)))
      = (idx, []) := by
  intro os
  induction os with
  | nil => intro idx buf _ _ _; rfl
  | cons o0 os2 ih =>
    intro idx buf htext hstr hget
    have hmem0 : o0 ∈ o0 :: os2 := List.mem_cons_self _ _
    show makeIndexGo text strIdx idx 0
      (((start + o0 : Nat) : Int) :: os2.map (fun o => ((start + o : Nat) : Int)))
      = _
    rw [makeIndexGo_cons, if_neg (fun hc => htext o0 hmem0 hc.1)]
    simp only [if_neg (htext o0 hmem0)]
    rw [if_neg (show ¬ ((start + o0 : Nat) : Int) = 0 by push_cast; omega)]
    rw [hstr o0 hmem0]
    simp only [Int.toNat_natCast]
    rw [hget]
    rw [if_pos rfl]
    exact ih idx buf (fun o ho => htext o (List.mem_cons_of_mem _ ho))
      (fun o ho => hstr o (List.mem_cons_of_mem _ ho)) hget

/-- Collecting one block: the first position surfaces the record's written
prefix and zeroes the counter, the rest of the block is skipped. -/
theorem make_block (text strIdx : List Int) (i0 start : Nat) (hstart : 1 ≤ start) :
    ∀ (os : List Nat) (idx : List GoIdx) (buf : Array Int),
    os ≠ [] →
    (∀ o ∈ os, tget text ((start + o : Nat) : Int) ≠ sep) →
    (∀ o ∈ os, tget strIdx ((start + o : Nat) : Int) = ((i0 : Nat) : Int)) →
    i0 < idx.length →
    idx.getD i0 ⟨0, 0, #[]⟩ = ⟨start, os.length, buf⟩ →
    makeIndexGo text strIdx idx 0 (os.map (fun o => ((start + o : Nat) : Int)))
      = (idx.set i0 ⟨start, 0, buf⟩,
          [(((i0 : Nat) : Int), buf.toList.take os.length)]) := by
  intro os
  cases os with
  | nil => intro idx buf hne; exact absurd rfl hne
  | cons o0 os2 =>
    intro idx buf hne htext hstr hlen hget
    have hmem0 : o0 ∈ o0 :: os2 := List.mem_cons_self _ _
    show makeIndexGo text strIdx idx 0
      (((start + o0 : Nat) : Int) :: os2.map (fun o => ((start + o : Nat) : Int)))
      = _
    rw [makeIndexGo_cons, if_neg (fun hc => htext o0 hmem0 hc.1)]
    simp only [if_neg (htext o0 hmem0)]
    rw [if_neg (show ¬ ((start + o0 : Nat) : Int) = 0 by push_cast; omega)]
    rw [hstr o0 hmem0]
    simp only [Int.toNat_natCast]
    rw [hget]
    rw [if_neg (by simp)]
    rw [make_skip text strIdx i0 start hstart os2 (idx.set i0 ⟨start, 0, buf⟩)
      buf (fun o ho => htext o (List.mem_cons_of_mem _ ho))
      (fun o ho => hstr o (List.mem_cons_of_mem _ ho))
      (getD_set_eq idx i0 _ _ hlen)]

/-- Collecting all remaining blocks yields the per-string grouping in order
of string id. -/
theorem make_blocks (text strIdx pat : List Int) (hp : pat ≠ [])
    (hsep : sep ∉ pat) :
    ∀ (src2 : List (List Int)) (start i0 : Nat) (idx : List GoIdx),
    1 ≤ start →
    i0 + src2.length = idx.length →
    idx.drop i0 = filledIdx pat start src2 →
    (∀ k, k < src2.length → ∀ o, o < (src2.getD k []).length →
      tget text ((blockStart start src2 k + o : Nat) : Int)
        = (src2.getD k []).getD o 0) →
    (∀ k, k < src2.length → ∀ o, o < (src2.getD k []).length →
      tget strIdx ((blockStart start src2 k + o : Nat) : Int)
        = ((i0 + k : Nat) : Int)) →
    (makeIndexGo text strIdx idx 0
        ((blockPositions pat start src2).map (fun p => ((p : Nat) : Int)))).2
      = gsaSpecFrom pat i0 src2 := by
  intro src2
  induction src2 with
  | nil => intro start i0 idx _ _ _ _ _; rfl
  | cons s rest ih =>
    intro start i0 idx hstart hlen hdrop htext hstr
    have hlen2 : i0 + (rest.length + 1) = idx.length := by simpa using hlen
    have hi0lt : i0 < idx.length := by omega
    have hdrop2 : idx.drop i0
        = ⟨start, (localMatches pat s).length,
            Array.mk ((localMatches pat s).map Int.ofNat
              ++ List.replicate (s.length - (localMatches pat s).length) 0)⟩
          :: filledIdx pat (start + s.length + 1) rest := hdrop
    have hget0 := getD_of_drop_cons _ _ _ _ (⟨0, 0, #[]⟩ : GoIdx) hdrop2
    have htext0 : ∀ o ∈ localMatches pat s,
        tget text ((start + o : Nat) : Int) = pat.getD 0 0 := by
      intro o ho
      have hb := (localMatches_mem pat s o ho).1
      have := htext 0 (by simp) o (by simpa using hb)
      rw [show blockStart start (s :: rest) 0 = start from rfl] at this
      rw [this]
      exact match_head pat s hp o ho
    have hnsep : ∀ o ∈ localMatches pat s,
        tget text ((start + o : Nat) : Int) ≠ sep := by
      intro o ho
      rw [htext0 o ho]
      exact pat_head_ne_sep pat hp hsep
    have hstr0 : ∀ o ∈ localMatches pat s,
        tget strIdx ((start + o : Nat) : Int) = ((i0 : Nat) : Int) := by
      intro o ho
      have hb := (localMatches_mem pat s o ho).1
      have := hstr 0 (by simp) o (by simpa using hb)
      rw [show blockStart start (s :: rest) 0 = start from rfl] at this
      rw [this, Nat.add_zero]
    have hjs : (blockPositions pat start (s :: rest)).map
          (fun p => ((p : Nat) : Int))
        = (localMatches pat s).map (fun o => ((start + o : Nat) : Int))
          ++ (blockPositions pat (start + s.length + 1) rest).map
              (fun p => ((p : Nat) : Int)) := by
      rw [show blockPositions pat start (s :: rest)
          = (localMatches pat s).map (fun o => start + o)
            ++ blockPositions pat (start + s.length + 1) rest from rfl,
        List.map_append, List.map_map]
      rfl
    have hih : ∀ (idx2 : List GoIdx),
        i0 + 1 + rest.length = idx2.length →
        idx2.drop (i0 + 1) = filledIdx pat (start + s.length + 1) rest →
        (makeIndexGo text strIdx idx2 0
            ((blockPositions pat (start + s.length + 1) rest).map
              (fun p => ((p : Nat) : Int)))).2
          = gsaSpecFrom pat (i0 + 1) rest := by
      intro idx2 hl2 hd2
      exact ih (start + s.length + 1) (i0 + 1) idx2 (by omega) hl2 hd2
        (fun k hk o ho => by
          have := htext (k + 1) (by simpa using Nat.succ_lt_succ hk) o
            (by simpa using ho)
          rw [show blockStart start (s :: rest) (k + 1)
              = blockStart (start + s.length + 1) rest k from rfl] at this
          simpa using this)
        (fun k hk o ho => by
          have := hstr (k + 1) (by simpa using Nat.succ_lt_succ hk) o
            (by simpa using ho)
          rw [show blockStart start (s :: rest) (k + 1)
              = blockStart (start + s.length + 1) rest k from rfl] at this
          rw [this]
          congr 1
          omega)
    rw [hjs, makeIndexGo_append text strIdx _ _ _ _
      (by
        intro j hj
        rw [List.mem_map] at hj
        obtain ⟨o, ho, rfl⟩ := hj
        exact hnsep o ho)]
    by_cases hloc : localMatches pat s = []
    · have hblk : makeIndexGo text strIdx idx 0
          ((localMatches pat s).map (fun o => ((start + o : Nat) : Int)))
          = (idx, []) := by
        rw [hloc]
        rfl
      rw [hblk]
      show (makeIndexGo text strIdx idx 0 _).2 = _
      rw [show gsaSpecFrom pat i0 (s :: rest)
          = if localMatches pat s = [] then gsaSpecFrom pat (i0 + 1) rest
            else (((i0 : Nat) : Int), (localMatches pat s).map Int.ofNat)
              :: gsaSpecFrom pat (i0 + 1) rest from rfl,
        if_pos hloc]
      apply hih idx (by omega)
      rw [drop_succ_of_drop_cons _ _ _ _ hdrop2]
    · have hblk := make_block text strIdx i0 start hstart (localMatches pat s)
        idx (Array.mk ((localMatches pat s).map Int.ofNat
          ++ List.replicate (s.length - (localMatches pat s).length) 0))
        hloc hnsep hstr0 hi0lt hget0
      rw [hblk]
      have htk : (Array.mk ((localMatches pat s).map Int.ofNat
            ++ List.replicate (s.length - (localMatches pat s).length)
              0)).toList.take (localMatches pat s).length
          = (localMatches pat s).map Int.ofNat := by
        rw [show (Array.mk ((localMatches pat s).map Int.ofNat
            ++ List.replicate (s.length - (localMatches pat s).length)
              0)).toList = (localMatches pat s).map Int.ofNat
            ++ List.replicate (s.length - (localMatches pat s).length) 0
          from rfl]
        rw [show (localMatches pat s).length
            = ((localMatches pat s).map Int.ofNat).length from by simp]
        exact List.take_left _ _
      have hrest := hih (idx.set i0 ⟨start, 0,
          Array.mk ((localMatches pat s).map Int.ofNat
            ++ List.replicate (s.length - (localMatches pat s).length) 0)⟩)
        (by rw [List.length_set]; omega)
        (by
          rw [drop_set_of_lt _ _ _ _ (Nat.lt_succ_self i0)]
          exact drop_succ_of_drop_cons _ _ _ _ hdrop2)
      rw [show gsaSpecFrom pat i0 (s :: rest)
          = if localMatches pat s = [] then gsaSpecFrom pat (i0 + 1) rest
            else (((i0 : Nat) : Int), (localMatches pat s).map Int.ofNat)
              :: gsaSpecFrom pat (i0 + 1) rest from rfl,
        if_neg hloc]
      dsimp only
      rw [htk, hrest]
      rfl

/-! ## Assembling the GSA projection -/

theorem freshIdx_length : ∀ (start : Nat) (src : List (List Int)),
    (freshIdx start src).length = src.length := by
  intro start src
  induction src generalizing start with
  | nil => rfl
  | cons s rest ih => simp [freshIdx, ih]

theorem filledIdx_length (pat : List Int) : ∀ (start : Nat) (src : List (List Int)),
    (filledIdx pat start src).length = src.length := by
  intro start src
  induction src generalizing start with
  | nil => rfl
  | cons s rest ih => simp [filledIdx, ih]

theorem gsaSpecFrom_length (pat : List Int) : ∀ (src : List (List Int)) (i : Nat),
    (gsaSpecFrom pat i src).length = matchedCount pat src := by
  intro src
  induction src with
  | nil => intro i; rfl
  | cons s rest ih =>
    intro i
    rw [show gsaSpecFrom pat i (s :: rest)
        = if localMatches pat s = [] then gsaSpecFrom pat (i + 1) rest
          else (((i : Nat) : Int), (localMatches pat s).map Int.ofNat)
            :: gsaSpecFrom pat (i + 1) rest from rfl,
      show matchedCount pat (s :: rest)
        = (if localMatches pat s = [] then 0 else 1) + matchedCount pat rest
        from rfl]
    by_cases h : localMatches pat s = []
    · rw [if_pos h, if_pos h, ih]
      omega
    · rw [if_neg h, if_neg h, List.length_cons, ih]
      omega

/-- The grouping passes of `GSA.LookupTextOrder` on the text-ordered matches
of the concatenation produce exactly the per-string grouping. -/
theorem gsa_projection_aux (src : List (List Int)) (sa pat : List Int)
    (hp : pat ≠ []) (hsep : sep ∉ pat)
    (hres : lookupTextOrder (gsaText src) sa pat
      = (matchPositions pat (gsaText src)).map Int.ofNat) :
    GSA.LookupTextOrder (GSA.mk32 src sa) pat = gsaSpecFrom pat 0 src := by
  have hmp : (matchPositions pat (gsaText src)).map Int.ofNat
      = (blockPositions pat 1 src).map (fun p => ((p : Nat) : Int)) := by
    rw [matchPositions_gsa pat src hp hsep]
    rfl
  have htext := gsaText_content src
  have hstr0 : ∀ k, k < src.length → ∀ o, o < (src.getD k []).length →
      tget (gsaStrIdx src) ((blockStart 1 src k + o : Nat) : Int)
        = ((0 + k : Nat) : Int) := by
    intro k hk o ho
    rw [gsaStrIdx_content src k hk o ho]
    congr 1
    omega
  obtain ⟨prevF, hfill⟩ := fill_blocks (gsaText src) (gsaStrIdx src) pat hp hsep
    src 1 0 (freshIdx 1 src) 0 0
    (by rw [freshIdx_length]; omega)
    (by rfl)
    (by norm_num)
    htext hstr0
  rw [show (freshIdx 1 src).take 0 = [] from rfl, List.nil_append,
    Nat.zero_add] at hfill
  have hmake := make_blocks (gsaText src) (gsaStrIdx src) pat hp hsep
    src 1 0 (filledIdx pat 1 src) (le_refl 1)
    (by rw [filledIdx_length]; omega)
    (by rfl)
    htext hstr0
  have hbody : GSA.LookupTextOrder (GSA.mk32 src sa) pat
      = ((makeIndexGo (gsaText src) (gsaStrIdx src)
            (fillIdxGo (gsaText src) (gsaStrIdx src) (freshIdx 1 src, 0, 0)
              (lookupTextOrder (gsaText src) sa pat)).1 0
            (lookupTextOrder (gsaText src) sa pat)).2
          ++ (List.replicate src.length ((0 : Int), ([] : List Int))).drop
              (makeIndexGo (gsaText src) (gsaStrIdx src)
                (fillIdxGo (gsaText src) (gsaStrIdx src) (freshIdx 1 src, 0, 0)
                  (lookupTextOrder (gsaText src) sa pat)).1 0
                (lookupTextOrder (gsaText src) sa pat)).2.length).take
          (fillIdxGo (gsaText src) (gsaStrIdx src) (freshIdx 1 src, 0, 0)
            (lookupTextOrder (gsaText src) sa pat)).2.2 := rfl
  rw [hbody, hres, hmp, hfill]
  dsimp only
  rw [hmake]
  rw [show (gsaSpecFrom pat 0 src).length = matchedCount pat src from
    gsaSpecFrom_length pat src 0]
  rw [show matchedCount pat src = (gsaSpecFrom pat 0 src).length from
    (gsaSpecFrom_length pat src 0).symm]
  exact List.take_left _ _

/-- The empty-argument loop on all-non-empty sources returns one record per
string, in order of string id. -/
theorem gsaEmptyLoop_spec (f : List Int → Int) :
    ∀ (src : List (List Int)) (i0 : Nat), (∀ s ∈ src, s ≠ []) →
    gsaEmptyLoop f i0 src
      = some ((List.range src.length).map
          (fun k => (((i0 + k : Nat) : Int), [f (src.getD k [])]))) := by
  intro src
  induction src with
  | nil => intro i0 _; rfl
  | cons s rest ih =>
    intro i0 h
    have hs : 0 < s.length :=
      List.length_pos.2 (h s (List.mem_cons_self _ _))
    rw [show gsaEmptyLoop f i0 (s :: rest)
        = if 0 < s.length then
            match gsaEmptyLoop f (i0 + 1) rest with
            | none => none
            | some tl => some ((((i0 : Nat) : Int), [f s]) :: tl)
          else none from rfl,
      if_pos hs, ih (i0 + 1) (fun x hx => h x (List.mem_cons_of_mem _ hx))]
    show some _ = some _
    congr 1
    rw [List.length_cons, List.range_succ_eq_map, List.map_cons, List.map_map]
    have hhead : ((((i0 + 0 : Nat) : Int), [f ((s :: rest).getD 0 [])]) : Int × List Int)
        = (((i0 : Nat) : Int), [f s]) := by
      rw [Nat.add_zero]
      rfl
    have htail : (List.range rest.length).map
        ((fun k => (((i0 + k : Nat) : Int), [f ((s :: rest).getD k [])])) ∘ Nat.succ)
        = (List.range rest.length).map
          (fun k => (((i0 + 1 + k : Nat) : Int), [f (rest.getD k [])])) := by
      apply List.map_congr_left
      intro k hk
      show (((i0 + (k + 1) : Nat) : Int), [f (rest.getD k [])])
        = (((i0 + 1 + k : Nat) : Int), [f (rest.getD k [])])
      have hk2 : i0 + (k + 1) = i0 + 1 + k := by omega
      rw [hk2]
    rw [hhead, htail]


/-- Claim C3: on a GSA whose suffix array is a sorted permutation of the
positions of the concatenated text, `GSA.LookupTextOrder` of a non-empty,
separator-free pattern over separator-free source strings returns exactly the
per-string grouping of the pattern's matches — `{stringId, [local offsets in
text order]}`, strings without occurrences omitted, in order of string id —
which is the per-string grouping of `Lookup` run on each string separately.
Because the pattern is non-empty and separator-free, no match position lands
on a separator (its code point is the pattern's head), so the forwarding and
the trailing-separator break of `fillIdx` never fire on these inputs. -/
theorem C3_gsa_projection (src : List (List Int)) (sa pat : List Int)
    (hsrc : src ≠ [])
    (hsepsrc : ∀ s ∈ src, sep ∉ s)
    (hp : pat ≠ []) (hsep : sep ∉ pat)
    (hperm : sa.Perm ((List.range (gsaText src).length).map Int.ofNat))
    (hsort : sa.Pairwise (fun a b =>
      cmpList ((gsaText src).drop a.toNat) ((gsaText src).drop b.toNat) = -1)) :
    GSA.LookupTextOrder (GSA.mk32 src sa) pat = gsaSpecFrom pat 0 src :=
  gsa_projection_aux src sa pat hp hsep
    ((lookup_sound_main (gsaText src) sa pat hperm hsort).2)

set_option maxRecDepth 100000 in
/-- Witness for claim C3 on the sources `"ab"`, `"b"` with pattern `"b"`:
string 0 matches at offset 1, string 1 at offset 0. -/
theorem C3_gsa_projection_witness :
    ([[97, 98], [98]] : List (List Int)) ≠ [] ∧
    (([1, 4, 2, 5, 0, 3] : List Int)).Perm
      ((List.range (gsaText [[97, 98], [98]]).length).map Int.ofNat) ∧
    GSA.LookupTextOrder (GSA.mk32 [[97, 98], [98]] [1, 4, 2, 5, 0, 3]) [98]
      = [(0, [1]), (1, [0])] := by
  have h := C3_gsa_projection [[97, 98], [98]] [1, 4, 2, 5, 0, 3] [98]
    (by decide) (by decide) (by decide) (by decide) (by decide) (by decide)
  exact ⟨by decide, by decide, h.trans (by rfl)⟩

/-- Claim C9, counterexample: on a GSA built from a single empty source
string, both empty-argument queries write into slot 0 of an empty scratch
window — a Go panic (index out of range), modelled as `none` — instead of
returning the per-string records the claim promises. -/
theorem C9_counterexample :
    GSA.LookupSuffix (GSA.new32 [[]]) [] = none ∧
    GSA.LookupPrefix (GSA.new32 [[]]) [] = none := by
  constructor <;> rfl

/-- Claim C9, amended: on a GSA built from a non-empty list of non-empty
source strings, `LookupSuffix` with an empty argument returns
`{i, [len(T_i)]}` for every `i` and `LookupPrefix` with an empty argument
returns `{i, [-1]}` for every `i`, one record per string in order of string
id. -/
theorem C9_gsa_empty_args (src : List (List Int)) (hsrc : src ≠ [])
    (hne : ∀ s ∈ src, s ≠ []) :
    GSA.LookupSuffix (GSA.new32 src) []
      = some ((List.range src.length).map
          (fun k => (((k : Nat) : Int), [((src.getD k []).length : Int)]))) ∧
    GSA.LookupPrefix (GSA.new32 src) []
      = some ((List.range src.length).map
          (fun k => (((k : Nat) : Int), ([-1] : List Int)))) := by
  constructor
  · show gsaEmptyLoop (fun s => (s.length : Int)) 0 (GSA.new32 src).src = _
    rw [show (GSA.new32 src).src = src from rfl]
    rw [gsaEmptyLoop_spec _ src 0 hne]
    congr 1
    apply List.map_congr_left
    intro k hk
    show (((0 + k : Nat) : Int), [((src.getD k []).length : Int)])
      = (((k : Nat) : Int), [((src.getD k []).length : Int)])
    rw [Nat.zero_add]
  · show gsaEmptyLoop (fun _ => (-1 : Int)) 0 (GSA.new32 src).src = _
    rw [show (GSA.new32 src).src = src from rfl]
    rw [gsaEmptyLoop_spec _ src 0 hne]
    congr 1
    apply List.map_congr_left
    intro k hk
    show (((0 + k : Nat) : Int), ([-1] : List Int))
      = (((k : Nat) : Int), ([-1] : List Int))
    rw [Nat.zero_add]

/-- Witness for claim C9 on the sources `"a"`, `"bc"`: the empty-suffix query
returns the string lengths, the empty-prefix query returns `-1` records. -/
theorem C9_gsa_empty_args_witness :
    ([[97], [98, 99]] : List (List Int)) ≠ [] ∧
    GSA.LookupSuffix (GSA.new32 [[97], [98, 99]]) []
      = some [(0, [1]), (1, [2])] ∧
    GSA.LookupPrefix (GSA.new32 [[97], [98, 99]]) []
      = some [(0, [-1]), (1, [-1])] := by
  have h := C9_gsa_empty_args [[97], [98, 99]] (by decide) (by decide)
  exact ⟨by decide, h.1.trans (by rfl), h.2.trans (by rfl)⟩

end Suffixarr